import Mathlib

/-! # gff_to_db: a shallow embedding of the hierarchy-resolution engine

The development follows `gff_db.h`, `gff_db.cpp` and `main.cpp`.

Modelling conventions.

* `unsigned long` / `size_t` fields are `Nat`; the only place where the width
  is visible is the synthesized region, whose `f_end` is `(unsigned long)(-1)`,
  written `2 ^ 64 - 1`.  Counters are only ever incremented by one, so they
  cannot wrap on any input that fits in memory.
* `int` fields are `Int`.
* `std::string` is `String`; the order on `std::string` (lexicographic on
  bytes) coincides with the order on `String` (lexicographic on code points).
* `std::map<K, V>` is a list of key/value pairs kept in increasing key order,
  `std::set<T>` a list kept in increasing order; iteration is list order.
* The field `attribute` is named `attribute_` (the former is a keyword).
* The field `score` (a `double`) is read by no function of the program other
  than the line constructor and is left out of the record.
* `char strand` is a `Char`.  `operator<` compares two strands as `char`, a
  signed type on the usual platforms; the comparison of the model agrees with
  it for strands that are ASCII characters, as the strands of the format are.
* The library conversions `std::stoul` and `std::stod` are parameters of the
  line constructor `gff_feature.of_line`; an exception, which ends the
  program, is the result `none`.
-/

namespace GffDb

/-! ## Ordered containers -/

/-- The order on strings is decided by comparing the character lists, which
evaluates by plain reduction on string literals. -/
instance (priority := 2000) string_decLt : DecidableRel (fun a b : String => a < b) :=
  fun a b => decidable_of_iff (a.toList < b.toList) String.lt_iff_toList_lt.symm

/-- Lookup `std::map::find`: the value stored under key `k`, if any. -/
def map_find {κ α : Type} [DecidableEq κ] : List (κ × α) → κ → Option α
  | [], _ => none
  | (k', v) :: rest, k => if k' = k then some v else map_find rest k

/-- Insertion `std::map::insert`: the pair is added at its place in key order;
when the key is already present the map is left as it is (no overwrite). -/
def map_insert {κ α : Type} [LT κ] [DecidableRel (fun a b : κ => a < b)] :
    List (κ × α) → κ → α → List (κ × α)
  | [], k, v => [(k, v)]
  | (k', v') :: rest, k, v =>
    if k < k' then (k, v) :: (k', v') :: rest
    else if k' < k then (k', v') :: map_insert rest k v
    else (k', v') :: rest

/-- Replace the value stored under `k` by its image under `g` (writing through a
pointer or reference to a map element). -/
def map_modify {κ α : Type} [DecidableEq κ] (g : α → α) : List (κ × α) → κ → List (κ × α)
  | [], _ => []
  | (k', v) :: rest, k =>
    if k' = k then (k', g v) :: rest else (k', v) :: map_modify g rest k

/-- Insertion `std::set<std::string>::insert`. -/
def sset_insert : List String → String → List String
  | [], s => [s]
  | t :: rest, s =>
    if s < t then s :: t :: rest
    else if t < s then t :: sset_insert rest s
    else t :: rest

/-! ## Features (`struct gff_feature`) -/

/-- One entry of a gff file, `struct gff_feature`. -/
structure gff_feature where
  valid : Bool
  db_id : Nat
  id : String
  parent : String
  parent_id : Nat
  seqname : String
  source : String
  feature : String
  f_start : Nat
  f_end : Nat
  strand : Char
  frame : Int
  attribute_ : String
  attributes : List (String × String)
  feature_rank : Int
  child_count : Int
  exon_count : Int
  cds_count : Int
  annotation : List (Int × List String)
  deriving DecidableEq, Repr

namespace gff_feature

/-- The last two tie-breakers of `operator<` share one shape: when both
features carry the attribute `key` and the values differ, the values decide. -/
def attr_differs (a b : gff_feature) (key : String) : Bool :=
  match map_find a.attributes key, map_find b.attributes key with
  | some x, some y => decide (x ≠ y)
  | _, _ => false

/-- Value comparison used once `attr_differs` holds. -/
def attr_lt (a b : gff_feature) (key : String) : Bool :=
  match map_find a.attributes key, map_find b.attributes key with
  | some x, some y => decide (x < y)
  | _, _ => false

/-- The ordering `gff_feature::operator<` (`this` is `a`, `other` is `b`).  The
strand tie-breaker compares code points, which is the comparison of the source
(on `char`) for ASCII strands. -/
def lt (a b : gff_feature) : Bool :=
  if a.valid = false ∨ b.valid = false then false
  else if a.seqname ≠ b.seqname then decide (a.seqname < b.seqname)
  else if a.f_start ≠ b.f_start then decide (a.f_start < b.f_start)
  else if a.f_end ≠ b.f_end then decide (a.f_end > b.f_end)
  else if a.feature_rank ≠ b.feature_rank then decide (a.feature_rank > b.feature_rank)
  else if a.strand ≠ b.strand then decide (a.strand < b.strand)
  else if attr_differs a b "id" then attr_lt a b "id"
  else if attr_differs a b "parent" then attr_lt a b "parent"
  else false

/-- Range test `gff_feature::overlaps` (`this` is `a`, `other` is `b`). -/
def overlaps (a b : gff_feature) : Bool :=
  decide (b.seqname = a.seqname) && decide (b.f_start ≤ a.f_end) && decide (b.f_end ≥ a.f_start)

/-- Range test `gff_feature::contains`: the guard `f_start < 0` of the source
is on an unsigned field and never holds. -/
def contains (a b : gff_feature) : Bool :=
  decide (b.seqname = a.seqname) && (decide (b.f_start ≥ a.f_start) && decide (b.f_end ≤ a.f_end))

/-- Coordinate identity `gff_feature::range_feature_identical`. -/
def range_feature_identical (a b : gff_feature) : Bool :=
  decide (b.seqname = a.seqname) && decide (b.f_start = a.f_start) &&
    decide (b.f_end = a.f_end) && decide (b.feature = a.feature) &&
    decide (b.strand = a.strand)

end gff_feature

/-- Insertion `std::set<gff_feature>::insert` with `operator<` as comparator:
elements below `x` are passed over; at the first element that is not below `x`
the new element is placed in front of it when `x` is below it, and dropped when
the two are equivalent.  This is the behaviour of the library whenever the
comparator is a strict weak ordering on the elements at hand. -/
def set_insert : List gff_feature → gff_feature → List gff_feature
  | [], x => [x]
  | y :: rest, x =>
    if y.lt x then y :: set_insert rest x
    else if x.lt y then x :: y :: rest
    else y :: rest

/-- The annotation update `annotation[idx].insert(v)` on a
`std::map<int, std::set<std::string>>`. -/
def annotation_insert : List (Int × List String) → Int → String → List (Int × List String)
  | [], idx, v => [(idx, [v])]
  | (j, vs) :: rest, idx, v =>
    if idx < j then (idx, [v]) :: (j, vs) :: rest
    else if j < idx then (j, vs) :: annotation_insert rest idx v
    else (j, sset_insert vs v) :: rest

/-- Method `gff_feature::add_annotation`: for every field whose name is an
attribute of `feat`, the value joins the set stored under the field index. -/
def gff_feature.add_annotation (self feat : gff_feature) :
    List (Int × String) → gff_feature
  | [] => self
  | (idx, name) :: fields =>
    match map_find feat.attributes name with
    | some v =>
      gff_feature.add_annotation
        { self with annotation := annotation_insert self.annotation idx v } feat fields
    | none => gff_feature.add_annotation self feat fields

/-- Constructor `gff_feature(size_t db_id, std::string feature, int feature_rank,
const gff_feature& src)`.  The members `id` and `annotation` are default
constructed; `parent_id` is not initialised by the constructor, its value is
whatever the storage holds and is passed in as `uninit_parent_id`. -/
def gff_feature.from_src (uninit_parent_id : Nat) (db_id : Nat) (feature : String)
    (feature_rank : Int) (src : gff_feature) : gff_feature :=
  { valid := true, db_id := db_id, id := "", parent := src.parent,
    parent_id := uninit_parent_id, seqname := src.seqname, source := src.source,
    feature := feature, f_start := src.f_start, f_end := src.f_end,
    strand := src.strand, frame := src.frame, attribute_ := "",
    attributes := src.attributes, feature_rank := feature_rank,
    child_count := 0, exon_count := 0, cds_count := 0, annotation := [] }

/-- Constructor `gff_feature(size_t db_id, std::string seqname, std::string
feature, int feature_rank)`, used for a region that the file does not define. -/
def gff_feature.for_region (db_id : Nat) (seqname feature : String)
    (feature_rank : Int) : gff_feature :=
  { valid := true, db_id := db_id, id := seqname, parent := "", parent_id := 0,
    seqname := seqname, source := ".", feature := feature, f_start := 0,
    f_end := 2 ^ 64 - 1, strand := '+', frame := -1, attribute_ := "",
    attributes := [], feature_rank := feature_rank,
    child_count := 0, exon_count := 0, cds_count := 0, annotation := [] }

/-! ## The parent window (`struct gff_parent_collection`) -/

/-- One bucket of the window, a `std::map<std::string, gff_feature>`. -/
abbrev bucket := List (String × gff_feature)

/-- The window `struct gff_parent_collection`. -/
structure gff_parent_collection where
  parents : List bucket
  v_offset : Int

/-- Constructor `gff_parent_collection(int v_offset)`. -/
def gff_parent_collection.mk_empty (v_offset : Int) : gff_parent_collection :=
  { parents := List.replicate v_offset.toNat [], v_offset := v_offset }

/-- Apply `g` to the element at index `i` (an access `v[i]` that writes). -/
def modify_at {α : Type} (g : α → α) : List α → Nat → List α
  | [], _ => []
  | x :: xs, 0 => g x :: xs
  | x :: xs, i + 1 => x :: modify_at g xs i

/-- Inner loop of `prune_parents` over one bucket: the entries kept, and the
entries erased in iteration order. -/
def prune_bucket (feature : gff_feature) : bucket → bucket × List gff_feature
  | [] => ([], [])
  | e :: rest =>
    let r := prune_bucket feature rest
    if !(e.2.overlaps feature) then (r.1, e.2 :: r.2) else (e :: r.1, r.2)

/-- Outer loop of `prune_parents` over the buckets. -/
def prune_buckets (feature : gff_feature) : List bucket → List bucket × List gff_feature
  | [] => ([], [])
  | b :: bs =>
    let r := prune_bucket feature b
    let rs := prune_buckets feature bs
    (r.1 :: rs.1, r.2 ++ rs.2)

namespace gff_parent_collection

/-- Method `gff_parent_collection::prune_parents`: the window after the call
and the vector `discarded` it returns. -/
def prune_parents (w : gff_parent_collection) (feature : gff_feature) :
    gff_parent_collection × List gff_feature :=
  let r := prune_buckets feature w.parents
  ({ w with parents := r.1 }, r.2)

/-- Method `gff_parent_collection::insert_parent`. -/
def insert_parent (w : gff_parent_collection) (feature : gff_feature) :
    gff_parent_collection :=
  let i : Int := feature.feature_rank - w.v_offset
  if i < 0 ∨ i ≥ (w.parents.length : Int) then w
  else
    let id := if feature.feature = "region" then feature.seqname else feature.id
    { w with parents := modify_at (fun b => map_insert b id feature) w.parents i.toNat }

/-- The loop of `get_parent`: the index of the first bucket, counting from `i`,
that has an entry under `key`. -/
def find_bucket (key : String) : List bucket → Nat → Option Nat
  | [], _ => none
  | b :: bs, i =>
    if (map_find b key).isSome then some i else find_bucket key bs (i + 1)

/-- First index visited by `get_parent`. -/
def get_parent_beg (w : gff_parent_collection) (child : gff_feature) : Nat :=
  let beg : Int := 1 + child.feature_rank - w.v_offset
  (if beg < 0 then 0 else beg).toNat

/-- Bucket in which `get_parent` finds the parent; together with the key
`child.parent` it is the pointer the method returns. -/
def get_parent_index (w : gff_parent_collection) (child : gff_feature) : Option Nat :=
  find_bucket child.parent (w.parents.drop (get_parent_beg w child)) (get_parent_beg w child)

/-- Entry under `key` in bucket `i`: the target of a pointer into the window. -/
def deref (w : gff_parent_collection) (i : Nat) (key : String) : Option gff_feature :=
  map_find (w.parents.getD i []) key

/-- Method `gff_parent_collection::get_parent`, `none` for the null pointer. -/
def get_parent (w : gff_parent_collection) (child : gff_feature) : Option gff_feature :=
  match get_parent_index w child with
  | none => none
  | some i => deref w i child.parent

/-- Method `gff_parent_collection::get_parent_db_id`. -/
def get_parent_db_id (w : gff_parent_collection) (parent_id : String) (rank : Int) : Nat :=
  let i : Int := rank - w.v_offset
  if i < 0 ∨ i ≥ (w.parents.length : Int) then 0
  else
    match map_find (w.parents.getD i.toNat []) parent_id with
    | none => 0
    | some p => p.db_id

/-- A write through a pointer into the window. -/
def write_through (w : gff_parent_collection) (i : Nat) (key : String)
    (g : gff_feature → gff_feature) : gff_parent_collection :=
  { w with parents := modify_at (fun b => map_modify g b key) w.parents i }

end gff_parent_collection

/-! ## The program (`main.cpp`) -/

/-- Global `f_ranks`, a `std::map<std::string, int>`. -/
def f_ranks : List (String × Int) :=
  [("cds", 1), ("exon", 2), ("gene", 4), ("lnc_rna", 3), ("mrna", 3), ("region", 5),
   ("rna", 3), ("transcript", 3)]

/-- Access `f_ranks[name]`; a name that is no key reads as `0`. -/
def f_rank (name : String) : Int := (map_find f_ranks name).getD 0

/-- Global `annotation_fields`, a `std::map<int, std::string>`. -/
def annotation_fields : List (Int × String) :=
  [(1, "name"), (2, "description"), (3, "product")]

/-- One line written by `print_feature`: the values in the order of the format
string. -/
structure feature_row where
  db_id : Nat
  parent_id : Nat
  region_id : Nat
  feature : String
  id : String
  seqname : String
  parent : String
  source : String
  f_start : Nat
  f_end : Nat
  strand : Char
  frame : Int
  deriving DecidableEq, Repr

/-- One line written to one of the output files.  `table rank row` is a line of
the file `streams[rank]`; the other three are lines of the files `tr_exon`,
`tr_cds` and `tr_annotation`. -/
inductive output where
  | table (rank : Int) (row : feature_row)
  | tr_exon (parent_key child_key : Nat) (count : Int) (id : String)
  | tr_cds (parent_key child_key : Nat) (count : Int) (id : String)
  | tr_annotation (db_id : Nat) (field : Int) (value : String)
  deriving DecidableEq, Repr

/-- Function `print_feature`: the line it writes. -/
def print_feature (f : gff_feature) (region_id : Nat) : feature_row :=
  { db_id := f.db_id, parent_id := f.parent_id, region_id := region_id,
    feature := f.feature, id := f.id, seqname := f.seqname, parent := f.parent,
    source := f.source, f_start := f.f_start, f_end := f.f_end, strand := f.strand,
    frame := f.frame }

/-- The two inner loops of `print_annotation` for one feature. -/
def annotation_lines (db_id : Nat) : List (Int × List String) → List output
  | [] => []
  | (idx, vs) :: rest =>
    vs.map (fun v => output.tr_annotation db_id idx v) ++ annotation_lines db_id rest

/-- Function `print_annotation`: the lines it writes. -/
def print_annotation : List gff_feature → Int → List output
  | [], _ => []
  | f :: rest, feature_rank =>
    (if f.feature_rank = feature_rank ∧ f.annotation.length ≠ 0
      then annotation_lines f.db_id f.annotation else []) ++
      print_annotation rest feature_rank

/-- The variables of `main` that live across iterations of the main loop,
and everything written so far, in the order written. -/
structure loop_state where
  current_parents : gff_parent_collection
  db_ids : Int → Nat
  last_feature : Option gff_feature
  written : List output

/-- Increment `db_ids[rank]++`. -/
def bump (db_ids : Int → Nat) (rank : Int) : Int → Nat :=
  fun r => if r = rank then db_ids r + 1 else db_ids r

/-- Lines 119-121 of `main.cpp`: the flag `repeated`. -/
def is_repeated (last_feature : Option gff_feature) (feat : gff_feature) : Bool :=
  if feat.feature_rank < 3 then
    match last_feature with
    | some l => feat.range_feature_identical l
    | none => false
  else false

/-- Lines 129-135: a record that is itself a region. -/
def region_record (s : loop_state) (feat : gff_feature) : loop_state × gff_feature :=
  let db_ids := bump s.db_ids (f_rank "region")
  let region_id := db_ids (f_rank "region")
  let feat := { feat with db_id := region_id }
  ({ s with
      db_ids := db_ids,
      current_parents := s.current_parents.insert_parent feat,
      written := s.written ++ [output.table feat.feature_rank (print_feature feat region_id)] },
    feat)

/-- Lines 140-145: the region identifier of a record that is no region; a region
is made up when the window has none for the sequence. -/
def resolve_region (s : loop_state) (feat : gff_feature) : loop_state × Nat :=
  let region_id := s.current_parents.get_parent_db_id feat.seqname (f_rank "region")
  if region_id = 0 then
    let db_ids := bump s.db_ids (f_rank "region")
    let region_id := db_ids (f_rank "region")
    ({ s with
        db_ids := db_ids,
        current_parents := s.current_parents.insert_parent
          (gff_feature.for_region region_id feat.seqname "region" (f_rank "region")) },
      region_id)
  else (s, region_id)

/-- Lines 159-166: a transcript is made up for an exon or cds whose parent is a
gene.  `uninit` gives the value found in the uninitialised member `parent_id`
of the transcript with a given key. -/
def synthesize_rna (uninit : Nat → Nat) (s : loop_state) (feat parent : gff_feature)
    (region_id : Nat) : loop_state × gff_feature :=
  if feat.feature_rank < 3 ∧ parent.feature_rank = f_rank "gene" then
    let db_ids := bump s.db_ids (f_rank "rna")
    let rna := gff_feature.from_src (uninit (db_ids (f_rank "rna")))
      (db_ids (f_rank "rna")) "rna" (f_rank "rna") feat
    ({ s with
        db_ids := db_ids,
        written := s.written ++ [output.table rna.feature_rank (print_feature rna region_id)],
        current_parents := s.current_parents.insert_parent rna },
      { feat with parent_id := db_ids (f_rank "rna") })
  else (s, feat)

/-- Lines 167-172: the counters of the parent. -/
def count_child (feat parent : gff_feature) : gff_feature :=
  let inc : Int := if feat.strand = '+' then 1 else -1
  let p := { parent with child_count := parent.child_count + inc }
  let p := if feat.feature = "exon" then { p with exon_count := p.exon_count + inc } else p
  if feat.feature = "cds" then { p with cds_count := p.cds_count + inc } else p

/-- Lines 177-188: the key of the record and its line in the table of its rank. -/
def assign_key (s : loop_state) (feat : gff_feature) (repeated : Bool) (region_id : Nat) :
    loop_state × gff_feature :=
  if repeated = false ∨ feat.feature_rank = 3 then
    let db_ids := bump s.db_ids feat.feature_rank
    let feat := { feat with db_id := db_ids feat.feature_rank }
    ({ s with
        db_ids := db_ids,
        written := s.written ++ [output.table feat.feature_rank (print_feature feat region_id)],
        current_parents :=
          if feat.feature_rank ≥ 3 then s.current_parents.insert_parent feat
          else s.current_parents },
      feat)
  else (s, { feat with db_id := s.db_ids feat.feature_rank })

/-- Lines 189-194: the line of the linking table and the annotation of the
parent; `i` and `feat.parent` locate the parent in the window. -/
def link_rows (s : loop_state) (i : Nat) (feat : gff_feature) : loop_state :=
  if feat.feature_rank < 3 then
    match s.current_parents.deref i feat.parent with
    | none => s
    | some parent =>
      let count := if feat.feature = "cds" then parent.cds_count else parent.exon_count
      let row :=
        if feat.feature = "cds" then output.tr_cds parent.db_id feat.db_id count feat.id
        else output.tr_exon parent.db_id feat.db_id count feat.id
      { s with
          written := s.written ++ [row],
          current_parents := s.current_parents.write_through i feat.parent
            (fun p => p.add_annotation feat annotation_fields) }
  else s

/-- Lines 122-126: the record becomes `last_feature`, the window is pruned
against it and the annotation of the discarded transcripts is written. -/
def pruned (s : loop_state) (it : gff_feature) : loop_state :=
  let pr := s.current_parents.prune_parents it
  { s with
      last_feature := some it,
      current_parents := pr.1,
      written := s.written ++ print_annotation pr.2 (f_rank "rna") }

/-- State in which `get_parent` is called for a record that is no region (line
150), and the region identifier found for the record. -/
def at_lookup (s : loop_state) (it : gff_feature) : loop_state × Nat :=
  resolve_region (pruned s it) it

/-- Body of the main loop (lines 116-196) for the element `it` of the set: the
state after the iteration and the final value of the local copy `feat`. -/
def step_full (uninit : Nat → Nat) (s : loop_state) (it : gff_feature) :
    loop_state × gff_feature :=
  let repeated := is_repeated s.last_feature it
  if it.feature = "region" then region_record (pruned s it) it
  else
    let rr := at_lookup s it
    match rr.1.current_parents.get_parent_index it with
    | none =>
      if it.feature_rank ≤ 3 then (rr.1, it)
      else assign_key rr.1 { it with parent_id := 0 } repeated rr.2
    | some i =>
      match rr.1.current_parents.deref i it.parent with
      | none => (rr.1, it)
      | some parent =>
        let sy := synthesize_rna uninit rr.1 { it with parent_id := parent.db_id } parent rr.2
        let s3 : loop_state :=
          { sy.1 with
              current_parents :=
                sy.1.current_parents.write_through i it.parent (count_child sy.2) }
        let ak := assign_key s3 sy.2 repeated rr.2
        (link_rows ak.1 i ak.2,
          if ak.2.feature_rank = 3 then gff_feature.add_annotation ak.2 ak.2 annotation_fields
          else ak.2)

/-- One iteration of the main loop. -/
def step (uninit : Nat → Nat) (s : loop_state) (it : gff_feature) : loop_state :=
  (step_full uninit s it).1

/-- State of `main` on entry to the main loop. -/
def initial_state : loop_state :=
  { current_parents := gff_parent_collection.mk_empty 3, db_ids := fun _ => 0,
    last_feature := none, written := [] }

/-- The main loop over the elements of the set, from state `s`. -/
def resolve_loop (uninit : Nat → Nat) (s : loop_state) (features : List gff_feature) :
    loop_state :=
  features.foldl (step uninit) s

/-- Lines 199-204: the annotation of the transcripts still in the window. -/
def final_flush (s : loop_state) : List output :=
  print_annotation ((s.current_parents.parents.getD 0 []).map Prod.snd) (f_rank "rna")

/-- The reading loop (lines 76-82) on the features constructed from the lines
of the file, in file order: the valid ones are inserted into the set. -/
def read_features (input : List gff_feature) : List gff_feature :=
  input.foldl (fun features feat => if feat.valid then set_insert features feat else features) []

/-- Everything `main` writes for the given constructed features. -/
def main_written (uninit : Nat → Nat) (input : List gff_feature) : List output :=
  let s := resolve_loop uninit initial_state (read_features input)
  s.written ++ final_flush s

/-- The lines written to the table of one rank, in the order written. -/
def table_rows (rank : Int) : List output → List feature_row
  | [] => []
  | output.table r row :: rest =>
    if r = rank then row :: table_rows rank rest else table_rows rank rest
  | _ :: rest => table_rows rank rest

/-- The child keys of the lines written to the linking table `tr_cds` (when
`cds` is true) or `tr_exon` (otherwise), in the order written. -/
def link_child_keys (cds : Bool) : List output → List Nat
  | [] => []
  | output.tr_exon _ c _ _ :: rest =>
    if cds then link_child_keys cds rest else c :: link_child_keys cds rest
  | output.tr_cds _ c _ _ :: rest =>
    if cds then c :: link_child_keys cds rest else link_child_keys cds rest
  | _ :: rest => link_child_keys cds rest

/-- Lines 61-89 of the line constructor `gff_feature(const string& line, const
map<string, int>& feature_ranks)`: the record built from the nine fields of a
line once they are split and converted (`feature` is the third field in lower
case, `attributes` the result of `split_attributes` on the ninth field
`attribute_`).  The guards, the splitting and the conversions of lines 33-60
are in `gff_feature.of_line`, which ends in this function. -/
def gff_feature.of_fields (seqname source feature : String) (f_start f_end : Nat)
    (strand : Char) (frame : Int) (attribute_ : String)
    (attributes : List (String × String)) : gff_feature :=
  let base : gff_feature :=
    { valid := false, db_id := 0, id := "undefined", parent := "undefined",
      parent_id := 0, seqname := seqname, source := source, feature := feature,
      f_start := f_start, f_end := f_end, strand := strand, frame := frame,
      attribute_ := attribute_, attributes := attributes, feature_rank := 0,
      child_count := 0, exon_count := 0, cds_count := 0, annotation := [] }
  match map_find attributes "id" with
  | none => base
  | some idv =>
    let ranked : gff_feature :=
      match map_find f_ranks feature with
      | some r => { base with valid := true, feature_rank := r }
      | none => base
    { ranked with
        id := if feature = "region" then seqname else idv,
        parent :=
          match map_find attributes "parent" with
          | some p => p
          | none => "undefined" }

/-- The windows the program can hold when only `insert_parent` and
`prune_parents` act on the window `gff_parent_collection(3)` of `main`. -/
inductive reachable : gff_parent_collection → Prop where
  | empty : reachable (gff_parent_collection.mk_empty 3)
  | insert (w : gff_parent_collection) (f : gff_feature) :
      reachable w → reachable (w.insert_parent f)
  | prune (w : gff_parent_collection) (f : gff_feature) :
      reachable w → reachable (w.prune_parents f).1

/-- Every record of the list finds a parent when it is processed: `get_parent`
returns no null pointer in the iteration for it, the loop starting from `s`. -/
def all_resolved (uninit : Nat → Nat) : loop_state → List gff_feature → Bool
  | _, [] => true
  | s, y :: ys =>
    ((at_lookup s y).1.current_parents.get_parent y).isSome &&
      all_resolved uninit (step uninit s y) ys

/-- Every bucket of the window is in increasing key order, as a `std::map`
is. -/
def window_sorted (w : gff_parent_collection) : Prop :=
  ∀ b ∈ w.parents, b.Pairwise (fun x y => x.1 < y.1)

/-- Every entry of the window is stored under the key `insert_parent` gives
it: the sequence name for a region, the identifier otherwise. -/
def window_keyed (w : gff_parent_collection) : Prop :=
  ∀ (i : Nat) (e : String × gff_feature), e ∈ w.parents.getD i [] →
    e.1 = (if e.2.feature = "region" then e.2.seqname else e.2.id)

/-- The window has the offset 3 of `main` and bucket `i` holds features of rank
`i + 3` only. -/
def window_ranked (w : gff_parent_collection) : Prop :=
  w.v_offset = 3 ∧
    ∀ (i : Nat) (e : String × gff_feature), e ∈ w.parents.getD i [] →
      e.2.feature_rank = (i : Int) + 3

/-- Every record of the list is an exon or cds below transcript rank for which
`get_parent` returns an entry of gene rank in the iteration for it, the loop
starting from `s`. -/
def resolve_to_gene (uninit : Nat → Nat) : loop_state → List gff_feature → Bool
  | _, [] => true
  | s, y :: ys =>
    decide (y.feature = "exon" ∨ y.feature = "cds") && decide (y.feature_rank < 3) &&
      (match (at_lookup s y).1.current_parents.get_parent y with
        | some p => decide (p.feature_rank = f_rank "gene")
        | none => false) &&
      resolve_to_gene uninit (step uninit s y) ys

/-! ## Attributes of a line (`split_attributes`) -/

/-- One step of the loop of `str_to_lower`: an upper case ASCII letter gets the
bit `0x20` set, any other character stays. -/
def lower_char (c : Char) : Char :=
  if 'A' ≤ c ∧ c ≤ 'Z' then Char.ofNat (c.toNat ||| 0x20) else c

/-- Function `str_to_lower`. -/
def str_to_lower (str : String) : String := String.mk (str.toList.map lower_char)

/-- Assignment `m[k] = v` on a `std::map`: the value under `k` is replaced, or
the pair is added at its place in key order. -/
def map_assign {α : Type} : List (String × α) → String → α → List (String × α)
  | [], k, v => [(k, v)]
  | (k', v') :: rest, k, v =>
    if k < k' then (k, v) :: (k', v') :: rest
    else if k' < k then (k', v') :: map_assign rest k v
    else (k', v) :: rest

/-- The pieces of a line between the occurrences of `c`: the ranges from `beg`
to `end` that the loop of `split_attributes` visits with its repeated
`find_first_of(c, beg)`, the last one ending at the end of the line. -/
def split_at (c : Char) : List Char → List (List Char)
  | [] => [[]]
  | x :: xs =>
    if x = c then [] :: split_at c xs
    else
      match split_at c xs with
      | seg :: rest => (x :: seg) :: rest
      | [] => [[x]]

/-- Body of the loop of `split_attributes` for one piece: when the piece has a
`=`, the part before the first one is the key and the part after it the value,
both in lower case. -/
def attribute_of_piece (attr : List (String × String)) (piece : List Char) :
    List (String × String) :=
  if '=' ∈ piece then
    map_assign attr (str_to_lower (String.mk (piece.takeWhile (fun ch => !(ch == '=')))))
      (str_to_lower (String.mk (piece.dropWhile (fun ch => !(ch == '='))).tail))
  else attr

/-- Function `split_attributes`. -/
def split_attributes (line : String) : List (String × String) :=
  (split_at ';' line.toList).foldl attribute_of_piece []

/-- The attribute string `k1=v1;k2=v2;...;kn=vn` of the given pairs, as a list
of characters. -/
def attribute_chars : List (String × String) → List Char
  | [] => []
  | [p] => p.1.toList ++ '=' :: p.2.toList
  | p :: q :: rest => p.1.toList ++ '=' :: p.2.toList ++ ';' :: attribute_chars (q :: rest)

/-- The attribute string `k1=v1;k2=v2;...;kn=vn` of the given pairs. -/
def attribute_string (pairs : List (String × String)) : String :=
  String.mk (attribute_chars pairs)

/-! ## The line constructor -/

/-- The loop of lines 48-56 of the line constructor and the `push_back` that
follows it: `n` is the number of fields still wanted and the list holds the
characters of the line from `beg` on.  While a field is wanted and a tab is
left, the part before the tab is a field; when no tab is left, what remains is
the last field unless it is empty; when no field is wanted, the rest of the
line is ignored. -/
def split_fields : Nat → List Char → List (List Char)
  | 0, _ => []
  | n + 1, rest =>
    if '\t' ∈ rest then
      rest.takeWhile (fun ch => !(ch == '\t')) ::
        split_fields n (rest.dropWhile (fun ch => !(ch == '\t'))).tail
    else if rest ≠ [] then [rest]
    else []

/-- The line constructor `gff_feature(const string& line, const map<string,
int>& feature_ranks)`, lines 33-89, called with the global `f_ranks`.
`line.size()` is the number of bytes of the line.  The library conversions are
parameters: `stoul str` is the value `std::stoul` returns, `stod str` the value of
`std::stod` converted to `int`, and `none` stands for a thrown exception, which
ends the program, so the constructor then yields nothing.  On the early returns
of lines 46-47 and 57-58 the member `feature_rank` has not been assigned; its
value is whatever the storage holds and is passed in as `uninit_rank`.  From
line 61 on the constructor is `gff_feature.of_fields`.  The strand is the first
character of the seventh field, the character of code 0 when the field is
empty. -/
def gff_feature.of_line (uninit_rank : Int) (stoul : String → Option Nat)
    (stod : String → Option Int) (line : String) : Option gff_feature :=
  let early : gff_feature :=
    { valid := false, db_id := 0, id := "undefined", parent := "undefined",
      parent_id := 0, seqname := "undefined", source := "undefined",
      feature := "undefined", f_start := 0, f_end := 0, strand := '.', frame := -1,
      attribute_ := "", attributes := [], feature_rank := uninit_rank,
      child_count := 0, exon_count := 0, cds_count := 0, annotation := [] }
  if line.utf8ByteSize < 9 * 2 ∨ line.toList.head? = some '#' then some early
  else
    let fields := (split_fields 9 line.toList).map String.mk
    if fields.length ≠ 9 then some early
    else
      match stoul (fields.getD 3 ""), stoul (fields.getD 4 "") with
      | some f_start, some f_end =>
        if fields.getD 5 "" ≠ "." ∧ stod (fields.getD 5 "") = none then none
        else
          match (if fields.getD 7 "" = "." then some (-1) else stod (fields.getD 7 "")) with
          | some frame =>
            some (gff_feature.of_fields (fields.getD 0 "") (fields.getD 1 "")
              (str_to_lower (fields.getD 2 "")) f_start f_end
              ((fields.getD 6 "").toList.headD (Char.ofNat 0)) frame (fields.getD 8 "")
              (split_attributes (fields.getD 8 "")))
          | none => none
      | _, _ => none

/-- The characters of the line made of the given fields, separated by tabs. -/
def field_chars : List String → List Char
  | [] => []
  | [p] => p.toList
  | p :: q :: rest => p.toList ++ '\t' :: field_chars (q :: rest)

/-- The line made of the given fields, separated by tabs. -/
def line_of_fields (fields : List String) : String :=
  String.mk (field_chars fields)

/-- A conversion for the sample lines: the value of a non-empty string of
decimal digits below `2 ^ 64`, which is what `std::stoul` returns for such a
string; no value for any other string. -/
def stoul_of_digits (str : String) : Option Nat :=
  if str.toList ≠ [] ∧ str.toList.all Char.isDigit = true then
    if str.toList.foldl (fun n c => 10 * n + (c.toNat - 48)) 0 < 2 ^ 64 then
      some (str.toList.foldl (fun n c => 10 * n + (c.toNat - 48)) 0)
    else none
  else none

/-- The lines written to the linking table `tr_cds` (when `cds` is true) or
`tr_exon` (otherwise), in the order written: parent key, child key, count and
identifier. -/
def link_lines (cds : Bool) : List output → List (Nat × Nat × Int × String)
  | [] => []
  | output.tr_exon p c n id :: rest =>
    if cds then link_lines cds rest else (p, c, n, id) :: link_lines cds rest
  | output.tr_cds p c n id :: rest =>
    if cds then (p, c, n, id) :: link_lines cds rest else link_lines cds rest
  | _ :: rest => link_lines cds rest

/-- The lines written to the file `tr_annotation`, in the order written. -/
def annotation_rows : List output → List (Nat × Int × String)
  | [] => []
  | output.tr_annotation d f v :: rest => (d, f, v) :: annotation_rows rest
  | _ :: rest => annotation_rows rest

/-! ## Sample records -/

/-- Record of the line `chr1 . exon 150 200 . + . ID=e0;Parent=a0`; no record
has the identifier `a0`. -/
def exon_orphan : gff_feature :=
  gff_feature.of_fields "chr1" "." "exon" 150 200 '+' (-1) "ID=e0;Parent=a0"
    [("id", "e0"), ("parent", "a0")]

/-- Record of the line `chr1 . exon 120 130 . + . ID=ea;Parent=t1`. -/
def exon_early : gff_feature :=
  gff_feature.of_fields "chr1" "." "exon" 120 130 '+' (-1) "ID=ea;Parent=t1"
    [("id", "ea"), ("parent", "t1")]

/-- Record of the line `chr1 . exon 300 350 . + . ID=e2;Parent=g1`. -/
def exon_e2 : gff_feature :=
  gff_feature.of_fields "chr1" "." "exon" 300 350 '+' (-1) "ID=e2;Parent=g1"
    [("id", "e2"), ("parent", "g1")]

/-- Record of the line `chr1 . mRNA 100 400 . + . ID=t1;Parent=g1;Name=foo`. -/
def mrna_named : gff_feature :=
  gff_feature.of_fields "chr1" "." "mrna" 100 400 '+' (-1) "ID=t1;Parent=g1;Name=foo"
    [("id", "t1"), ("name", "foo"), ("parent", "g1")]

/-- Record of the line `chr2 . region 1 1000 . + . ID=chr2`. -/
def region_chr2 : gff_feature :=
  gff_feature.of_fields "chr2" "." "region" 1 1000 '+' (-1) "ID=chr2" [("id", "chr2")]

/-- Record of the line `chr1 . gene 100 500 . + . ID=g2;Parent=chr1`. -/
def gene_in_chr1 : gff_feature :=
  gff_feature.of_fields "chr1" "." "gene" 100 500 '+' (-1) "ID=g2;Parent=chr1"
    [("id", "g2"), ("parent", "chr1")]

/-- Record of the line `chr1 . exon 150 200 . + . ID=e1;Parent=t1`. -/
def exon_of_t1 : gff_feature :=
  gff_feature.of_fields "chr1" "." "exon" 150 200 '+' (-1) "ID=e1;Parent=t1"
    [("id", "e1"), ("parent", "t1")]

/-- Record of the line `chr1 . exon 150 200 . + . ID=e2;Parent=t1`. -/
def exon2_of_t1 : gff_feature :=
  gff_feature.of_fields "chr1" "." "exon" 150 200 '+' (-1) "ID=e2;Parent=t1"
    [("id", "e2"), ("parent", "t1")]

/-- Record of the line `chr1 . gene 100 500 . + . ID=g1`. -/
def gene_g1 : gff_feature :=
  gff_feature.of_fields "chr1" "." "gene" 100 500 '+' (-1) "ID=g1" [("id", "g1")]

/-- Record of the line `chr1 . exon 150 200 . + . ID=e1;Parent=g1`. -/
def exon_e1 : gff_feature :=
  gff_feature.of_fields "chr1" "." "exon" 150 200 '+' (-1) "ID=e1;Parent=g1"
    [("id", "e1"), ("parent", "g1")]

/-- Record of the line `chr1 . mRNA 100 400 . + . ID=t1;Parent=g1`. -/
def mrna_t1 : gff_feature :=
  gff_feature.of_fields "chr1" "." "mrna" 100 400 '+' (-1) "ID=t1;Parent=g1"
    [("id", "t1"), ("parent", "g1")]

/-- Record of the line `chr1 . mRNA 100 300 . + . ID=t1;Parent=g1`, a second
transcript with the identifier of `mrna_t1`. -/
def mrna_t1_again : gff_feature :=
  gff_feature.of_fields "chr1" "." "mrna" 100 300 '+' (-1) "ID=t1;Parent=g1"
    [("id", "t1"), ("parent", "g1")]

/-- The entry of the window for the transcript `mrna_t1` after the gene `g1`
and the transcript have been processed: key 1, parent key 1. -/
def mrna_t1_entry : gff_feature :=
  { mrna_t1 with db_id := 1, parent_id := 1 }

/-- Record of the line `chr1 . mRNA 250 400 . + . ID=t2;Parent=g1`. -/
def mrna_t2 : gff_feature :=
  gff_feature.of_fields "chr1" "." "mrna" 250 400 '+' (-1) "ID=t2;Parent=g1"
    [("id", "t2"), ("parent", "g1")]

/-- The entry of the window for the gene `gene_g1` once it has been processed
as the first record: key 1. -/
def gene_g1_entry : gff_feature :=
  { gene_g1 with db_id := 1 }

/-- Record of the line `chr1 . exon 1 10 . + . ID=e1;Parent=x`. -/
def exon_parent_x : gff_feature :=
  gff_feature.of_fields "chr1" "." "exon" 1 10 '+' (-1) "ID=e1;Parent=x"
    [("id", "e1"), ("parent", "x")]

/-- Record of the line `chr1 . exon 1 10 . + . ID=e1`. -/
def exon_no_parent : gff_feature :=
  gff_feature.of_fields "chr1" "." "exon" 1 10 '+' (-1) "ID=e1" [("id", "e1")]

/-- Record of the line `chr1 . exon 1 10 . + . ID=e1;Parent=y`. -/
def exon_parent_y : gff_feature :=
  gff_feature.of_fields "chr1" "." "exon" 1 10 '+' (-1) "ID=e1;Parent=y"
    [("id", "e1"), ("parent", "y")]

/-! ## The ordering rule -/

theorem seqname_eq_of_between {p f c : String} (hpc : p = c) (h1 : ¬ f < p) (h2 : ¬ c < f) :
    f = p := by
  subst hpc
  rcases lt_trichotomy f p with h | h | h
  · exact absurd h h1
  · exact h
  · exact absurd h h2

/-- C1. Ancestors first: for valid features `a` and `b` on one sequence, with the
span of `a` containing the span of `b`, and with different spans or a higher
rank for `a`, the ordering gives `a < b` and not `b < a`. -/
theorem ancestor_sorts_first (a b : gff_feature)
    (ha : a.valid = true) (hb : b.valid = true) (hseq : a.seqname = b.seqname)
    (hstart : a.f_start ≤ b.f_start) (hend : b.f_end ≤ a.f_end)
    (hdiff : (a.f_start ≠ b.f_start ∨ a.f_end ≠ b.f_end) ∨ a.feature_rank > b.feature_rank) :
    a.lt b = true ∧ b.lt a = false := by
  unfold gff_feature.lt
  simp only [ha, hb, hseq]
  by_cases hs : a.f_start = b.f_start
  · by_cases he : a.f_end = b.f_end
    · have hr : a.feature_rank > b.feature_rank := by
        rcases hdiff with (h | h) | h
        · exact absurd hs h
        · exact absurd he h
        · exact h
      have hne : a.feature_rank ≠ b.feature_rank := by omega
      have hne2 : b.feature_rank ≠ a.feature_rank := by omega
      simp [hs, he, hne, hne2]
      omega
    · have hlt : b.f_end < a.f_end := by omega
      have he2 : ¬ b.f_end = a.f_end := by omega
      simp [hs, he, he2]
      omega
  · have hlt : a.f_start < b.f_start := by omega
    have hs2 : ¬ b.f_start = a.f_start := by omega
    simp [hs, hs2]
    omega

/-! ## Pruning -/

theorem prune_bucket_fst (f : gff_feature) (b : bucket) :
    (prune_bucket f b).1 = b.filter (fun e => e.2.overlaps f) := by
  induction b with
  | nil => rfl
  | cons e rest ih =>
    simp only [prune_bucket]
    cases h : e.2.overlaps f <;> simp [h, ih]

theorem prune_bucket_snd (f : gff_feature) (b : bucket) :
    (prune_bucket f b).2 = (b.filter (fun e => !e.2.overlaps f)).map Prod.snd := by
  induction b with
  | nil => rfl
  | cons e rest ih =>
    simp only [prune_bucket]
    cases h : e.2.overlaps f <;> simp [h, ih]

theorem prune_buckets_fst (f : gff_feature) (bs : List bucket) :
    (prune_buckets f bs).1 = bs.map (fun b => b.filter (fun e => e.2.overlaps f)) := by
  induction bs with
  | nil => rfl
  | cons b rest ih => simp [prune_buckets, ih, prune_bucket_fst]

theorem prune_buckets_snd (f : gff_feature) (bs : List bucket) :
    (prune_buckets f bs).2 =
      (bs.map (fun b => (b.filter (fun e => !e.2.overlaps f)).map Prod.snd)).flatten := by
  induction bs with
  | nil => rfl
  | cons b rest ih => simp [prune_buckets, ih, prune_bucket_snd]

theorem getD_map_nil {α β : Type} (g : List α → List β) (hg : g [] = []) (l : List (List α))
    (i : Nat) : (l.map g).getD i [] = g (l.getD i []) := by
  have h := List.getD_map l ([] : List α) (n := i) g
  rw [hg] at h
  exact h

theorem prune_parents_bucket (w : gff_parent_collection) (f : gff_feature) (i : Nat) :
    (w.prune_parents f).1.parents.getD i [] =
      (w.parents.getD i []).filter (fun e => e.2.overlaps f) := by
  simp only [gff_parent_collection.prune_parents, prune_buckets_fst]
  exact getD_map_nil (fun b => b.filter (fun e => e.2.overlaps f)) rfl w.parents i

theorem discarded_not_overlapping (w : gff_parent_collection) (f d : gff_feature)
    (hd : d ∈ (w.prune_parents f).2) : d.overlaps f = false := by
  simp only [gff_parent_collection.prune_parents, prune_buckets_snd, List.mem_flatten,
    List.mem_map] at hd
  obtain ⟨l, ⟨b, _, rfl⟩, hdl⟩ := hd
  simp only [List.mem_map, List.mem_filter] at hdl
  obtain ⟨e, ⟨_, he⟩, rfl⟩ := hdl
  simpa using he

theorem not_lt_seqname {a b : gff_feature} (ha : a.valid = true) (hb : b.valid = true)
    (h : a.lt b = false) : ¬ a.seqname < b.seqname := by
  intro hlt
  have hne : a.seqname ≠ b.seqname := ne_of_lt hlt
  unfold gff_feature.lt at h
  simp [ha, hb, hne, hlt] at h

theorem not_lt_start {a b : gff_feature} (ha : a.valid = true) (hb : b.valid = true)
    (h : a.lt b = false) (hseq : a.seqname = b.seqname) : b.f_start ≤ a.f_start := by
  by_contra hcon
  have hlt : a.f_start < b.f_start := by omega
  have hne : a.f_start ≠ b.f_start := by omega
  unfold gff_feature.lt at h
  simp [ha, hb, hseq, hne, hlt] at h

/-- Witness for C1: a gene spanning 100-500 and an exon spanning 150-200 of the
same sequence. -/
theorem ancestor_sorts_first_witness :
    (gff_feature.of_fields "chr1" "." "gene" 100 500 '+' (-1) "ID=g1" [("id", "g1")]).lt
        (gff_feature.of_fields "chr1" "." "exon" 150 200 '+' (-1) "ID=e1;Parent=g1"
          [("id", "e1"), ("parent", "g1")]) = true ∧
      (gff_feature.of_fields "chr1" "." "exon" 150 200 '+' (-1) "ID=e1;Parent=g1"
          [("id", "e1"), ("parent", "g1")]).lt
        (gff_feature.of_fields "chr1" "." "gene" 100 500 '+' (-1) "ID=g1" [("id", "g1")]) =
        false :=
  ancestor_sorts_first _ _ (by decide) (by decide) (by decide) (by decide) (by decide)
    (by decide)

/-- C2. An encompassing ancestor stays live: when the span of `P` contains the
span of `C` on one sequence and `F` lies between `P` and `C` in the processing
order, `P` overlaps `F`; hence pruning any window against `F` discards no
feature equal to `P` and keeps every entry holding `P` in its bucket. -/
theorem encompassing_ancestor_stays_live (P F C : gff_feature)
    (hP : P.valid = true) (hF : F.valid = true) (hC : C.valid = true)
    (hseq : P.seqname = C.seqname) (_hstart : P.f_start ≤ C.f_start)
    (hend : C.f_end ≤ P.f_end) (hFspan : F.f_start ≤ F.f_end)
    (hCspan : C.f_start ≤ C.f_end) (hFP : F.lt P = false) (hCF : C.lt F = false) :
    P.overlaps F = true ∧
      ∀ w : gff_parent_collection,
        P ∉ (w.prune_parents F).2 ∧
          ∀ (i : Nat) (k : String), (k, P) ∈ w.parents.getD i [] →
            (k, P) ∈ (w.prune_parents F).1.parents.getD i [] := by
  have hs : F.seqname = P.seqname :=
    seqname_eq_of_between hseq (not_lt_seqname hF hP hFP) (not_lt_seqname hC hF hCF)
  have h1 : P.f_start ≤ F.f_start := not_lt_start hF hP hFP hs
  have h2 : F.f_start ≤ C.f_start := not_lt_start hC hF hCF (by rw [hs, hseq])
  have hov : P.overlaps F = true := by
    unfold gff_feature.overlaps
    simp only [hs, decide_True, Bool.true_and, Bool.and_eq_true, decide_eq_true_eq]
    constructor <;> omega
  refine ⟨hov, fun w => ⟨?_, ?_⟩⟩
  · intro hmem
    have := discarded_not_overlapping w F P hmem
    rw [hov] at this
    exact Bool.noConfusion this
  · intro i k hk
    rw [prune_parents_bucket]
    exact List.mem_filter.mpr ⟨hk, hov⟩

/-- Witness for C2: a gene (100-500), its transcript (100-400) and an exon
(150-200) of one sequence. -/
theorem encompassing_ancestor_stays_live_witness :
    (gff_feature.of_fields "chr1" "." "gene" 100 500 '+' (-1) "ID=g1" [("id", "g1")]).overlaps
      (gff_feature.of_fields "chr1" "." "mrna" 100 400 '+' (-1) "ID=t1;Parent=g1"
        [("id", "t1"), ("parent", "g1")]) = true :=
  (encompassing_ancestor_stays_live
    (gff_feature.of_fields "chr1" "." "gene" 100 500 '+' (-1) "ID=g1" [("id", "g1")])
    (gff_feature.of_fields "chr1" "." "mrna" 100 400 '+' (-1) "ID=t1;Parent=g1"
      [("id", "t1"), ("parent", "g1")])
    (gff_feature.of_fields "chr1" "." "exon" 150 200 '+' (-1) "ID=e1;Parent=t1"
      [("id", "e1"), ("parent", "t1")])
    (by decide) (by decide) (by decide) (by decide) (by decide) (by decide) (by decide)
    (by decide) (by decide) (by decide)).1

/-- C3. The ordering is no strict weak ordering on valid parsed features: of
three exon records that differ only in the parent attribute, the second
carrying none, the first and the second are incomparable, the second and the
third are incomparable, and yet the first is below the third. -/
theorem lt_incomparability_not_transitive :
    (exon_parent_x.valid = true ∧ exon_no_parent.valid = true ∧ exon_parent_y.valid = true) ∧
      (exon_parent_x.lt exon_no_parent = false ∧ exon_no_parent.lt exon_parent_x = false) ∧
      (exon_no_parent.lt exon_parent_y = false ∧ exon_parent_y.lt exon_no_parent = false) ∧
      exon_parent_x.lt exon_parent_y = true := by
  decide

/-- C4. Postcondition of `prune_parents`: every entry left in a bucket
overlaps `f`; every returned feature does not; the window keeps its buckets
and offset; and there are lists `gone`, one per bucket, whose values in bucket
order make up the returned vector, such that each bucket of the old window is
a rearrangement of the entries left in it followed by the entries gone from
it (so the entries are the old ones, unmodified, each in exactly one part). -/
theorem prune_parents_postcondition (w : gff_parent_collection) (f : gff_feature) :
    (∀ b ∈ (w.prune_parents f).1.parents, ∀ e ∈ b, e.2.overlaps f = true) ∧
      (∀ d ∈ (w.prune_parents f).2, d.overlaps f = false) ∧
      (w.prune_parents f).1.v_offset = w.v_offset ∧
      (w.prune_parents f).1.parents.length = w.parents.length ∧
      ∃ gone : List bucket,
        gone.length = w.parents.length ∧
          (w.prune_parents f).2 = (gone.map (fun g => g.map Prod.snd)).flatten ∧
          ∀ i : Nat,
            ((w.prune_parents f).1.parents.getD i [] ++ gone.getD i []).Perm
                (w.parents.getD i []) ∧
              ((w.prune_parents f).1.parents.getD i []).Sublist (w.parents.getD i []) ∧
              (gone.getD i []).Sublist (w.parents.getD i []) := by
  refine ⟨?_, discarded_not_overlapping w f, rfl, ?_, ?_⟩
  · intro b hb e he
    simp only [gff_parent_collection.prune_parents, prune_buckets_fst, List.mem_map] at hb
    obtain ⟨b0, _, rfl⟩ := hb
    exact (List.mem_filter.mp he).2
  · simp [gff_parent_collection.prune_parents, prune_buckets_fst]
  · refine ⟨w.parents.map (fun b => b.filter (fun e => !e.2.overlaps f)), by simp, ?_, ?_⟩
    · simp [gff_parent_collection.prune_parents, prune_buckets_snd, List.map_map,
        Function.comp_def]
    · intro i
      rw [prune_parents_bucket,
        getD_map_nil (fun b => b.filter (fun e => !e.2.overlaps f)) rfl w.parents i]
      exact ⟨List.filter_append_perm _ _, List.filter_sublist _, List.filter_sublist _⟩

/-! ## Insertion and lookup -/

theorem modify_at_length {α : Type} (g : α → α) (l : List α) (i : Nat) :
    (modify_at g l i).length = l.length := by
  induction l generalizing i with
  | nil => rfl
  | cons x xs ih => cases i <;> simp [modify_at, ih]

theorem modify_at_getD_self {α : Type} (g : List α → List α) (l : List (List α)) (i : Nat)
    (hi : i < l.length) : (modify_at g l i).getD i [] = g (l.getD i []) := by
  induction l generalizing i with
  | nil => simp at hi
  | cons x xs ih =>
    cases i with
    | zero => simp [modify_at]
    | succ n =>
      simp only [modify_at, List.getD_cons_succ]
      exact ih n (by simpa using hi)

theorem modify_at_getD_ne {α : Type} (g : List α → List α) (l : List (List α)) (i j : Nat)
    (hij : j ≠ i) : (modify_at g l i).getD j [] = l.getD j [] := by
  induction l generalizing i j with
  | nil => rfl
  | cons x xs ih =>
    cases i with
    | zero =>
      cases j with
      | zero => exact absurd rfl hij
      | succ m => simp [modify_at]
    | succ n =>
      cases j with
      | zero => simp [modify_at]
      | succ m =>
        simp only [modify_at, List.getD_cons_succ]
        exact ih n m (by omega)

theorem mem_map_insert {α : Type} (b : List (String × α)) (k : String) (v : α)
    (e : String × α) (he : e ∈ map_insert b k v) : e ∈ b ∨ e = (k, v) := by
  induction b with
  | nil =>
    simp only [map_insert, List.mem_singleton] at he
    exact Or.inr he
  | cons x rest ih =>
    obtain ⟨k1, v1⟩ := x
    simp only [map_insert] at he
    split at he
    · rcases List.mem_cons.mp he with h | h
      · exact Or.inr h
      · exact Or.inl h
    · split at he
      · rcases List.mem_cons.mp he with h | h
        · exact Or.inl (h ▸ List.mem_cons_self _ _)
        · rcases ih h with h2 | h2
          · exact Or.inl (List.mem_cons_of_mem _ h2)
          · exact Or.inr h2
      · exact Or.inl he

theorem map_find_mem {α : Type} (b : List (String × α)) (k : String) (v : α)
    (h : map_find b k = some v) : (k, v) ∈ b := by
  induction b with
  | nil => simp [map_find] at h
  | cons x rest ih =>
    obtain ⟨k1, v1⟩ := x
    simp only [map_find] at h
    split at h
    · rename_i hk
      simp only [Option.some.injEq] at h
      subst hk
      subst h
      exact List.mem_cons_self _ _
    · exact List.mem_cons_of_mem _ (ih h)

/-- In a reachable window the offset is 3, there are 3 buckets, and bucket `i`
holds features of rank `i + 3` only. -/
theorem reachable_invariant (w : gff_parent_collection) (hw : reachable w) :
    w.v_offset = 3 ∧ w.parents.length = 3 ∧
      ∀ (i : Nat) (e : String × gff_feature), e ∈ w.parents.getD i [] →
        e.2.feature_rank = (i : Int) + 3 := by
  induction hw with
  | empty =>
    refine ⟨rfl, rfl, ?_⟩
    intro i e he
    have h3 : (gff_parent_collection.mk_empty 3).parents = [[], [], []] := rfl
    rw [h3] at he
    match i, he with
    | 0, he => simp at he
    | 1, he => simp at he
    | 2, he => simp at he
    | n + 3, he => simp at he
  | insert w f _ ih =>
    obtain ⟨hv, hl, hb⟩ := ih
    unfold gff_parent_collection.insert_parent
    simp only
    split
    · exact ⟨hv, hl, hb⟩
    · rename_i hcond
      refine ⟨hv, by simp [modify_at_length, hl], ?_⟩
      intro i e he
      simp only at he
      by_cases hi : i = (f.feature_rank - w.v_offset).toNat
      · subst hi
        rw [modify_at_getD_self _ _ _ (by rw [hl] at hcond ⊢; omega)] at he
        rcases mem_map_insert _ _ _ _ he with h | h
        · exact hb _ e h
        · subst h
          simp only
          rw [hv] at hcond ⊢
          omega
      · rw [modify_at_getD_ne _ _ _ _ hi] at he
        exact hb i e he
  | prune w f _ ih =>
    obtain ⟨hv, hl, hb⟩ := ih
    refine ⟨hv, ?_, ?_⟩
    · simp [gff_parent_collection.prune_parents, prune_buckets_fst, hl]
    · intro i e he
      rw [prune_parents_bucket] at he
      exact hb i e (List.mem_filter.mp he).1

theorem find_bucket_some (key : String) (bs : List bucket) (n i : Nat)
    (h : gff_parent_collection.find_bucket key bs n = some i) :
    n ≤ i ∧ i < n + bs.length ∧ (map_find (bs.getD (i - n) []) key).isSome = true ∧
      ∀ j : Nat, n ≤ j → j < i → map_find (bs.getD (j - n) []) key = none := by
  induction bs generalizing n with
  | nil => simp [gff_parent_collection.find_bucket] at h
  | cons b rest ih =>
    simp only [gff_parent_collection.find_bucket] at h
    split at h
    · rename_i hb
      simp only [Option.some.injEq] at h
      subst h
      refine ⟨le_refl _, by simp, by simpa using hb, ?_⟩
      intro j h1 h2
      omega
    · rename_i hb
      obtain ⟨h1, h2, h3, h4⟩ := ih (n + 1) h
      refine ⟨by omega, by simp only [List.length_cons]; omega, ?_, ?_⟩
      · have e : i - n = (i - (n + 1)) + 1 := by omega
        rw [e, List.getD_cons_succ]
        exact h3
      · intro j hj1 hj2
        by_cases hjn : j = n
        · subst hjn
          simp only [Nat.sub_self, List.getD_cons_zero]
          cases hm : map_find b key with
          | none => rfl
          | some v => simp [hm] at hb
        · have e : j - n = (j - (n + 1)) + 1 := by omega
          rw [e, List.getD_cons_succ]
          exact h4 j (by omega) hj2

theorem find_bucket_none (key : String) (bs : List bucket) (n : Nat)
    (h : gff_parent_collection.find_bucket key bs n = none) :
    ∀ j : Nat, map_find (bs.getD j []) key = none := by
  induction bs generalizing n with
  | nil =>
    intro j
    simp [map_find]
  | cons b rest ih =>
    simp only [gff_parent_collection.find_bucket] at h
    split at h
    · simp at h
    · rename_i hb
      intro j
      cases j with
      | zero =>
        simp only [List.getD_cons_zero]
        cases hm : map_find b key with
        | none => rfl
        | some v => simp [hm] at hb
      | succ m =>
        rw [List.getD_cons_succ]
        exact ih (n + 1) h m

theorem getD_drop {α : Type} (l : List (List α)) (n j : Nat) :
    (l.drop n).getD j [] = l.getD (n + j) [] := by
  simp [List.getD_eq_getElem?_getD, List.getElem?_drop]

/-- The pointer returned by `get_parent`: when the loop stops at bucket `i`, the
entry under `child.parent` in that bucket is returned, and no bucket from the
first one visited up to `i` has the key. -/
theorem get_parent_index_some (w : gff_parent_collection) (child : gff_feature) (i : Nat)
    (h : w.get_parent_index child = some i) :
    w.get_parent_beg child ≤ i ∧ i < w.parents.length ∧
      (∃ p, w.deref i child.parent = some p) ∧
      ∀ j : Nat, w.get_parent_beg child ≤ j → j < i →
        map_find (w.parents.getD j []) child.parent = none := by
  unfold gff_parent_collection.get_parent_index at h
  obtain ⟨h1, h2, h3, h4⟩ := find_bucket_some _ _ _ _ h
  have hlen : i < w.parents.length := by
    simp only [List.length_drop] at h2
    omega
  refine ⟨h1, hlen, ?_, ?_⟩
  · rw [getD_drop] at h3
    have e : w.get_parent_beg child + (i - w.get_parent_beg child) = i := by omega
    rw [e] at h3
    unfold gff_parent_collection.deref
    exact Option.isSome_iff_exists.mp h3
  · intro j hj1 hj2
    have := h4 j hj1 hj2
    rw [getD_drop] at this
    have e : w.get_parent_beg child + (j - w.get_parent_beg child) = j := by omega
    rw [e] at this
    exact this

theorem get_parent_index_none (w : gff_parent_collection) (child : gff_feature)
    (h : w.get_parent_index child = none) :
    ∀ j : Nat, w.get_parent_beg child ≤ j →
      map_find (w.parents.getD j []) child.parent = none := by
  intro j hj
  unfold gff_parent_collection.get_parent_index at h
  have := find_bucket_none _ _ _ h (j - w.get_parent_beg child)
  rw [getD_drop] at this
  have e : w.get_parent_beg child + (j - w.get_parent_beg child) = j := by omega
  rw [e] at this
  exact this

/-- C5. In a window reachable from `gff_parent_collection(3)`, for a child of
rank 1 to 5, a feature returned by `get_parent` has a rank above the child's
and is the entry under `child.parent` of the lowest bucket, from index
`max(0, rank + 1 - 3)` on, that has the key; and the null pointer is returned
exactly when no such bucket has the key. -/
theorem get_parent_nearest (w : gff_parent_collection) (hw : reachable w)
    (child : gff_feature) (h1 : 1 ≤ child.feature_rank) (h5 : child.feature_rank ≤ 5) :
    (∀ p, w.get_parent child = some p →
        child.feature_rank < p.feature_rank ∧
          ∃ i : Nat, max 0 (child.feature_rank + 1 - 3) ≤ (i : Int) ∧ i < w.parents.length ∧
            map_find (w.parents.getD i []) child.parent = some p ∧
            ∀ j : Nat, max 0 (child.feature_rank + 1 - 3) ≤ (j : Int) → j < i →
              map_find (w.parents.getD j []) child.parent = none) ∧
      (w.get_parent child = none ↔
        ∀ i : Nat, max 0 (child.feature_rank + 1 - 3) ≤ (i : Int) → i < w.parents.length →
          map_find (w.parents.getD i []) child.parent = none) := by
  obtain ⟨hv, hl, hb⟩ := reachable_invariant w hw
  have hbeg : (w.get_parent_beg child : Int) = max 0 (child.feature_rank + 1 - 3) := by
    unfold gff_parent_collection.get_parent_beg
    simp only [hv]
    split <;> omega
  constructor
  · intro p hp
    unfold gff_parent_collection.get_parent at hp
    cases hidx : w.get_parent_index child with
    | none => simp [hidx] at hp
    | some i =>
      simp only [hidx] at hp
      obtain ⟨hi1, hi2, _, hi4⟩ := get_parent_index_some w child i hidx
      have hrank := hb i _ (map_find_mem _ _ _ hp)
      simp only at hrank
      refine ⟨by omega, i, by omega, hi2, hp, ?_⟩
      intro j hj1 hj2
      exact hi4 j (by omega) hj2
  · constructor
    · intro hnone i hi1 _
      unfold gff_parent_collection.get_parent at hnone
      cases hidx : w.get_parent_index child with
      | none => exact get_parent_index_none w child hidx i (by omega)
      | some k =>
        simp only [hidx] at hnone
        obtain ⟨_, _, ⟨p, hp⟩, _⟩ := get_parent_index_some w child k hidx
        rw [hnone] at hp
        exact Option.noConfusion hp
    · intro hall
      unfold gff_parent_collection.get_parent
      cases hidx : w.get_parent_index child with
      | none => rfl
      | some k =>
        obtain ⟨hk1, hk2, ⟨p, hp⟩, _⟩ := get_parent_index_some w child k hidx
        have := hall k (by omega) hk2
        unfold gff_parent_collection.deref at hp
        rw [this] at hp
        exact Option.noConfusion hp

/-- Witness for C5: the window holding the gene `g1`, and the exon `e1` whose
parent label is `g1`. -/
theorem get_parent_nearest_witness :
    exon_e1.feature_rank < gene_g1.feature_rank ∧
      ∃ i : Nat, max 0 (exon_e1.feature_rank + 1 - 3) ≤ (i : Int) ∧
        i < ((gff_parent_collection.mk_empty 3).insert_parent gene_g1).parents.length ∧
        map_find (((gff_parent_collection.mk_empty 3).insert_parent gene_g1).parents.getD i [])
          exon_e1.parent = some gene_g1 ∧
        ∀ j : Nat, max 0 (exon_e1.feature_rank + 1 - 3) ≤ (j : Int) → j < i →
          map_find (((gff_parent_collection.mk_empty 3).insert_parent gene_g1).parents.getD j [])
            exon_e1.parent = none :=
  (get_parent_nearest ((gff_parent_collection.mk_empty 3).insert_parent gene_g1)
    (reachable.insert _ _ reachable.empty) exon_e1 (by decide) (by decide)).1 gene_g1
    (by decide)

theorem map_find_insert_absent {α : Type} (b : List (String × α)) (k : String) (v : α)
    (h : map_find b k = none) : map_find (map_insert b k v) k = some v := by
  induction b with
  | nil => simp [map_insert, map_find]
  | cons x rest ih =>
    obtain ⟨k1, v1⟩ := x
    simp only [map_find] at h
    split at h
    · exact Option.noConfusion h
    · rename_i hne
      simp only [map_insert]
      split
      · simp [map_find]
      · rename_i h1
        split
        · simp only [map_find, hne, if_false]
          exact ih h
        · rename_i h2
          rcases lt_trichotomy k k1 with h3 | h3 | h3
          · exact absurd h3 h1
          · exact absurd h3.symm hne
          · exact absurd h3 h2

theorem map_insert_present {α : Type} (b : List (String × α)) (k : String) (v old : α)
    (hs : b.Pairwise (fun x y => x.1 < y.1)) (h : map_find b k = some old) :
    map_insert b k v = b := by
  induction b with
  | nil => simp [map_find] at h
  | cons x rest ih =>
    obtain ⟨k1, v1⟩ := x
    rw [List.pairwise_cons] at hs
    simp only [map_find] at h
    simp only [map_insert]
    split at h
    · rename_i heq
      subst heq
      simp [lt_irrefl]
    · have hlt : k1 < k := hs.1 (k, old) (map_find_mem _ _ _ h)
      have hnlt : ¬ k < k1 := lt_asymm hlt
      simp only [hnlt, if_false, hlt, if_true]
      rw [ih hs.2 h]

/-- C6, as stated, fails: after the transcript `t1` is in the window, inserting
a second transcript with the identifier `t1` leaves the first one stored under
that key. -/
theorem insert_parent_no_overwrite :
    ¬ ∀ (w : gff_parent_collection) (f : gff_feature),
        w.v_offset = 3 → w.parents.length = 3 → 3 ≤ f.feature_rank → f.feature_rank ≤ 5 →
        (w.insert_parent f).deref (f.feature_rank - 3).toNat
          (if f.feature = "region" then f.seqname else f.id) = some f := by
  intro h
  have := h ((gff_parent_collection.mk_empty 3).insert_parent mrna_t1) mrna_t1_again
    (by decide) (by decide) (by decide) (by decide)
  revert this
  decide

/-- C6, amended. For a window with offset 3 and 3 buckets and a feature `f` of
rank 3 to 5: when bucket `rank - 3` has no entry under the key of `f`
(`seqname` for a region, else `id`), after `insert_parent(f)` the entry under
that key is `f`; when the bucket, sorted by key, already has an entry under the
key, that entry stays and the window is unchanged. -/
theorem insert_parent_stores_new_key (w : gff_parent_collection) (f : gff_feature)
    (hv : w.v_offset = 3) (hl : w.parents.length = 3)
    (h3 : 3 ≤ f.feature_rank) (h5 : f.feature_rank ≤ 5) :
    (w.deref (f.feature_rank - 3).toNat
          (if f.feature = "region" then f.seqname else f.id) = none →
        (w.insert_parent f).deref (f.feature_rank - 3).toNat
          (if f.feature = "region" then f.seqname else f.id) = some f) ∧
      ∀ old : gff_feature,
        w.deref (f.feature_rank - 3).toNat
          (if f.feature = "region" then f.seqname else f.id) = some old →
        (w.parents.getD (f.feature_rank - 3).toNat []).Pairwise (fun x y => x.1 < y.1) →
        (w.insert_parent f).parents = w.parents ∧
          (w.insert_parent f).deref (f.feature_rank - 3).toNat
            (if f.feature = "region" then f.seqname else f.id) = some old := by
  have hcond : ¬ (f.feature_rank - w.v_offset < 0 ∨
      f.feature_rank - w.v_offset ≥ (w.parents.length : Int)) := by
    rw [hv, hl]
    omega
  have hi : (f.feature_rank - 3).toNat < w.parents.length := by
    rw [hl]
    omega
  constructor
  · intro habs
    unfold gff_parent_collection.deref at habs ⊢
    unfold gff_parent_collection.insert_parent
    simp only [hcond, if_false]
    rw [hv, modify_at_getD_self _ _ _ hi]
    exact map_find_insert_absent _ _ _ habs
  · intro old hold hsorted
    have hsame : (w.insert_parent f).parents = w.parents := by
      unfold gff_parent_collection.deref at hold
      unfold gff_parent_collection.insert_parent
      simp only [hcond, if_false]
      rw [hv]
      apply List.ext_getElem
      · simp [modify_at_length]
      · intro n hn1 hn2
        have e1 : (modify_at (fun b => map_insert b
            (if f.feature = "region" then f.seqname else f.id) f) w.parents
            (f.feature_rank - 3).toNat)[n] = (modify_at (fun b => map_insert b
            (if f.feature = "region" then f.seqname else f.id) f) w.parents
            (f.feature_rank - 3).toNat).getD n [] := by
          rw [List.getD_eq_getElem _ _ hn1]
        have e2 : w.parents[n] = w.parents.getD n [] := by
          rw [List.getD_eq_getElem _ _ hn2]
        rw [e1, e2]
        by_cases hn : n = (f.feature_rank - 3).toNat
        · subst hn
          rw [modify_at_getD_self _ _ _ hi]
          exact map_insert_present _ _ _ old hsorted hold
        · rw [modify_at_getD_ne _ _ _ _ hn]
    refine ⟨hsame, ?_⟩
    unfold gff_parent_collection.deref at hold ⊢
    rw [hsame]
    exact hold

/-- Witness for C6, amended: the transcript `t1` is inserted into the empty
window and is then the entry under `t1` in bucket 0. -/
theorem insert_parent_stores_new_key_witness :
    ((gff_parent_collection.mk_empty 3).insert_parent mrna_t1).deref 0 "t1" = some mrna_t1 :=
  (insert_parent_stores_new_key (gff_parent_collection.mk_empty 3) mrna_t1 (by decide)
    (by decide) (by decide) (by decide)).1 (by decide)

/-! ## The main loop -/

theorem f_rank_region : f_rank "region" = 5 := by decide
theorem f_rank_rna : f_rank "rna" = 3 := by decide
theorem f_rank_gene : f_rank "gene" = 4 := by decide

theorem table_rows_append (r : Int) (a b : List output) :
    table_rows r (a ++ b) = table_rows r a ++ table_rows r b := by
  induction a with
  | nil => rfl
  | cons x rest ih =>
    cases x with
    | table r2 row =>
      simp only [List.cons_append, table_rows]
      split <;> simp [ih]
    | tr_exon _ _ _ _ => simpa [table_rows] using ih
    | tr_cds _ _ _ _ => simpa [table_rows] using ih
    | tr_annotation _ _ _ => simpa [table_rows] using ih

theorem link_child_keys_append (c : Bool) (a b : List output) :
    link_child_keys c (a ++ b) = link_child_keys c a ++ link_child_keys c b := by
  induction a with
  | nil => rfl
  | cons x rest ih =>
    cases x with
    | table r2 row => simpa [link_child_keys] using ih
    | tr_exon _ _ _ _ =>
      simp only [List.cons_append, link_child_keys]
      split <;> simp [ih]
    | tr_cds _ _ _ _ =>
      simp only [List.cons_append, link_child_keys]
      split <;> simp [ih]
    | tr_annotation _ _ _ => simpa [link_child_keys] using ih

theorem table_rows_annotation_lines (r : Int) (d : Nat) (ann : List (Int × List String)) :
    table_rows r (annotation_lines d ann) = [] := by
  induction ann with
  | nil => rfl
  | cons x rest ih =>
    obtain ⟨idx, vs⟩ := x
    simp only [annotation_lines, table_rows_append, ih, List.append_nil]
    induction vs with
    | nil => rfl
    | cons v vs ihv => simpa [table_rows] using ihv

theorem table_rows_print_annotation (r : Int) (l : List gff_feature) (k : Int) :
    table_rows r ( print_annotation l k) = [] := by
  induction l with
  | nil => rfl
  | cons f rest ih =>
    simp only [ print_annotation, table_rows_append, ih, List.append_nil]
    split
    · exact table_rows_annotation_lines _ _ _
    · rfl

theorem link_child_keys_annotation_lines (c : Bool) (d : Nat) (ann : List (Int × List String)) :
    link_child_keys c (annotation_lines d ann) = [] := by
  induction ann with
  | nil => rfl
  | cons x rest ih =>
    obtain ⟨idx, vs⟩ := x
    simp only [annotation_lines, link_child_keys_append, ih, List.append_nil]
    induction vs with
    | nil => rfl
    | cons v vs ihv => simpa [link_child_keys] using ihv

theorem link_child_keys_print_annotation (c : Bool) (l : List gff_feature) (k : Int) :
    link_child_keys c ( print_annotation l k) = [] := by
  induction l with
  | nil => rfl
  | cons f rest ih =>
    simp only [ print_annotation, link_child_keys_append, ih, List.append_nil]
    split
    · exact link_child_keys_annotation_lines _ _ _
    · rfl


theorem map_find_insert_isSome {α : Type} (b : List (String × α)) (k k2 : String) (v : α)
    (h : (map_find b k).isSome = true) : (map_find (map_insert b k2 v) k).isSome = true := by
  induction b with
  | nil => simp [map_find] at h
  | cons x rest ih =>
    obtain ⟨k1, v1⟩ := x
    simp only [map_insert]
    split
    · simp only [map_find]
      split
      · rfl
      · exact h
    · split
      · simp only [map_find] at h ⊢
        split
        · rfl
        · rename_i hne
          simp only [hne, if_false] at h
          exact ih h
      · exact h

theorem map_find_modify_isSome {α : Type} (g : α → α) (b : List (String × α)) (k k2 : String) :
    (map_find (map_modify g b k2) k).isSome = (map_find b k).isSome := by
  induction b with
  | nil => rfl
  | cons x rest ih =>
    obtain ⟨k1, v1⟩ := x
    simp only [map_modify]
    split
    · simp only [map_find]
      split <;> rfl
    · simp only [map_find]
      split
      · rfl
      · exact ih

theorem modify_at_getD_same {α : Type} (g : List α → List α) (hg : g [] = [])
    (l : List (List α)) (i : Nat) : (modify_at g l i).getD i [] = g (l.getD i []) := by
  induction l generalizing i with
  | nil => simp [modify_at, hg]
  | cons x xs ih =>
    cases i with
    | zero => simp [modify_at]
    | succ n =>
      simp only [modify_at, List.getD_cons_succ]
      exact ih n

theorem deref_insert_parent_isSome (w : gff_parent_collection) (f : gff_feature) (i : Nat)
    (k : String) (h : (w.deref i k).isSome = true) :
    ((w.insert_parent f).deref i k).isSome = true := by
  unfold gff_parent_collection.insert_parent
  simp only
  split
  · exact h
  · rename_i hcond
    unfold gff_parent_collection.deref at h ⊢
    simp only
    by_cases hi : i = (f.feature_rank - w.v_offset).toNat
    · subst hi
      rw [modify_at_getD_self _ _ _ (by omega)]
      exact map_find_insert_isSome _ _ _ _ h
    · rw [modify_at_getD_ne _ _ _ _ hi]
      exact h

theorem deref_write_through_isSome (w : gff_parent_collection) (g : gff_feature → gff_feature)
    (i j : Nat) (k k2 : String) :
    ((w.write_through j k2 g).deref i k).isSome = (w.deref i k).isSome := by
  unfold gff_parent_collection.write_through gff_parent_collection.deref
  simp only
  by_cases hi : i = j
  · subst hi
    rw [modify_at_getD_same _ rfl]
    exact map_find_modify_isSome _ _ _ _
  · rw [modify_at_getD_ne _ _ _ _ hi]


theorem at_lookup_facts (s : loop_state) (y : gff_feature) :
    (at_lookup s y).1.written =
        s.written ++ print_annotation (s.current_parents.prune_parents y).2 (f_rank "rna") ∧
      (at_lookup s y).1.last_feature = some y ∧
      ∀ r : Int, r ≠ 5 → (at_lookup s y).1.db_ids r = s.db_ids r := by
  unfold at_lookup resolve_region pruned
  simp only
  split
  · refine ⟨rfl, rfl, ?_⟩
    intro r hr
    simp [bump, f_rank_region, hr]
  · exact ⟨rfl, rfl, fun _ _ => rfl⟩

theorem synthesize_rna_facts (uninit : Nat → Nat) (s : loop_state) (feat parent : gff_feature)
    (region_id : Nat) (hr : feat.feature_rank < 3) :
    (synthesize_rna uninit s feat parent region_id).1.last_feature = s.last_feature ∧
      (synthesize_rna uninit s feat parent region_id).1.written =
        s.written ++
          (if parent.feature_rank = 4 then
            [output.table 3 (print_feature (gff_feature.from_src (uninit (s.db_ids 3 + 1))
              (s.db_ids 3 + 1) "rna" 3 feat) region_id)]
           else []) ∧
      (synthesize_rna uninit s feat parent region_id).1.db_ids =
        (if parent.feature_rank = 4 then bump s.db_ids 3 else s.db_ids) ∧
      (synthesize_rna uninit s feat parent region_id).2 =
        { feat with
            parent_id := if parent.feature_rank = 4 then s.db_ids 3 + 1 else feat.parent_id } ∧
      ∀ (i : Nat) (k : String), (s.current_parents.deref i k).isSome = true →
        ((synthesize_rna uninit s feat parent region_id).1.current_parents.deref i k).isSome =
          true := by
  unfold synthesize_rna
  by_cases hg : parent.feature_rank = 4
  · simp only [hr, hg, f_rank_gene, f_rank_rna, and_self, if_true]
    refine ⟨?_, ?_, ?_, ?_, ?_⟩
    · trivial
    · simp [bump, gff_feature.from_src]
    · trivial
    · simp [bump]
    · intro i k h
      exact deref_insert_parent_isSome _ _ _ _ h
  · simp only [hg, f_rank_gene, and_false, if_false]
    refine ⟨?_, ?_, ?_, ?_, ?_⟩
    · trivial
    · simp
    · trivial
    · trivial
    · exact fun _ _ h => h

theorem assign_key_facts (s : loop_state) (feat : gff_feature) (repeated : Bool)
    (region_id : Nat) (hr : feat.feature_rank < 3) :
    (assign_key s feat repeated region_id).1.last_feature = s.last_feature ∧
      (assign_key s feat repeated region_id).1.current_parents = s.current_parents ∧
      (assign_key s feat repeated region_id).1.written =
        s.written ++
          (if repeated = false then
            [output.table feat.feature_rank (print_feature
              { feat with db_id := s.db_ids feat.feature_rank + 1 } region_id)]
           else []) ∧
      (assign_key s feat repeated region_id).1.db_ids =
        (if repeated = false then bump s.db_ids feat.feature_rank else s.db_ids) ∧
      (assign_key s feat repeated region_id).2 =
        { feat with
            db_id :=
              if repeated = false then s.db_ids feat.feature_rank + 1
              else s.db_ids feat.feature_rank } := by
  have h3 : feat.feature_rank ≠ 3 := by omega
  have hge : ¬ feat.feature_rank ≥ 3 := by omega
  unfold assign_key
  cases repeated
  · simp [hge, bump]
  · simp [h3]

theorem link_rows_facts (s : loop_state) (i : Nat) (feat : gff_feature)
    (hr : feat.feature_rank < 3) (h : (s.current_parents.deref i feat.parent).isSome = true) :
    (link_rows s i feat).last_feature = s.last_feature ∧
      (link_rows s i feat).db_ids = s.db_ids ∧
      ∃ (pk : Nat) (cnt : Int),
        (link_rows s i feat).written =
          s.written ++
            [if feat.feature = "cds" then output.tr_cds pk feat.db_id cnt feat.id
             else output.tr_exon pk feat.db_id cnt feat.id] := by
  obtain ⟨p, hp⟩ := Option.isSome_iff_exists.mp h
  unfold link_rows
  simp only [hr, if_true, hp]
  refine ⟨?_, ?_, p.db_id, if feat.feature = "cds" then p.cds_count else p.exon_count, ?_⟩
  · trivial
  · trivial
  · split <;> rfl


/-- The effect of one iteration on a record below transcript rank whose parent
is found. -/
theorem step_child (uninit : Nat → Nat) (s : loop_state) (y parent : gff_feature) (i : Nat)
    (hne : y.feature ≠ "region") (hr : y.feature_rank < 3)
    (hidx : (at_lookup s y).1.current_parents.get_parent_index y = some i)
    (hpar : (at_lookup s y).1.current_parents.deref i y.parent = some parent) :
    (step uninit s y).last_feature = some y ∧
      (∀ r : Int, r ≠ 5 → r ≠ 3 → (step uninit s y).db_ids r =
        if r = y.feature_rank ∧ is_repeated s.last_feature y = false then s.db_ids r + 1
        else s.db_ids r) ∧
      (step uninit s y).db_ids 3 =
        (if parent.feature_rank = 4 then s.db_ids 3 + 1 else s.db_ids 3) ∧
      (step_full uninit s y).2 =
        { y with
            parent_id := if parent.feature_rank = 4 then s.db_ids 3 + 1 else parent.db_id,
            db_id :=
              if is_repeated s.last_feature y = false then s.db_ids y.feature_rank + 1
              else s.db_ids y.feature_rank } ∧
      ∃ (pk : Nat) (cnt : Int),
        (step uninit s y).written =
          s.written ++ print_annotation (s.current_parents.prune_parents y).2 (f_rank "rna") ++
            (if parent.feature_rank = 4 then
              [output.table 3 (print_feature (gff_feature.from_src (uninit (s.db_ids 3 + 1))
                (s.db_ids 3 + 1) "rna" 3 { y with parent_id := parent.db_id })
                (at_lookup s y).2)]
             else []) ++
            (if is_repeated s.last_feature y = false then
              [output.table y.feature_rank (print_feature
                { y with
                    parent_id :=
                      if parent.feature_rank = 4 then s.db_ids 3 + 1 else parent.db_id,
                    db_id := s.db_ids y.feature_rank + 1 }
                (at_lookup s y).2)]
             else []) ++
            [if y.feature = "cds" then
              output.tr_cds pk
                (if is_repeated s.last_feature y = false then s.db_ids y.feature_rank + 1
                 else s.db_ids y.feature_rank) cnt y.id
             else
              output.tr_exon pk
                (if is_repeated s.last_feature y = false then s.db_ids y.feature_rank + 1
                 else s.db_ids y.feature_rank) cnt y.id] := by
  obtain ⟨hw, hl, hd⟩ := at_lookup_facts s y
  have h3 : y.feature_rank ≠ 3 := by omega
  have h5 : y.feature_rank ≠ 5 := by omega
  have fsy := synthesize_rna_facts uninit (at_lookup s y).1 { y with parent_id := parent.db_id }
    parent (at_lookup s y).2 hr
  obtain ⟨sy, hsy⟩ : ∃ sy, synthesize_rna uninit (at_lookup s y).1
      { y with parent_id := parent.db_id } parent (at_lookup s y).2 = sy := ⟨_, rfl⟩
  rw [hsy] at fsy
  obtain ⟨sl, sw, sd, sf, sp⟩ := fsy
  have hsr : sy.2.feature_rank < 3 := by rw [sf]; exact hr
  have fak := assign_key_facts
    { sy.1 with
        current_parents := sy.1.current_parents.write_through i y.parent (count_child sy.2) }
    sy.2 (is_repeated s.last_feature y) (at_lookup s y).2 hsr
  obtain ⟨ak, hak⟩ : ∃ ak, assign_key
      { sy.1 with
          current_parents := sy.1.current_parents.write_through i y.parent (count_child sy.2) }
      sy.2 (is_repeated s.last_feature y) (at_lookup s y).2 = ak := ⟨_, rfl⟩
  rw [hak] at fak
  obtain ⟨al, ac, aw, ad, af⟩ := fak
  simp only at al ac aw ad
  have har : ak.2.feature_rank < 3 := by rw [af]; exact hsr
  have har3 : ak.2.feature_rank ≠ 3 := by omega
  have hfull : step_full uninit s y = (link_rows ak.1 i ak.2, ak.2) := by
    unfold step_full
    simp only [hne, if_false, hidx, hpar, hsy, hak, har3]
  have hstep : step uninit s y = link_rows ak.1 i ak.2 := by
    unfold step
    rw [hfull]
  have hap : ak.2.parent = y.parent := by rw [af, sf]
  have hsome : (ak.1.current_parents.deref i ak.2.parent).isSome = true := by
    rw [ac, hap, deref_write_through_isSome]
    apply sp
    rw [hpar]
    rfl
  obtain ⟨ll, ld, pk, cnt, lw⟩ := link_rows_facts ak.1 i ak.2 har hsome
  rw [hstep, hfull]
  refine ⟨by rw [ll, al, sl, hl], ?_, ?_, ?_, pk, cnt, ?_⟩
  · intro r hr5 hr3
    rw [ld, ad, sd, sf]
    by_cases hg : parent.feature_rank = 4 <;> cases hrep : is_repeated s.last_feature y <;>
      by_cases hry : r = y.feature_rank <;>
      simp [bump, hg, hry, hr3, hr5, h3, h5, hd]
  · rw [ld, ad, sd, sf]
    by_cases hg : parent.feature_rank = 4 <;> cases hrep : is_repeated s.last_feature y <;>
      simp [bump, hg, h3, Ne.symm h3, hd]
  · rw [af, sf, sd]
    by_cases hg : parent.feature_rank = 4 <;> cases hrep : is_repeated s.last_feature y <;>
      simp [bump, hg, h3, Ne.symm h3, h5, hd]
  · rw [lw, aw, sw, hw, af, sf, sd]
    by_cases hg : parent.feature_rank = 4 <;> cases hrep : is_repeated s.last_feature y <;>
      simp [bump, hg, h3, Ne.symm h3, h5, hd, print_feature]

theorem get_parent_some (w : gff_parent_collection) (c p : gff_feature)
    (h : w.get_parent c = some p) :
    ∃ i : Nat, w.get_parent_index c = some i ∧ w.deref i c.parent = some p := by
  unfold gff_parent_collection.get_parent at h
  cases hidx : w.get_parent_index c with
  | none => simp [hidx] at h
  | some i =>
    simp only [hidx] at h
    exact ⟨i, rfl, h⟩

/-- Rows of the table of the record's own rank and child keys of the linking
table after the iteration for a record below transcript rank whose parent is
found. -/
theorem step_child_rows (uninit : Nat → Nat) (s : loop_state) (y parent : gff_feature)
    (cds : Bool) (hcds : y.feature = "cds" ↔ cds = true)
    (hne : y.feature ≠ "region") (hr : y.feature_rank < 3)
    (hget : (at_lookup s y).1.current_parents.get_parent y = some parent) :
    table_rows y.feature_rank (step uninit s y).written =
        table_rows y.feature_rank s.written ++
          (if is_repeated s.last_feature y = false then
            [print_feature
              { y with
                  parent_id := if parent.feature_rank = 4 then s.db_ids 3 + 1 else parent.db_id,
                  db_id := s.db_ids y.feature_rank + 1 }
              (at_lookup s y).2]
           else []) ∧
      link_child_keys cds (step uninit s y).written =
        link_child_keys cds s.written ++
          [if is_repeated s.last_feature y = false then s.db_ids y.feature_rank + 1
           else s.db_ids y.feature_rank] ∧
      table_rows 3 (step uninit s y).written =
        table_rows 3 s.written ++
          (if parent.feature_rank = 4 then
            [print_feature (gff_feature.from_src (uninit (s.db_ids 3 + 1)) (s.db_ids 3 + 1)
              "rna" 3 { y with parent_id := parent.db_id }) (at_lookup s y).2]
           else []) := by
  obtain ⟨i, hidx, hpar⟩ := get_parent_some _ _ _ hget
  obtain ⟨_, _, _, _, pk, cnt, hw⟩ := step_child uninit s y parent i hne hr hidx hpar
  have h3 : (3 : Int) ≠ y.feature_rank := by omega
  have h3b : y.feature_rank ≠ 3 := by omega
  rw [hw]
  simp only [table_rows_append, link_child_keys_append, table_rows_print_annotation,
    link_child_keys_print_annotation, List.append_nil]
  refine ⟨?_, ?_, ?_⟩
  · by_cases hg : parent.feature_rank = 4 <;> cases hrep : is_repeated s.last_feature y <;>
      by_cases hc : y.feature = "cds" <;> simp [table_rows, hg, hc, h3]
  · by_cases hg : parent.feature_rank = 4 <;> cases hrep : is_repeated s.last_feature y <;>
      by_cases hc : y.feature = "cds" <;> cases cds <;>
      simp_all [link_child_keys]
  · by_cases hg : parent.feature_rank = 4 <;> cases hrep : is_repeated s.last_feature y <;>
      by_cases hc : y.feature = "cds" <;> simp [table_rows, hg, hc, h3b]

theorem f_rank_eq_one (a : String) (h : f_rank a = 1) : a = "cds" := by
  unfold f_rank f_ranks at h
  simp only [map_find] at h
  split at h
  · rename_i e
    exact e.symm
  all_goals (repeat' split at h) <;> simp at h

theorem f_rank_eq_two (a : String) (h : f_rank a = 2) : a = "exon" := by
  unfold f_rank f_ranks at h
  simp only [map_find] at h
  split at h
  · simp at h
  · split at h
    · rename_i e
      exact e.symm
    all_goals (repeat' split at h) <;> simp at h

/-- A parsed record of rank 1 or 2 is a cds or an exon. -/
theorem feature_of_low_rank (y : gff_feature) (hp : y.feature_rank = f_rank y.feature)
    (hr : y.feature_rank = 1 ∨ y.feature_rank = 2) :
    (y.feature = "cds" ∧ y.feature_rank = 1) ∨ (y.feature = "exon" ∧ y.feature_rank = 2) := by
  rcases hr with h | h
  · exact Or.inl ⟨f_rank_eq_one _ (hp ▸ h), h⟩
  · exact Or.inr ⟨f_rank_eq_two _ (hp ▸ h), h⟩

/-- The records of a run after its first: each is a repeat, no row is written
to the table of the rank and each yields a linking line with the current key. -/
theorem repeats_collapse (uninit : Nat → Nat) (x : gff_feature) (cds : Bool)
    (hcds : x.feature = "cds" ↔ cds = true) (hne : x.feature ≠ "region")
    (hr : x.feature_rank < 3) (ys : List gff_feature) :
    ∀ (s : loop_state) (l : gff_feature), s.last_feature = some l →
      (l.seqname = x.seqname ∧ l.f_start = x.f_start ∧ l.f_end = x.f_end ∧
        l.feature = x.feature ∧ l.strand = x.strand) →
      (∀ y ∈ ys, y.feature = x.feature ∧ y.feature_rank = x.feature_rank ∧
        y.seqname = x.seqname ∧ y.f_start = x.f_start ∧ y.f_end = x.f_end ∧
        y.strand = x.strand) →
      all_resolved uninit s ys = true →
      table_rows x.feature_rank (resolve_loop uninit s ys).written =
          table_rows x.feature_rank s.written ∧
        link_child_keys cds (resolve_loop uninit s ys).written =
          link_child_keys cds s.written ++ List.replicate ys.length (s.db_ids x.feature_rank) := by
  induction ys with
  | nil =>
    intro s l _ _ _ _
    simp [resolve_loop]
  | cons y ys ih =>
    intro s l hl hlx hys hres
    obtain ⟨hyf, hyr, hy1, hy2, hy3, hy4⟩ := hys y (List.mem_cons_self _ _)
    simp only [all_resolved, Bool.and_eq_true] at hres
    obtain ⟨parent, hget⟩ := Option.isSome_iff_exists.mp hres.1
    have hr2 : y.feature_rank < 3 := by rw [hyr]; exact hr
    have hrep : is_repeated s.last_feature y = true := by
      unfold is_repeated gff_feature.range_feature_identical
      simp [hl, hr2, hlx.1, hlx.2.1, hlx.2.2.1, hlx.2.2.2.1, hlx.2.2.2.2, hyf, hy1, hy2, hy3,
        hy4]
    obtain ⟨i, hidx, hpar⟩ := get_parent_some _ _ _ hget
    obtain ⟨hlast, hdb, _, _, _⟩ :=
      step_child uninit s y parent i (hyf ▸ hne) hr2 hidx hpar
    obtain ⟨hrows, hlinks, _⟩ :=
      step_child_rows uninit s y parent cds (hyf ▸ hcds) (hyf ▸ hne) hr2 hget
    have hdbr : (step uninit s y).db_ids x.feature_rank = s.db_ids x.feature_rank := by
      rw [hdb x.feature_rank (by omega) (by omega)]
      simp [hrep]
    obtain ⟨ih1, ih2⟩ := ih (step uninit s y) y hlast ⟨hy1, hy2, hy3, hyf, hy4⟩
      (fun z hz => hys z (List.mem_cons_of_mem _ hz)) hres.2
    have hloop : resolve_loop uninit s (y :: ys) = resolve_loop uninit (step uninit s y) ys :=
      rfl
    rw [hloop, ih1, ih2, hdbr, hlinks, ← hyr, hrows]
    simp [hrep, List.replicate_succ]

/-- C7. Rows with a parent key that refers to no earlier row: for the gene `g1`
followed by its exon `e1`, the made-up transcript row carries the value of the
uninitialised member `parent_id` (here 7), while the gene table holds the key 1
only; and for a gene whose parent label is the sequence name, the gene row
carries the key 1 of the made-up region, of which the region table has no
row. -/
theorem parent_key_without_earlier_row :
    (table_rows 3 (main_written (fun _ => 7) [gene_g1, exon_e1])).map (fun r => r.parent_id) =
        [7] ∧
      (table_rows 4 (main_written (fun _ => 7) [gene_g1, exon_e1])).map (fun r => r.db_id) =
        [1] ∧
      (table_rows 4 (main_written (fun _ => 0) [gene_in_chr1])).map (fun r => r.parent_id) =
        [1] ∧
      table_rows 5 (main_written (fun _ => 0) [gene_in_chr1]) = [] := by
  decide

/-- C8. A gap in the region keys: for a gene on `chr1`, which the file gives
no region for, followed by the region `chr2`, the only row of the region table
has the key 2; the key 1 went to the made-up region of `chr1`, which is never
written. -/
theorem region_keys_not_contiguous :
    (table_rows 5 (main_written (fun _ => 0) [gene_g1, region_chr2])).map (fun r => r.db_id) =
      [2] := by
  decide

/-- C9, as stated, fails: the exon line `ID=e1;Parent=t1` given twice, below a
live transcript `t1`, is a run of two records, yet one linking line is written,
not two: the set holds the record once. -/
theorem identical_lines_yield_one_link :
    read_features [gene_g1, mrna_t1, exon_of_t1, exon_of_t1] = [gene_g1, mrna_t1, exon_of_t1] ∧
      (table_rows 2 (main_written (fun _ => 0)
        [gene_g1, mrna_t1, exon_of_t1, exon_of_t1])).map (fun r => r.db_id) = [1] ∧
      link_child_keys false (main_written (fun _ => 0)
        [gene_g1, mrna_t1, exon_of_t1, exon_of_t1]) = [1] ∧
      (link_child_keys false (main_written (fun _ => 0)
        [gene_g1, mrna_t1, exon_of_t1, exon_of_t1])).length ≠ 2 := by
  decide

/-- C9, amended. For a run `x :: xs` of consecutive elements of the set, all
parsed exon records or all parsed cds records, with the seqname, start, end,
strand and rank of `x`, where the element before the run is not
coordinate-identical to `x` and every record of the run finds a parent when it
is processed: the loop writes exactly one row to the table of the rank, with
the next key of the rank, and exactly one linking line per record of the run,
each with that key as child key. -/
theorem duplicate_run_collapses (uninit : Nat → Nat) (s : loop_state) (x : gff_feature)
    (xs : List gff_feature)
    (hparsed : ∀ y ∈ x :: xs, y.feature_rank = f_rank y.feature)
    (hrank : x.feature_rank = 1 ∨ x.feature_rank = 2)
    (hsame : ∀ y ∈ xs, y.seqname = x.seqname ∧ y.f_start = x.f_start ∧ y.f_end = x.f_end ∧
      y.strand = x.strand ∧ y.feature_rank = x.feature_rank)
    (hfirst : is_repeated s.last_feature x = false)
    (hres : all_resolved uninit s (x :: xs) = true) :
    ∃ row : feature_row,
      row.db_id = s.db_ids x.feature_rank + 1 ∧
        table_rows x.feature_rank (resolve_loop uninit s (x :: xs)).written =
          table_rows x.feature_rank s.written ++ [row] ∧
        link_child_keys (decide (x.feature = "cds"))
            (resolve_loop uninit s (x :: xs)).written =
          link_child_keys (decide (x.feature = "cds")) s.written ++
            List.replicate (xs.length + 1) (s.db_ids x.feature_rank + 1) := by
  have hxp := hparsed x (List.mem_cons_self _ _)
  have hxf := feature_of_low_rank x hxp hrank
  have hne : x.feature ≠ "region" := by
    rcases hxf with h | h <;> rw [h.1] <;> decide
  have hr : x.feature_rank < 3 := by omega
  have hcds : x.feature = "cds" ↔ decide (x.feature = "cds") = true := by simp
  simp only [all_resolved, Bool.and_eq_true] at hres
  obtain ⟨parent, hget⟩ := Option.isSome_iff_exists.mp hres.1
  obtain ⟨i, hidx, hpar⟩ := get_parent_some _ _ _ hget
  obtain ⟨hlast, hdb, _, _, _⟩ := step_child uninit s x parent i hne hr hidx hpar
  obtain ⟨hrows, hlinks, _⟩ :=
    step_child_rows uninit s x parent (decide (x.feature = "cds")) hcds hne hr hget
  have hdbr : (step uninit s x).db_ids x.feature_rank = s.db_ids x.feature_rank + 1 := by
    rw [hdb x.feature_rank (by omega) (by omega)]
    simp [hfirst]
  have hys : ∀ y ∈ xs, y.feature = x.feature ∧ y.feature_rank = x.feature_rank ∧
      y.seqname = x.seqname ∧ y.f_start = x.f_start ∧ y.f_end = x.f_end ∧
      y.strand = x.strand := by
    intro y hy
    obtain ⟨h1, h2, h3, h4, h5⟩ := hsame y hy
    have hyp := hparsed y (List.mem_cons_of_mem _ hy)
    have hyf := feature_of_low_rank y hyp (by rw [h5]; exact hrank)
    refine ⟨?_, h5, h1, h2, h3, h4⟩
    rcases hxf with hx | hx <;> rcases hyf with hy2 | hy2
    · rw [hx.1, hy2.1]
    · omega
    · omega
    · rw [hx.1, hy2.1]
  obtain ⟨t1, t2⟩ := repeats_collapse uninit x (decide (x.feature = "cds")) hcds hne hr xs
    (step uninit s x) x hlast ⟨rfl, rfl, rfl, rfl, rfl⟩ hys hres.2
  have hloop : resolve_loop uninit s (x :: xs) = resolve_loop uninit (step uninit s x) xs := rfl
  refine ⟨print_feature
    { x with
        parent_id := if parent.feature_rank = 4 then s.db_ids 3 + 1 else parent.db_id,
        db_id := s.db_ids x.feature_rank + 1 }
    (at_lookup s x).2, rfl, ?_, ?_⟩
  · rw [hloop, t1, hrows]
    simp only [hfirst, if_true]
  · rw [hloop, t2, hlinks, hdbr]
    simp [hfirst, List.replicate_succ]

/-- Witness for C9, amended: after the gene `g1` and the transcript `t1`, the
run of the exons `e1` and `e2` of `t1`, both spanning 150-200. -/
theorem duplicate_run_collapses_witness :
    ∃ row : feature_row,
      row.db_id =
          (resolve_loop (fun _ => 0) initial_state [gene_g1, mrna_t1]).db_ids
            exon_of_t1.feature_rank + 1 ∧
        table_rows exon_of_t1.feature_rank
            (resolve_loop (fun _ => 0)
              (resolve_loop (fun _ => 0) initial_state [gene_g1, mrna_t1])
              [exon_of_t1, exon2_of_t1]).written =
          table_rows exon_of_t1.feature_rank
            (resolve_loop (fun _ => 0) initial_state [gene_g1, mrna_t1]).written ++ [row] ∧
        link_child_keys (decide (exon_of_t1.feature = "cds"))
            (resolve_loop (fun _ => 0)
              (resolve_loop (fun _ => 0) initial_state [gene_g1, mrna_t1])
              [exon_of_t1, exon2_of_t1]).written =
          link_child_keys (decide (exon_of_t1.feature = "cds"))
            (resolve_loop (fun _ => 0) initial_state [gene_g1, mrna_t1]).written ++
            List.replicate ([exon2_of_t1].length + 1)
              ((resolve_loop (fun _ => 0) initial_state [gene_g1, mrna_t1]).db_ids
                exon_of_t1.feature_rank + 1) :=
  duplicate_run_collapses (fun _ => 0)
    (resolve_loop (fun _ => 0) initial_state [gene_g1, mrna_t1]) exon_of_t1 [exon2_of_t1]
    (by decide) (by decide) (by decide) (by decide) (by decide)

/-- C10. Transcript synthesis: when an exon or cds record `y` (rank below 3)
finds a parent of gene rank, the iteration writes exactly one row to the
transcript table; the row has the feature `rna`, the seqname, source, start,
end and strand of `y` and the next key of the transcript tier; the counter of
the tier advances to that key; the `parent_id` of the record is that key, in
the final copy of the record and in its own row when one is written. -/
theorem transcript_synthesis (uninit : Nat → Nat) (s : loop_state) (y parent : gff_feature)
    (hfeat : y.feature = "exon" ∨ y.feature = "cds") (hr : y.feature_rank < 3)
    (hget : (at_lookup s y).1.current_parents.get_parent y = some parent)
    (hgene : parent.feature_rank = f_rank "gene") :
    (∃ row : feature_row,
        table_rows (f_rank "rna") (step uninit s y).written =
            table_rows (f_rank "rna") s.written ++ [row] ∧
          row.feature = "rna" ∧ row.seqname = y.seqname ∧ row.source = y.source ∧
          row.f_start = y.f_start ∧ row.f_end = y.f_end ∧ row.strand = y.strand ∧
          row.db_id = s.db_ids (f_rank "rna") + 1) ∧
      (step uninit s y).db_ids (f_rank "rna") = s.db_ids (f_rank "rna") + 1 ∧
      (step_full uninit s y).2.parent_id = s.db_ids (f_rank "rna") + 1 ∧
      (is_repeated s.last_feature y = false →
        ∃ own : feature_row,
          table_rows y.feature_rank (step uninit s y).written =
              table_rows y.feature_rank s.written ++ [own] ∧
            own.id = y.id ∧ own.parent_id = s.db_ids (f_rank "rna") + 1) := by
  have hne : y.feature ≠ "region" := by
    rcases hfeat with h | h <;> rw [h] <;> decide
  have hg : parent.feature_rank = 4 := by rw [hgene, f_rank_gene]
  obtain ⟨i, hidx, hpar⟩ := get_parent_some _ _ _ hget
  obtain ⟨_, _, hdb3, hfinal, _⟩ := step_child uninit s y parent i hne hr hidx hpar
  obtain ⟨hrows, _, hrna⟩ :=
    step_child_rows uninit s y parent (decide (y.feature = "cds")) (by simp) hne hr hget
  rw [f_rank_rna]
  refine ⟨⟨print_feature (gff_feature.from_src (uninit (s.db_ids 3 + 1)) (s.db_ids 3 + 1)
    "rna" 3 { y with parent_id := parent.db_id }) (at_lookup s y).2, ?_, ?_⟩, ?_, ?_, ?_⟩
  · rw [hrna]
    simp only [hg, if_true]
  · simp [print_feature, gff_feature.from_src]
  · rw [hdb3]
    simp [hg]
  · rw [hfinal]
    simp [hg]
  · intro hrep
    refine ⟨print_feature
      { y with
          parent_id := if parent.feature_rank = 4 then s.db_ids 3 + 1 else parent.db_id,
          db_id := s.db_ids y.feature_rank + 1 }
      (at_lookup s y).2, ?_, ?_⟩
    · rw [hrows]
      simp only [hrep, if_true]
    · simp [print_feature, hg]

/-- Witness for C10: after the gene `g1`, the exon `e1` finds the gene (key 1)
as its parent; the transcript counter advances and the exon points to the new
transcript key. -/
theorem transcript_synthesis_witness :
    (step (fun _ => 0) (resolve_loop (fun _ => 0) initial_state [gene_g1]) exon_e1).db_ids
          (f_rank "rna") =
        (resolve_loop (fun _ => 0) initial_state [gene_g1]).db_ids (f_rank "rna") + 1 ∧
      (step_full (fun _ => 0) (resolve_loop (fun _ => 0) initial_state [gene_g1])
          exon_e1).2.parent_id =
        (resolve_loop (fun _ => 0) initial_state [gene_g1]).db_ids (f_rank "rna") + 1 :=
  ⟨(transcript_synthesis (fun _ => 0) (resolve_loop (fun _ => 0) initial_state [gene_g1])
      exon_e1 { gene_g1 with db_id := 1 } (by decide) (by decide) (by decide)
      (by decide)).2.1,
    (transcript_synthesis (fun _ => 0) (resolve_loop (fun _ => 0) initial_state [gene_g1])
      exon_e1 { gene_g1 with db_id := 1 } (by decide) (by decide) (by decide)
      (by decide)).2.2.1⟩

/-! ## The program on sample inputs -/

/-- C11. No row for a made-up region: for the gene `g1` (chr1, 100-500) and
its exon `e1` (chr1, 150-200) the region table stays empty, although the gene
row and the exon row carry the region key 1. -/
theorem synthesized_region_not_written :
    table_rows 5 (main_written (fun _ => 0) [gene_g1, exon_e1]) = [] ∧
      (table_rows 4 (main_written (fun _ => 0) [gene_g1, exon_e1])).map
        (fun r => r.region_id) = [1] ∧
      (table_rows 2 (main_written (fun _ => 0) [gene_g1, exon_e1])).map
        (fun r => r.region_id) = [1] := by
  decide

/-- C13. A dropped record changes the rows of a later one: with the orphan
exon `e0` (150-200) in front of the exon `e1` (150-200) of the transcript `t1`,
the exon table gets no row and the linking line of `e1` has the child key 0;
without `e0` the exon table gets the row of `e1` with key 1 and the linking line
has the child key 1. -/
theorem dropped_record_changes_later_rows :
    (table_rows 2 (main_written (fun _ => 0)
        [gene_g1, mrna_t1, exon_orphan, exon_of_t1])).map (fun r => (r.db_id, r.id)) = [] ∧
      link_lines false (main_written (fun _ => 0)
        [gene_g1, mrna_t1, exon_orphan, exon_of_t1]) = [(1, 0, 1, "e1")] ∧
      (table_rows 2 (main_written (fun _ => 0)
        [gene_g1, mrna_t1, exon_of_t1])).map (fun r => (r.db_id, r.id)) = [(1, "e1")] ∧
      link_lines false (main_written (fun _ => 0)
        [gene_g1, mrna_t1, exon_of_t1]) = [(1, 1, 1, "e1")] := by
  decide

/-- C14. A linking line with the key of the gene: for the gene `g1` and its
exons `e1` and `e2`, the row of `e2` has the `parent_id` 2, the key of the
transcript made up for it, while its linking line has the parent key 1, the
key of the gene. -/
theorem link_line_carries_gene_key :
    (table_rows 2 (main_written (fun _ => 0) [gene_g1, exon_e1, exon_e2])).map
        (fun r => (r.db_id, r.parent_id, r.id)) = [(1, 1, "e1"), (2, 2, "e2")] ∧
      (table_rows 3 (main_written (fun _ => 0) [gene_g1, exon_e1, exon_e2])).map
        (fun r => r.db_id) = [1, 2] ∧
      (table_rows 4 (main_written (fun _ => 0) [gene_g1, exon_e1, exon_e2])).map
        (fun r => r.db_id) = [1] ∧
      link_lines false (main_written (fun _ => 0) [gene_g1, exon_e1, exon_e2]) =
        [(1, 1, 1, "e1"), (1, 2, 2, "e2")] := by
  decide

/-- C15. The annotation of a transcript is lost: for the gene `g1` and the
transcript `t1` with `Name=foo`, the transcript is written with key 1 and no
line is written to the annotation table, neither during the loop nor at the
end of the stream. -/
theorem transcript_annotation_lost :
    (table_rows 3 (main_written (fun _ => 0) [gene_g1, mrna_named])).map
        (fun r => (r.db_id, r.id)) = [(1, "t1")] ∧
      map_find mrna_named.attributes "name" = some "foo" ∧
      annotation_rows (main_written (fun _ => 0) [gene_g1, mrna_named]) = [] := by
  decide

/-- C18. A repeat of a record that was not written: after the exon `ea`
(120-130, key 1) and the dropped orphan exon `e0` (150-200), the exon `e1`
(150-200) is taken for a repeat; it gets no row, and its linking line reuses
the key 1 of `ea`, a row with other coordinates. -/
theorem repeat_of_dropped_record :
    is_repeated
        (resolve_loop (fun _ => 0) initial_state
          [gene_g1, mrna_t1, exon_early, exon_orphan]).last_feature exon_of_t1 = true ∧
      (table_rows 2 (main_written (fun _ => 0)
        [gene_g1, mrna_t1, exon_early, exon_orphan, exon_of_t1])).map
          (fun r => (r.db_id, r.id, r.f_start, r.f_end)) = [(1, "ea", 120, 130)] ∧
      link_lines false (main_written (fun _ => 0)
        [gene_g1, mrna_t1, exon_early, exon_orphan, exon_of_t1]) =
        [(1, 1, 1, "ea"), (1, 1, 2, "e1")] := by
  decide

/-! ## Dropped records -/

theorem link_lines_append (c : Bool) (a b : List output) :
    link_lines c (a ++ b) = link_lines c a ++ link_lines c b := by
  induction a with
  | nil => rfl
  | cons x rest ih =>
    cases x with
    | table r2 row => simpa [link_lines] using ih
    | tr_exon _ _ _ _ =>
      simp only [List.cons_append, link_lines]
      split <;> simp [ih]
    | tr_cds _ _ _ _ =>
      simp only [List.cons_append, link_lines]
      split <;> simp [ih]
    | tr_annotation _ _ _ => simpa [link_lines] using ih

theorem link_lines_annotation_lines (c : Bool) (d : Nat) (ann : List (Int × List String)) :
    link_lines c (annotation_lines d ann) = [] := by
  induction ann with
  | nil => rfl
  | cons x rest ih =>
    obtain ⟨idx, vs⟩ := x
    simp only [annotation_lines, link_lines_append, ih, List.append_nil]
    induction vs with
    | nil => rfl
    | cons v vs ihv => simpa [link_lines] using ihv

theorem link_lines_print_annotation (c : Bool) (l : List gff_feature) (k : Int) :
    link_lines c ( print_annotation l k) = [] := by
  induction l with
  | nil => rfl
  | cons f rest ih =>
    simp only [ print_annotation, link_lines_append, ih, List.append_nil]
    split
    · exact link_lines_annotation_lines _ _ _
    · rfl

theorem mem_insert_parent (w : gff_parent_collection) (f : gff_feature) (i : Nat)
    (e : String × gff_feature) (he : e ∈ (w.insert_parent f).parents.getD i []) :
    e ∈ w.parents.getD i [] ∨
      e = (if f.feature = "region" then f.seqname else f.id, f) := by
  unfold gff_parent_collection.insert_parent at he
  simp only at he
  split at he
  · exact Or.inl he
  · rename_i hcond
    simp only at he
    by_cases hi : i = (f.feature_rank - w.v_offset).toNat
    · subst hi
      rw [modify_at_getD_self _ _ _ (by omega)] at he
      exact mem_map_insert _ _ _ _ he
    · rw [modify_at_getD_ne _ _ _ _ hi] at he
      exact Or.inl he

theorem get_parent_index_of_none (w : gff_parent_collection) (c : gff_feature)
    (h : w.get_parent c = none) : w.get_parent_index c = none := by
  cases hidx : w.get_parent_index c with
  | none => rfl
  | some i =>
    obtain ⟨_, _, ⟨p, hp⟩, _⟩ := get_parent_index_some w c i hidx
    unfold gff_parent_collection.get_parent at h
    simp only [hidx] at h
    rw [h] at hp
    exact Option.noConfusion hp

/-- Entries of the window in which `get_parent` is called: those left by the
pruning and possibly the made-up region. -/
theorem at_lookup_window (s : loop_state) (y : gff_feature) (i : Nat)
    (e : String × gff_feature) (he : e ∈ (at_lookup s y).1.current_parents.parents.getD i []) :
    e ∈ s.current_parents.parents.getD i [] ∨
      e = (y.seqname, gff_feature.for_region (s.db_ids 5 + 1) y.seqname "region" 5) := by
  unfold at_lookup resolve_region pruned at he
  simp only at he
  split at he
  · simp only at he
    rcases mem_insert_parent _ _ _ _ he with h | h
    · rw [prune_parents_bucket] at h
      exact Or.inl (List.mem_filter.mp h).1
    · right
      rw [h]
      simp [gff_feature.for_region, bump, f_rank_region]
  · simp only at he
    rw [prune_parents_bucket] at he
    exact Or.inl (List.mem_filter.mp he).1

/-- C12. A record of rank 3 or below for which `get_parent` returns the null
pointer is dropped: the iteration writes no row to any table of a rank and no
line to a linking table, leaves the key counter of the record's rank and the
record itself (its `db_id` included) as they were, and every entry of the
window after the iteration is an entry of the window before it or the region
made up for the sequence, so the record is not inserted. -/
theorem unresolved_record_dropped (uninit : Nat → Nat) (s : loop_state) (y : gff_feature)
    (hparsed : y.feature_rank = f_rank y.feature) (hr : y.feature_rank ≤ 3)
    (hnone : (at_lookup s y).1.current_parents.get_parent y = none) :
    (∀ r : Int, table_rows r (step uninit s y).written = table_rows r s.written) ∧
      (∀ c : Bool, link_lines c (step uninit s y).written = link_lines c s.written) ∧
      (step uninit s y).db_ids y.feature_rank = s.db_ids y.feature_rank ∧
      (step_full uninit s y).2 = y ∧
      (∀ (i : Nat) (e : String × gff_feature),
        e ∈ (step uninit s y).current_parents.parents.getD i [] →
          e ∈ s.current_parents.parents.getD i [] ∨
            e = (y.seqname, gff_feature.for_region (s.db_ids 5 + 1) y.seqname "region" 5)) ∧
      ∀ (i : Nat) (k : String),
        (k, y) ∈ (step uninit s y).current_parents.parents.getD i [] →
          (k, y) ∈ s.current_parents.parents.getD i [] := by
  have hne : y.feature ≠ "region" := by
    intro h
    rw [h, f_rank_region] at hparsed
    omega
  have hidx := get_parent_index_of_none _ _ hnone
  obtain ⟨hw, _, hd⟩ := at_lookup_facts s y
  have hfull : step_full uninit s y = ((at_lookup s y).1, y) := by
    unfold step_full
    simp only [hne, if_false, hidx, hr, if_true]
  have hstep : step uninit s y = (at_lookup s y).1 := by
    unfold step
    rw [hfull]
  rw [hstep, hfull]
  refine ⟨?_, ?_, ?_, rfl, ?_, ?_⟩
  · intro r
    rw [hw, table_rows_append, table_rows_print_annotation, List.append_nil]
  · intro c
    rw [hw, link_lines_append, link_lines_print_annotation, List.append_nil]
  · exact hd _ (by omega)
  · exact at_lookup_window s y
  · intro i k hk
    rcases at_lookup_window s y i _ hk with h | h
    · exact h
    · exfalso
      have h2 : y = gff_feature.for_region (s.db_ids 5 + 1) y.seqname "region" 5 :=
        (Prod.mk.inj h).2
      apply hne
      rw [h2]
      rfl

/-- Witness for C12: after the gene `g1` and the transcript `t1`, the orphan
exon `e0` finds no parent. -/
theorem unresolved_record_dropped_witness :
    (step (fun _ => 0) (resolve_loop (fun _ => 0) initial_state [gene_g1, mrna_t1])
          exon_orphan).db_ids exon_orphan.feature_rank =
        (resolve_loop (fun _ => 0) initial_state [gene_g1, mrna_t1]).db_ids
          exon_orphan.feature_rank ∧
      (step_full (fun _ => 0) (resolve_loop (fun _ => 0) initial_state [gene_g1, mrna_t1])
          exon_orphan).2 = exon_orphan :=
  ⟨(unresolved_record_dropped (fun _ => 0)
      (resolve_loop (fun _ => 0) initial_state [gene_g1, mrna_t1]) exon_orphan (by decide)
      (by decide) (by decide)).2.2.1,
    (unresolved_record_dropped (fun _ => 0)
      (resolve_loop (fun _ => 0) initial_state [gene_g1, mrna_t1]) exon_orphan (by decide)
      (by decide) (by decide)).2.2.2.1⟩

/-! ## Frame of `insert_parent` -/

theorem map_insert_shape {α : Type} (b : List (String × α)) (k : String) (v : α) :
    map_insert b k v = b ∨
      ∃ l1 l2 : List (String × α), b = l1 ++ l2 ∧ map_insert b k v = l1 ++ (k, v) :: l2 := by
  induction b with
  | nil => exact Or.inr ⟨[], [], rfl, rfl⟩
  | cons x rest ih =>
    obtain ⟨k1, v1⟩ := x
    simp only [map_insert]
    split
    · exact Or.inr ⟨[], (k1, v1) :: rest, rfl, rfl⟩
    · split
      · rcases ih with h | ⟨l1, l2, h1, h2⟩
        · exact Or.inl (by rw [h])
        · exact Or.inr ⟨(k1, v1) :: l1, l2, by rw [h1]; rfl, by rw [h2]; rfl⟩
      · exact Or.inl rfl

/-- C20. Frame of `insert_parent` on a window with offset 3 and 3 buckets: a
feature of rank below 3 or above 5 leaves the window unchanged; otherwise the
offset and the number of buckets stay, every bucket other than `rank - 3`
stays, and a bucket either stays or gains exactly one entry, the feature
under its key (`seqname` for a region, `id` otherwise).  Hence in every window
reachable from the empty one bucket `i` holds features of rank `i + 3` only. -/
theorem insert_parent_frame (w : gff_parent_collection) (f : gff_feature)
    (hv : w.v_offset = 3) (hl : w.parents.length = 3) :
    ((f.feature_rank < 3 ∨ f.feature_rank > 5) → w.insert_parent f = w) ∧
      (w.insert_parent f).v_offset = w.v_offset ∧
      (w.insert_parent f).parents.length = w.parents.length ∧
      (∀ j : Nat, (j : Int) ≠ f.feature_rank - 3 →
        (w.insert_parent f).parents.getD j [] = w.parents.getD j []) ∧
      (∀ j : Nat,
        (w.insert_parent f).parents.getD j [] = w.parents.getD j [] ∨
          ∃ l1 l2 : bucket, w.parents.getD j [] = l1 ++ l2 ∧
            (w.insert_parent f).parents.getD j [] =
              l1 ++ (if f.feature = "region" then f.seqname else f.id, f) :: l2) ∧
      ∀ w2 : gff_parent_collection, reachable w2 →
        ∀ (i : Nat) (e : String × gff_feature), e ∈ w2.parents.getD i [] →
          e.2.feature_rank = (i : Int) + 3 := by
  refine ⟨?_, ?_, ?_, ?_, ?_, fun w2 h2 => (reachable_invariant w2 h2).2.2⟩
  · intro h
    unfold gff_parent_collection.insert_parent
    have hc : f.feature_rank - w.v_offset < 0 ∨
        f.feature_rank - w.v_offset ≥ (w.parents.length : Int) := by
      rw [hv, hl]
      omega
    simp only [hc, if_true]
  · unfold gff_parent_collection.insert_parent
    simp only
    split <;> rfl
  · unfold gff_parent_collection.insert_parent
    simp only
    split
    · rfl
    · simp [modify_at_length]
  · intro j hj
    unfold gff_parent_collection.insert_parent
    simp only
    split
    · rfl
    · simp only
      rw [modify_at_getD_ne]
      rw [hv]
      omega
  · intro j
    unfold gff_parent_collection.insert_parent
    simp only
    split
    · exact Or.inl rfl
    · rename_i hcond
      simp only
      by_cases hj : j = (f.feature_rank - w.v_offset).toNat
      · subst hj
        rw [modify_at_getD_self _ _ _ (by omega)]
        exact map_insert_shape _ _ _
      · rw [modify_at_getD_ne _ _ _ _ hj]
        exact Or.inl rfl

/-- Witness for C20: an exon inserted into the empty window of `main` leaves
it unchanged. -/
theorem insert_parent_frame_witness :
    (gff_parent_collection.mk_empty 3).insert_parent exon_e1 =
      gff_parent_collection.mk_empty 3 :=
  (insert_parent_frame (gff_parent_collection.mk_empty 3) exon_e1 (by decide) (by decide)).1
    (by decide)

/-! ## Parsing of the attribute field -/

theorem map_find_assign {α : Type} (m : List (String × α)) (k key : String) (v : α) :
    map_find (map_assign m k v) key = if k = key then some v else map_find m key := by
  induction m with
  | nil => simp [map_assign, map_find]
  | cons x rest ih =>
    obtain ⟨k1, v1⟩ := x
    simp only [map_assign]
    split
    · simp [map_find]
    · rename_i h1
      split
      · rename_i h2
        simp only [map_find, ih]
        by_cases hk : k = key
        · have : k1 ≠ key := by
            intro h
            rw [h, hk] at h2
            exact lt_irrefl _ h2
          simp [hk, this]
        · simp [hk]
      · rename_i h2
        have hkk : k1 = k := by
          rcases lt_trichotomy k k1 with h | h | h
          · exact absurd h h1
          · exact h.symm
          · exact absurd h h2
        subst hkk
        simp only [map_find]
        split <;> rfl

theorem split_at_not_mem (c : Char) (l : List Char) (h : c ∉ l) : split_at c l = [l] := by
  induction l with
  | nil => rfl
  | cons x xs ih =>
    have hx : x ≠ c := fun e => h (e ▸ List.mem_cons_self _ _)
    have hxs : c ∉ xs := fun e => h (List.mem_cons_of_mem _ e)
    simp [split_at, hx, ih hxs]

theorem split_at_append (c : Char) (l rest : List Char) (h : c ∉ l) :
    split_at c (l ++ c :: rest) = l :: split_at c rest := by
  induction l with
  | nil => simp [split_at]
  | cons x xs ih =>
    have hx : x ≠ c := fun e => h (e ▸ List.mem_cons_self _ _)
    have hxs : c ∉ xs := fun e => h (List.mem_cons_of_mem _ e)
    simp [split_at, hx, ih hxs]

theorem split_at_attribute_chars (pairs : List (String × String)) (hne : pairs ≠ [])
    (h : ∀ p ∈ pairs, ';' ∉ p.1.toList ∧ ';' ∉ p.2.toList) :
    split_at ';' (attribute_chars pairs) =
      pairs.map (fun p => p.1.toList ++ '=' :: p.2.toList) := by
  induction pairs with
  | nil => exact absurd rfl hne
  | cons p rest ih =>
    have hp := h p (List.mem_cons_self _ _)
    have hpiece : ';' ∉ p.1.toList ++ '=' :: p.2.toList := by
      intro hm
      rcases List.mem_append.mp hm with h1 | h1
      · exact hp.1 h1
      · rcases List.mem_cons.mp h1 with h2 | h2
        · exact absurd h2 (by decide)
        · exact hp.2 h2
    cases rest with
    | nil =>
      simp only [attribute_chars, List.map_cons, List.map_nil]
      exact split_at_not_mem _ _ hpiece
    | cons q rest2 =>
      have ih2 := ih (by simp) (fun r hr => h r (List.mem_cons_of_mem _ hr))
      simp only [attribute_chars, List.map_cons] at ih2 ⊢
      have e : p.1.toList ++ '=' :: p.2.toList ++ ';' :: attribute_chars (q :: rest2) =
          (p.1.toList ++ '=' :: p.2.toList) ++ ';' :: attribute_chars (q :: rest2) := by
        simp
      rw [e, split_at_append _ _ _ hpiece, ih2]

theorem takeWhile_before_eq (k v : List Char) (h : '=' ∉ k) :
    (k ++ '=' :: v).takeWhile (fun ch => !(ch == '=')) = k ∧
      (k ++ '=' :: v).dropWhile (fun ch => !(ch == '=')) = '=' :: v := by
  induction k with
  | nil => simp
  | cons x xs ih =>
    have hx : x ≠ '=' := fun e => h (e ▸ List.mem_cons_self _ _)
    have hxs : '=' ∉ xs := fun e => h (List.mem_cons_of_mem _ e)
    obtain ⟨i1, i2⟩ := ih hxs
    have hb : (!(x == '=')) = true := by simp [hx]
    simp only [List.cons_append, List.takeWhile_cons, List.dropWhile_cons, hb, if_true, i1, i2,
      and_self]

theorem attribute_of_piece_pair (attr : List (String × String)) (k v : String)
    (h : '=' ∉ k.toList) :
    attribute_of_piece attr (k.toList ++ '=' :: v.toList) =
      map_assign attr (str_to_lower k) (str_to_lower v) := by
  obtain ⟨h1, h2⟩ := takeWhile_before_eq k.toList v.toList h
  unfold attribute_of_piece
  have hm : '=' ∈ k.toList ++ '=' :: v.toList := by simp
  simp only [hm, if_true, h1, h2, List.tail_cons]
  rfl

theorem foldl_assign_absent (kvs : List (String × String)) (m : List (String × String))
    (key : String) (h : key ∉ kvs.map (fun p => p.1)) :
    map_find (kvs.foldl (fun m p => map_assign m p.1 p.2) m) key = map_find m key := by
  induction kvs generalizing m with
  | nil => rfl
  | cons p rest ih =>
    simp only [List.map_cons, List.mem_cons, not_or] at h
    simp only [List.foldl_cons]
    rw [ih _ h.2, map_find_assign]
    have : p.1 ≠ key := fun e => h.1 e.symm
    simp [this]

theorem foldl_assign_present (kvs : List (String × String)) (m : List (String × String))
    (hd : (kvs.map (fun p => p.1)).Nodup) (p : String × String) (hp : p ∈ kvs) :
    map_find (kvs.foldl (fun m p => map_assign m p.1 p.2) m) p.1 = some p.2 := by
  induction kvs generalizing m with
  | nil => simp at hp
  | cons q rest ih =>
    simp only [List.map_cons, List.nodup_cons] at hd
    simp only [List.foldl_cons]
    rcases List.mem_cons.mp hp with h | h
    · subst h
      rw [foldl_assign_absent _ _ _ hd.1, map_find_assign]
      simp
    · exact ih _ hd.2 h


theorem foldl_pieces (pairs : List (String × String)) (m : List (String × String))
    (h : ∀ p ∈ pairs, '=' ∉ p.1.toList) :
    (pairs.map (fun p => p.1.toList ++ '=' :: p.2.toList)).foldl attribute_of_piece m =
      (pairs.map (fun p => (str_to_lower p.1, str_to_lower p.2))).foldl
        (fun m p => map_assign m p.1 p.2) m := by
  induction pairs generalizing m with
  | nil => rfl
  | cons p rest ih =>
    simp only [List.map_cons, List.foldl_cons]
    rw [attribute_of_piece_pair _ _ _ (h p (List.mem_cons_self _ _))]
    exact ih _ (fun q hq => h q (List.mem_cons_of_mem _ hq))

theorem split_attributes_of_pairs (pairs : List (String × String))
    (h : ∀ p ∈ pairs, ';' ∉ p.1.toList ∧ '=' ∉ p.1.toList ∧ ';' ∉ p.2.toList) :
    split_attributes (attribute_string pairs) =
      (pairs.map (fun p => (str_to_lower p.1, str_to_lower p.2))).foldl
        (fun m p => map_assign m p.1 p.2) [] := by
  cases hp : pairs with
  | nil => decide
  | cons p rest =>
    rw [← hp]
    have hne : pairs ≠ [] := by rw [hp]; simp
    unfold split_attributes attribute_string
    show List.foldl attribute_of_piece [] (split_at ';' (attribute_chars pairs)) = _
    rw [split_at_attribute_chars pairs hne (fun q hq => ⟨(h q hq).1, (h q hq).2.2⟩)]
    exact foldl_pieces pairs [] (fun q hq => (h q hq).2.1)

/-- C17, as stated, fails: the value of `ID=Gene1` is stored in lower case. -/
theorem split_attributes_lowers_value :
    map_find (split_attributes (attribute_string [("ID", "Gene1")])) (str_to_lower "ID") =
        some "gene1" ∧
      map_find (split_attributes (attribute_string [("ID", "Gene1")])) (str_to_lower "ID") ≠
        some "Gene1" := by
  decide

/-- C17, amended. For an attribute string `k1=v1;...;kn=vn` with pairwise
distinct lower-cased keys and no `;` or `=` in any key or value,
`split_attributes` returns the map that sends `str_to_lower(ki)` to
`str_to_lower(vi)` and has no other key. -/
theorem split_attributes_folds_keys_and_values (pairs : List (String × String))
    (h : ∀ p ∈ pairs, ';' ∉ p.1.toList ∧ '=' ∉ p.1.toList ∧ ';' ∉ p.2.toList ∧
      '=' ∉ p.2.toList)
    (hd : (pairs.map (fun p => str_to_lower p.1)).Nodup) :
    (∀ p ∈ pairs,
        map_find (split_attributes (attribute_string pairs)) (str_to_lower p.1) =
          some (str_to_lower p.2)) ∧
      ∀ key : String, key ∉ pairs.map (fun p => str_to_lower p.1) →
        map_find (split_attributes (attribute_string pairs)) key = none := by
  rw [split_attributes_of_pairs pairs (fun q hq => ⟨(h q hq).1, (h q hq).2.1, (h q hq).2.2.1⟩)]
  constructor
  · intro p hp
    have hmem : (str_to_lower p.1, str_to_lower p.2) ∈
        pairs.map (fun p => (str_to_lower p.1, str_to_lower p.2)) :=
      List.mem_map.mpr ⟨p, hp, rfl⟩
    have hd2 : ((pairs.map (fun p => (str_to_lower p.1, str_to_lower p.2))).map
        (fun p => p.1)).Nodup := by
      simpa [List.map_map, Function.comp_def] using hd
    exact foldl_assign_present _ [] hd2 _ hmem
  · intro key hkey
    have hk2 : key ∉ (pairs.map (fun p => (str_to_lower p.1, str_to_lower p.2))).map
        (fun p => p.1) := by
      simpa [List.map_map, Function.comp_def] using hkey
    rw [foldl_assign_absent _ [] key hk2]
    rfl

/-- Witness for C17, amended: the attribute string `ID=Gene1;Parent=T1`. -/
theorem split_attributes_folds_keys_and_values_witness :
    map_find (split_attributes (attribute_string [("ID", "Gene1"), ("Parent", "T1")]))
        (str_to_lower "Parent") = some (str_to_lower "T1") :=
  (split_attributes_folds_keys_and_values [("ID", "Gene1"), ("Parent", "T1")] (by decide)
    (by decide)).1 ("Parent", "T1") (by decide)

/-! ## The line constructor -/

theorem takeWhile_before_tab (k v : List Char) (h : '\t' ∉ k) :
    (k ++ '\t' :: v).takeWhile (fun ch => !(ch == '\t')) = k ∧
      (k ++ '\t' :: v).dropWhile (fun ch => !(ch == '\t')) = '\t' :: v := by
  induction k with
  | nil => simp
  | cons x xs ih =>
    have hx : x ≠ '\t' := fun e => h (e ▸ List.mem_cons_self _ _)
    have hxs : '\t' ∉ xs := fun e => h (List.mem_cons_of_mem _ e)
    obtain ⟨i1, i2⟩ := ih hxs
    have hb : (!(x == '\t')) = true := by simp [hx]
    simp only [List.cons_append, List.takeWhile_cons, List.dropWhile_cons, hb, if_true, i1, i2,
      and_self]

theorem split_fields_tab (n : Nat) (k rest : List Char) (h : '\t' ∉ k) :
    split_fields (n + 1) (k ++ '\t' :: rest) = k :: split_fields n rest := by
  have hm : '\t' ∈ k ++ '\t' :: rest := by simp
  obtain ⟨h1, h2⟩ := takeWhile_before_tab k rest h
  simp only [split_fields, hm, if_true, h1, h2, List.tail_cons]

theorem split_fields_last (n : Nat) (k : List Char) (h : '\t' ∉ k) (hk : k ≠ []) :
    split_fields (n + 1) k = [k] := by
  simp only [split_fields, h, if_false, hk, ne_eq, not_false_eq_true, if_true]

/-- The constructor splits a line of nine fields without tabs, the last one not
empty, into these fields. -/
theorem split_fields_nine (a b c d e f g h i : String)
    (htab : ∀ x ∈ [a, b, c, d, e, f, g, h, i], '\t' ∉ x.toList) (hi : i ≠ "") :
    (split_fields 9 (line_of_fields [a, b, c, d, e, f, g, h, i]).toList).map String.mk =
      [a, b, c, d, e, f, g, h, i] := by
  have hne : i.toList ≠ [] := by
    intro hnil
    apply hi
    have : i = String.mk i.toList := rfl
    rw [this, hnil]
  simp only [List.mem_cons, List.mem_singleton, forall_eq_or_imp, forall_eq, List.not_mem_nil,
    false_implies, implies_true, and_true] at htab
  obtain ⟨ta, tb, tc, td, te, tf, tg, th, ti⟩ := htab
  show (split_fields 9 (field_chars [a, b, c, d, e, f, g, h, i])).map String.mk = _
  simp only [field_chars]
  rw [split_fields_tab _ _ _ ta, split_fields_tab _ _ _ tb, split_fields_tab _ _ _ tc,
    split_fields_tab _ _ _ td, split_fields_tab _ _ _ te, split_fields_tab _ _ _ tf,
    split_fields_tab _ _ _ tg, split_fields_tab _ _ _ th, split_fields_last _ _ ti hne]
  rfl


/-- The record the constructor yields for a line of nine fields that passes
its guards, when it yields one. -/
theorem of_line_nine (uninit_rank : Int) (stoul : String → Option Nat)
    (stod : String → Option Int)
    (seqname source feature f_start f_end score strand frame attribute_ : String)
    (f : gff_feature)
    (htab : ∀ x ∈ [seqname, source, feature, f_start, f_end, score, strand, frame, attribute_],
      '\t' ∉ x.toList)
    (hattr : attribute_ ≠ "")
    (hsize : 18 ≤ (line_of_fields
      [seqname, source, feature, f_start, f_end, score, strand, frame, attribute_]).utf8ByteSize)
    (hhash : (line_of_fields
      [seqname, source, feature, f_start, f_end, score, strand, frame,
        attribute_]).toList.head? ≠ some '#')
    (hret : gff_feature.of_line uninit_rank stoul stod (line_of_fields
      [seqname, source, feature, f_start, f_end, score, strand, frame, attribute_]) = some f) :
    ∃ (a b : Nat) (fr : Int),
      f = gff_feature.of_fields seqname source (str_to_lower feature) a b
        (strand.toList.headD (Char.ofNat 0)) fr attribute_ (split_attributes attribute_) := by
  have hsplit := split_fields_nine seqname source feature f_start f_end score strand frame
    attribute_ htab hattr
  unfold gff_feature.of_line at hret
  have hguard : ¬ ((line_of_fields
      [seqname, source, feature, f_start, f_end, score, strand, frame, attribute_]).utf8ByteSize
        < 9 * 2 ∨
      (line_of_fields
        [seqname, source, feature, f_start, f_end, score, strand, frame,
          attribute_]).toList.head? = some '#') := by
    intro h
    rcases h with h | h
    · omega
    · exact hhash h
  simp only [hguard, if_false, hsplit, List.length_cons, List.length_nil, ne_eq,
    not_true_eq_false, List.getD_cons_succ, List.getD_cons_zero] at hret
  cases h3 : stoul f_start with
  | none => simp [h3] at hret
  | some a =>
    cases h4 : stoul f_end with
    | none => simp [h3, h4] at hret
    | some b =>
      simp only [h3, h4] at hret
      split at hret
      · exact Option.noConfusion hret
      · split at hret
        · rename_i fr _
          refine ⟨a, b, fr, ?_⟩
          exact (Option.some.inj hret).symm
        · exact Option.noConfusion hret


/-- The sample records `gene_g1`, `exon_e1`, `mrna_t2` and `exon_e2` are the
records the line constructor yields for their lines. -/
theorem sample_records_of_lines :
    gff_feature.of_line 0 stoul_of_digits (fun _ => none)
        "chr1\t.\tgene\t100\t500\t.\t+\t.\tID=g1" = some gene_g1 ∧
      gff_feature.of_line 0 stoul_of_digits (fun _ => none)
        "chr1\t.\texon\t150\t200\t.\t+\t.\tID=e1;Parent=g1" = some exon_e1 ∧
      gff_feature.of_line 0 stoul_of_digits (fun _ => none)
        "chr1\t.\tmRNA\t250\t400\t.\t+\t.\tID=t2;Parent=g1" = some mrna_t2 ∧
      gff_feature.of_line 0 stoul_of_digits (fun _ => none)
        "chr1\t.\texon\t300\t350\t.\t+\t.\tID=e2;Parent=g1" = some exon_e2 := by
  decide

/-- The record built from line 61 on, by the presence of the key `id`. -/
theorem of_fields_by_id (seqname source feature : String) (f_start f_end : Nat)
    (strand : Char) (frame : Int) (attribute_ : String) :
    (map_find (split_attributes attribute_) "id" = none →
        (gff_feature.of_fields seqname source feature f_start f_end strand frame attribute_
            (split_attributes attribute_)).valid = false ∧
          (gff_feature.of_fields seqname source feature f_start f_end strand frame attribute_
            (split_attributes attribute_)).feature_rank = 0 ∧
          (gff_feature.of_fields seqname source feature f_start f_end strand frame attribute_
            (split_attributes attribute_)).id = "undefined") ∧
      ((map_find (split_attributes attribute_) "id").isSome = true →
        (gff_feature.of_fields seqname source "region" f_start f_end strand frame attribute_
            (split_attributes attribute_)).valid = true ∧
          (gff_feature.of_fields seqname source "region" f_start f_end strand frame attribute_
            (split_attributes attribute_)).feature_rank = 5 ∧
          (gff_feature.of_fields seqname source "region" f_start f_end strand frame attribute_
            (split_attributes attribute_)).id = seqname) := by
  constructor
  · intro h
    unfold gff_feature.of_fields
    simp [h]
  · intro h
    obtain ⟨v, hv⟩ := Option.isSome_iff_exists.mp h
    unfold gff_feature.of_fields
    simp only [hv]
    have hr : map_find f_ranks "region" = some 5 := by decide
    simp [hr]

/-- C16, as stated, fails: the region line
`chr1 . region 1 1000 . + . Name=chr1`, whose attribute field has no `id` key,
yields an invalid record with the identifier `undefined`. -/
theorem region_without_id_invalid :
    (gff_feature.of_line 0 stoul_of_digits (fun _ => none)
        "chr1\t.\tregion\t1\t1000\t.\t+\t.\tName=chr1").map
        (fun f => (f.valid, f.id, f.feature, f.seqname)) =
      some (false, "undefined", "region", "chr1") := by
  decide

/-- C16, amended. Take a line of nine fields without tabs, separated by tabs,
the ninth not empty, that passes the guards of the line constructor (at least
18 bytes, first character not `#`), and let the constructor yield the record
`f`, which it does unless a conversion throws.  When the attribute field has no
`id` key, `f` has `valid = false`, rank 0 and the identifier `undefined`,
whatever the feature type, `region` included.  When it has an `id` key and the
feature type in lower case is `region`, `f` is valid, of rank 5, and its
identifier is the sequence name. -/
theorem id_attribute_decides_validity (uninit_rank : Int) (stoul : String → Option Nat)
    (stod : String → Option Int)
    (seqname source feature f_start f_end score strand frame attribute_ : String)
    (f : gff_feature)
    (htab : ∀ x ∈ [seqname, source, feature, f_start, f_end, score, strand, frame, attribute_],
      '\t' ∉ x.toList)
    (hattr : attribute_ ≠ "")
    (hsize : 18 ≤ (line_of_fields
      [seqname, source, feature, f_start, f_end, score, strand, frame, attribute_]).utf8ByteSize)
    (hhash : (line_of_fields
      [seqname, source, feature, f_start, f_end, score, strand, frame,
        attribute_]).toList.head? ≠ some '#')
    (hret : gff_feature.of_line uninit_rank stoul stod (line_of_fields
      [seqname, source, feature, f_start, f_end, score, strand, frame, attribute_]) = some f) :
    (map_find (split_attributes attribute_) "id" = none →
        f.valid = false ∧ f.feature_rank = 0 ∧ f.id = "undefined") ∧
      ((map_find (split_attributes attribute_) "id").isSome = true →
        str_to_lower feature = "region" →
        f.valid = true ∧ f.feature_rank = 5 ∧ f.id = seqname) := by
  obtain ⟨a, b, fr, hf⟩ := of_line_nine uninit_rank stoul stod seqname source feature f_start
    f_end score strand frame attribute_ f htab hattr hsize hhash hret
  rw [hf]
  constructor
  · intro h
    exact (of_fields_by_id seqname source (str_to_lower feature) a b _ fr attribute_).1 h
  · intro h hreg
    rw [hreg]
    exact (of_fields_by_id seqname source "region" a b _ fr attribute_).2 h

/-- Witness for C16, amended: the region line with the attribute field
`Name=chr1`, and the one with `ID=r1`. -/
theorem id_attribute_decides_validity_witness :
    (gff_feature.of_fields "chr1" "." "region" 1 1000 '+' (-1) "Name=chr1"
        (split_attributes "Name=chr1")).valid = false ∧
      (gff_feature.of_fields "chr1" "." "region" 1 1000 '+' (-1) "ID=r1"
        (split_attributes "ID=r1")).id = "chr1" :=
  ⟨((id_attribute_decides_validity 0 stoul_of_digits (fun _ => none) "chr1" "." "region" "1"
      "1000" "." "+" "." "Name=chr1"
      (gff_feature.of_fields "chr1" "." "region" 1 1000 '+' (-1) "Name=chr1"
        (split_attributes "Name=chr1"))
      (by decide) (by decide) (by decide) (by decide) (by decide)).1 (by decide)).1,
    ((id_attribute_decides_validity 0 stoul_of_digits (fun _ => none) "chr1" "." "Region" "1"
      "1000" "." "+" "." "ID=r1"
      (gff_feature.of_fields "chr1" "." "region" 1 1000 '+' (-1) "ID=r1"
        (split_attributes "ID=r1"))
      (by decide) (by decide) (by decide) (by decide) (by decide)).2 (by decide)
      (by decide)).2.2⟩

/-! ## Counters of the parent -/

theorem map_find_modify {α : Type} (g : α → α) (b : List (String × α)) (k key : String) :
    map_find (map_modify g b k) key =
      if key = k then (map_find b k).map g else map_find b key := by
  induction b with
  | nil => simp [map_modify, map_find]
  | cons x rest ih =>
    obtain ⟨k1, v1⟩ := x
    simp only [map_modify]
    by_cases h1 : k1 = k
    · subst h1
      simp only [if_true, map_find]
      by_cases h2 : k1 = key
      · subst h2
        simp
      · have h3 : ¬ key = k1 := fun e => h2 e.symm
        simp [h2, h3]
    · simp only [h1, if_false, map_find, ih]
      by_cases h2 : k1 = key
      · subst h2
        simp [h1]
      · simp [h2]

theorem map_find_insert_ne {α : Type} (b : List (String × α)) (k key : String) (v : α)
    (h : key ≠ k) : map_find (map_insert b k v) key = map_find b key := by
  induction b with
  | nil =>
    have : ¬ k = key := fun e => h e.symm
    simp [map_insert, map_find, this]
  | cons x rest ih =>
    obtain ⟨k1, v1⟩ := x
    simp only [map_insert]
    split
    · have : ¬ k = key := fun e => h e.symm
      simp [map_find, this]
    · split
      · simp only [map_find, ih]
      · rfl

theorem map_insert_sorted {α : Type} (b : List (String × α)) (k : String) (v : α)
    (hs : b.Pairwise (fun x y => x.1 < y.1)) :
    (map_insert b k v).Pairwise (fun x y => x.1 < y.1) := by
  induction b with
  | nil => simp [map_insert]
  | cons x rest ih =>
    obtain ⟨k1, v1⟩ := x
    rw [List.pairwise_cons] at hs
    simp only [map_insert]
    split
    · rename_i h1
      rw [List.pairwise_cons]
      refine ⟨?_, List.pairwise_cons.mpr hs⟩
      intro e he
      rcases List.mem_cons.mp he with h | h
      · rw [h]
        exact h1
      · exact lt_trans h1 (hs.1 e h)
    · split
      · rename_i h2
        rw [List.pairwise_cons]
        refine ⟨?_, ih hs.2⟩
        intro e he
        rcases mem_map_insert _ _ _ _ he with h | h
        · exact hs.1 e h
        · rw [h]
          exact h2
      · exact List.pairwise_cons.mpr hs

theorem map_modify_keys {α : Type} (g : α → α) (b : List (String × α)) (k : String) :
    (map_modify g b k).map (fun x => x.1) = b.map (fun x => x.1) := by
  induction b with
  | nil => rfl
  | cons x rest ih =>
    obtain ⟨k1, v1⟩ := x
    simp only [map_modify]
    split
    · rfl
    · simp [ih]

theorem map_modify_sorted {α : Type} (g : α → α) (b : List (String × α)) (k : String)
    (hs : b.Pairwise (fun x y => x.1 < y.1)) :
    (map_modify g b k).Pairwise (fun x y => x.1 < y.1) := by
  have h1 : (b.map (fun x => x.1)).Pairwise (fun x y => x < y) := List.pairwise_map.mpr hs
  rw [← map_modify_keys g b k] at h1
  exact List.pairwise_map.mp h1

theorem mem_getD_of_ne_nil {α : Type} (l : List (List α)) (i : Nat) (x : α)
    (h : x ∈ l.getD i []) : l.getD i [] ∈ l := by
  rw [List.getD_eq_getElem?_getD] at h ⊢
  cases hi : l[i]? with
  | none => simp [hi] at h
  | some b =>
    simp only [Option.getD_some]
    exact List.getElem?_mem hi

theorem window_sorted_getD (w : gff_parent_collection) (hs : window_sorted w) (i : Nat) :
    (w.parents.getD i []).Pairwise (fun x y => x.1 < y.1) := by
  rw [List.getD_eq_getElem?_getD]
  cases hi : w.parents[i]? with
  | none => simp
  | some b =>
    simp only [Option.getD_some]
    exact hs b (List.getElem?_mem hi)

theorem window_sorted_of_getD (w : gff_parent_collection)
    (h : ∀ i : Nat, (w.parents.getD i []).Pairwise (fun x y => x.1 < y.1)) :
    window_sorted w := by
  intro b hb
  obtain ⟨i, hi, rfl⟩ := List.getElem_of_mem hb
  have := h i
  rw [List.getD_eq_getElem _ _ hi] at this
  exact this


theorem insert_parent_sorted (w : gff_parent_collection) (f : gff_feature)
    (hs : window_sorted w) : window_sorted (w.insert_parent f) := by
  apply window_sorted_of_getD
  intro j
  unfold gff_parent_collection.insert_parent
  simp only
  split
  · exact window_sorted_getD w hs j
  · rename_i hcond
    simp only
    by_cases hj : j = (f.feature_rank - w.v_offset).toNat
    · subst hj
      rw [modify_at_getD_self _ _ _ (by omega)]
      exact map_insert_sorted _ _ _ (window_sorted_getD w hs _)
    · rw [modify_at_getD_ne _ _ _ _ hj]
      exact window_sorted_getD w hs j

theorem prune_parents_sorted (w : gff_parent_collection) (f : gff_feature)
    (hs : window_sorted w) : window_sorted (w.prune_parents f).1 := by
  apply window_sorted_of_getD
  intro j
  rw [prune_parents_bucket]
  exact List.Pairwise.filter _ (window_sorted_getD w hs j)

theorem write_through_sorted (w : gff_parent_collection) (i : Nat) (k : String)
    (g : gff_feature → gff_feature) (hs : window_sorted w) :
    window_sorted (w.write_through i k g) := by
  apply window_sorted_of_getD
  intro j
  unfold gff_parent_collection.write_through
  simp only
  by_cases hj : j = i
  · subst hj
    rw [modify_at_getD_same _ rfl]
    exact map_modify_sorted _ _ _ (window_sorted_getD w hs _)
  · rw [modify_at_getD_ne _ _ _ _ hj]
    exact window_sorted_getD w hs j

theorem deref_insert_parent_some (w : gff_parent_collection) (f : gff_feature)
    (hs : window_sorted w) (j : Nat) (key : String) (e : gff_feature)
    (h : w.deref j key = some e) : (w.insert_parent f).deref j key = some e := by
  unfold gff_parent_collection.insert_parent
  simp only
  split
  · exact h
  · rename_i hcond
    unfold gff_parent_collection.deref at h ⊢
    simp only
    by_cases hj : j = (f.feature_rank - w.v_offset).toNat
    · subst hj
      rw [modify_at_getD_self _ _ _ (by omega)]
      by_cases hk : key = (if f.feature = "region" then f.seqname else f.id)
      · rw [← hk, map_insert_present _ _ _ e (window_sorted_getD w hs _) h]
        exact h
      · rw [map_find_insert_ne _ _ _ _ hk]
        exact h
    · rw [modify_at_getD_ne _ _ _ _ hj]
      exact h

theorem deref_write_through (w : gff_parent_collection) (i j : Nat) (k key : String)
    (g : gff_feature → gff_feature) :
    (w.write_through i k g).deref j key =
      if j = i ∧ key = k then (w.deref i k).map g else w.deref j key := by
  unfold gff_parent_collection.write_through gff_parent_collection.deref
  simp only
  by_cases hj : j = i
  · subst hj
    rw [modify_at_getD_same _ rfl, map_find_modify]
    by_cases hk : key = k <;> simp [hk]
  · rw [modify_at_getD_ne _ _ _ _ hj]
    simp [hj]

theorem at_lookup_sorted (s : loop_state) (y : gff_feature)
    (hs : window_sorted s.current_parents) :
    window_sorted (at_lookup s y).1.current_parents := by
  unfold at_lookup resolve_region pruned
  simp only
  split
  · exact insert_parent_sorted _ _ (prune_parents_sorted _ _ hs)
  · exact prune_parents_sorted _ _ hs

theorem add_annotation_counters (self feat : gff_feature) (fields : List (Int × String)) :
    (gff_feature.add_annotation self feat fields).child_count = self.child_count ∧
      (gff_feature.add_annotation self feat fields).exon_count = self.exon_count ∧
      (gff_feature.add_annotation self feat fields).cds_count = self.cds_count ∧
      (gff_feature.add_annotation self feat fields).db_id = self.db_id := by
  induction fields generalizing self with
  | nil => exact ⟨rfl, rfl, rfl, rfl⟩
  | cons x rest ih =>
    obtain ⟨idx, name⟩ := x
    simp only [gff_feature.add_annotation]
    split
    · exact ih _
    · exact ih _


theorem count_child_congr (a b p : gff_feature) (h1 : a.strand = b.strand)
    (h2 : a.feature = b.feature) : count_child a p = count_child b p := by
  unfold count_child
  rw [h1, h2]

theorem synthesize_rna_window (uninit : Nat → Nat) (s : loop_state) (feat parent : gff_feature)
    (region_id : Nat) (hs : window_sorted s.current_parents) :
    window_sorted (synthesize_rna uninit s feat parent region_id).1.current_parents ∧
      (∀ (j : Nat) (key : String) (e : gff_feature), s.current_parents.deref j key = some e →
        (synthesize_rna uninit s feat parent region_id).1.current_parents.deref j key =
          some e) ∧
      (synthesize_rna uninit s feat parent region_id).2.strand = feat.strand ∧
      (synthesize_rna uninit s feat parent region_id).2.feature = feat.feature ∧
      (synthesize_rna uninit s feat parent region_id).2.feature_rank = feat.feature_rank ∧
      (synthesize_rna uninit s feat parent region_id).2.parent = feat.parent ∧
      (synthesize_rna uninit s feat parent region_id).2.id = feat.id := by
  unfold synthesize_rna
  split
  · exact ⟨insert_parent_sorted _ _ hs, fun j key e h => deref_insert_parent_some _ _ hs j key e h,
      rfl, rfl, rfl, rfl, rfl⟩
  · exact ⟨hs, fun _ _ _ h => h, rfl, rfl, rfl, rfl, rfl⟩

theorem assign_key_window (s : loop_state) (feat : gff_feature) (repeated : Bool)
    (region_id : Nat) (hs : window_sorted s.current_parents) :
    window_sorted (assign_key s feat repeated region_id).1.current_parents ∧
      (∀ (j : Nat) (key : String) (e : gff_feature), s.current_parents.deref j key = some e →
        (assign_key s feat repeated region_id).1.current_parents.deref j key = some e) ∧
      (assign_key s feat repeated region_id).2.strand = feat.strand ∧
      (assign_key s feat repeated region_id).2.feature = feat.feature ∧
      (assign_key s feat repeated region_id).2.feature_rank = feat.feature_rank ∧
      (assign_key s feat repeated region_id).2.parent = feat.parent ∧
      (assign_key s feat repeated region_id).2.id = feat.id := by
  unfold assign_key
  split
  · simp only
    split
    · exact ⟨insert_parent_sorted _ _ hs,
        fun j key e h => deref_insert_parent_some _ _ hs j key e h, trivial, trivial, trivial,
        trivial, trivial⟩
    · exact ⟨hs, fun _ _ _ h => h, trivial, trivial, trivial, trivial, trivial⟩
  · exact ⟨hs, fun _ _ _ h => h, rfl, rfl, rfl, rfl, rfl⟩

/-- The parent entry and the linking line after the iteration for a record that
is no region and whose parent is found, the buckets of the window being
sorted: the entry `parent` found under `y.parent` in bucket `i` has become
`count_child y parent` up to its annotation, every other entry of the window
is as it was at the lookup, and a record below transcript rank ends the output
with its linking line, which carries the key of `parent`, the key of the
record, and the exon or cds counter of the updated parent. -/
theorem step_parent_entry (uninit : Nat → Nat) (s : loop_state) (y parent : gff_feature)
    (i : Nat) (hs : window_sorted s.current_parents) (hne : y.feature ≠ "region")
    (hidx : (at_lookup s y).1.current_parents.get_parent_index y = some i)
    (hpar : (at_lookup s y).1.current_parents.deref i y.parent = some parent) :
    ∃ p2 : gff_feature,
      (step uninit s y).current_parents.deref i y.parent = some p2 ∧
        p2.child_count = (count_child y parent).child_count ∧
        p2.exon_count = (count_child y parent).exon_count ∧
        p2.cds_count = (count_child y parent).cds_count ∧
        p2.db_id = parent.db_id ∧
        (∀ (j : Nat) (key : String) (e : gff_feature), ¬ (j = i ∧ key = y.parent) →
          (at_lookup s y).1.current_parents.deref j key = some e →
          (step uninit s y).current_parents.deref j key = some e) ∧
        (y.feature_rank < 3 →
          ∃ front : List output,
            (step uninit s y).written =
              front ++
                [if y.feature = "cds" then
                  output.tr_cds parent.db_id (step_full uninit s y).2.db_id
                    (count_child y parent).cds_count y.id
                 else
                  output.tr_exon parent.db_id (step_full uninit s y).2.db_id
                    (count_child y parent).exon_count y.id]) := by
  have hW := at_lookup_sorted s y hs
  have fsy := synthesize_rna_window uninit (at_lookup s y).1 { y with parent_id := parent.db_id }
    parent (at_lookup s y).2 hW
  obtain ⟨sy, hsy⟩ : ∃ sy, synthesize_rna uninit (at_lookup s y).1
      { y with parent_id := parent.db_id } parent (at_lookup s y).2 = sy := ⟨_, rfl⟩
  rw [hsy] at fsy
  obtain ⟨s1, p1, y1, y2, y3, y4, y5⟩ := fsy
  simp only at y1 y2 y3 y4 y5
  have hcc : count_child sy.2 = count_child y := by
    funext p
    exact count_child_congr _ _ _ y1 y2
  have hW2 := write_through_sorted sy.1.current_parents i y.parent (count_child sy.2) s1
  have fak := assign_key_window
    { sy.1 with
        current_parents := sy.1.current_parents.write_through i y.parent (count_child sy.2) }
    sy.2 (is_repeated s.last_feature y) (at_lookup s y).2 hW2
  obtain ⟨ak, hak⟩ : ∃ ak, assign_key
      { sy.1 with
          current_parents := sy.1.current_parents.write_through i y.parent (count_child sy.2) }
      sy.2 (is_repeated s.last_feature y) (at_lookup s y).2 = ak := ⟨_, rfl⟩
  rw [hak] at fak
  obtain ⟨s3, p3, a1, a2, a3, a4, a5⟩ := fak
  simp only at p3
  have hstep : step uninit s y = link_rows ak.1 i ak.2 := by
    unfold step step_full
    simp only [hne, if_false, hidx, hpar, hsy, hak]
  have hd2 : (sy.1.current_parents.write_through i y.parent (count_child sy.2)).deref i
      y.parent = some (count_child y parent) := by
    rw [deref_write_through, p1 i y.parent parent hpar, hcc]
    simp
  have hd3 : ak.1.current_parents.deref i y.parent = some (count_child y parent) :=
    p3 i y.parent _ hd2
  have hothers : ∀ (j : Nat) (key : String) (e : gff_feature), ¬ (j = i ∧ key = y.parent) →
      (at_lookup s y).1.current_parents.deref j key = some e →
      ak.1.current_parents.deref j key = some e := by
    intro j key e hjk he
    apply p3
    rw [deref_write_through]
    simp only [hjk, if_false]
    exact p1 j key e he
  have hdb : (count_child y parent).db_id = parent.db_id := by
    unfold count_child
    simp only
    split <;> split <;> rfl
  by_cases hr : y.feature_rank < 3
  · have har : ak.2.feature_rank < 3 := by rw [a3, y3]; exact hr
    have har3 : ak.2.feature_rank ≠ 3 := by omega
    have hap : ak.2.parent = y.parent := by rw [a4, y4]
    have hfull : (step_full uninit s y).2 = ak.2 := by
      unfold step_full
      simp only [hne, if_false, hidx, hpar, hsy, hak, har3]
    have hlink : link_rows ak.1 i ak.2 =
        { ak.1 with
            written := ak.1.written ++
              [if ak.2.feature = "cds" then
                output.tr_cds (count_child y parent).db_id ak.2.db_id
                  (count_child y parent).cds_count ak.2.id
               else
                output.tr_exon (count_child y parent).db_id ak.2.db_id
                  (count_child y parent).exon_count ak.2.id],
            current_parents := ak.1.current_parents.write_through i ak.2.parent
              (fun p => gff_feature.add_annotation p ak.2 annotation_fields) } := by
      unfold link_rows
      simp only [har, if_true, hap, hd3]
      split <;> rfl
    obtain ⟨c1, c2, c3, c4⟩ :=
      add_annotation_counters (count_child y parent) ak.2 annotation_fields
    refine ⟨gff_feature.add_annotation (count_child y parent) ak.2 annotation_fields, ?_, c1,
      c2, c3, by rw [c4, hdb], ?_, ?_⟩
    · rw [hstep, hlink]
      simp only
      rw [deref_write_through, hap, hd3]
      simp
    · intro j key e hjk he
      rw [hstep, hlink]
      simp only
      rw [deref_write_through, hap]
      simp only [hjk, if_false]
      exact hothers j key e hjk he
    · intro _
      refine ⟨ak.1.written, ?_⟩
      rw [hstep, hlink, hfull]
      simp only [a2, y2, a5, y5, hdb]
  · have har : ¬ ak.2.feature_rank < 3 := by rw [a3, y3]; exact hr
    have hlink : link_rows ak.1 i ak.2 = ak.1 := by
      unfold link_rows
      simp only [har, if_false]
    refine ⟨count_child y parent, ?_, rfl, rfl, rfl, hdb, ?_, ?_⟩
    · rw [hstep, hlink]
      exact hd3
    · intro j key e hjk he
      rw [hstep, hlink]
      exact hothers j key e hjk he
    · intro h
      exact absurd h hr


theorem count_child_counts (y parent : gff_feature) :
    (count_child y parent).child_count =
        parent.child_count + (if y.strand = '+' then 1 else -1) ∧
      (count_child y parent).exon_count =
        parent.exon_count + (if y.feature = "exon" then (if y.strand = '+' then 1 else -1)
          else 0) ∧
      (count_child y parent).cds_count =
        parent.cds_count + (if y.feature = "cds" then (if y.strand = '+' then 1 else -1)
          else 0) := by
  unfold count_child
  simp only
  refine ⟨?_, ?_, ?_⟩
  · split <;> split <;> rfl
  · split <;> split <;> simp
  · split <;> split <;> simp

theorem mk_empty_sorted (n : Int) : window_sorted (gff_parent_collection.mk_empty n) := by
  intro b hb
  simp only [gff_parent_collection.mk_empty] at hb
  rw [List.eq_of_mem_replicate hb]
  exact List.Pairwise.nil

theorem link_rows_sorted (s : loop_state) (i : Nat) (feat : gff_feature)
    (hs : window_sorted s.current_parents) :
    window_sorted (link_rows s i feat).current_parents := by
  unfold link_rows
  split
  · split
    · exact hs
    · exact write_through_sorted _ _ _ _ hs
  · exact hs

theorem step_sorted (uninit : Nat → Nat) (s : loop_state) (y : gff_feature)
    (hs : window_sorted s.current_parents) :
    window_sorted (step uninit s y).current_parents := by
  have hW := at_lookup_sorted s y hs
  unfold step step_full
  simp only
  split
  · unfold region_record pruned
    exact insert_parent_sorted _ _ (prune_parents_sorted _ _ hs)
  · split
    · split
      · exact hW
      · exact (assign_key_window _ _ _ _ hW).1
    · split
      · exact hW
      · apply link_rows_sorted
        apply (assign_key_window _ _ _ _ _).1
        apply write_through_sorted
        exact (synthesize_rna_window _ _ _ _ _ hW).1

theorem resolve_loop_sorted (uninit : Nat → Nat) (features : List gff_feature)
    (s : loop_state) (hs : window_sorted s.current_parents) :
    window_sorted (resolve_loop uninit s features).current_parents := by
  induction features generalizing s with
  | nil => exact hs
  | cons y rest ih => exact ih _ (step_sorted uninit s y hs)

/-- C19. Counters of the parent and the ordinal of the linking line.  In the
main loop, after any records `features`, let the next record `y` be no region
and let `get_parent` find the entry `parent` for it (in bucket `i`, under the
key `y.parent`).  After the iteration that entry is still in its place and its
`child_count` is one more when the strand of `y` is `+` and one less when it
is `-`; its `exon_count` has changed by that same amount when `y` is an exon
and is unchanged otherwise, and likewise its `cds_count` for a cds; every
other entry the window held when the parent was looked up is unchanged; and
when `y` is below transcript rank the last line written is its linking line,
with the key of the parent, the key of `y`, and as ordinal the `cds_count`
(for a cds) or `exon_count` (otherwise) of the parent after this update. -/
theorem parent_counters_and_ordinal (uninit : Nat → Nat) (features : List gff_feature)
    (y parent : gff_feature) (i : Nat) (hne : y.feature ≠ "region")
    (hidx : (at_lookup (resolve_loop uninit initial_state features) y).1.current_parents.get_parent_index
      y = some i)
    (hpar : (at_lookup (resolve_loop uninit initial_state features) y).1.current_parents.deref
      i y.parent = some parent) :
    ∃ p2 : gff_feature,
      (step uninit (resolve_loop uninit initial_state features) y).current_parents.deref i
          y.parent = some p2 ∧
        (y.strand = '+' → p2.child_count = parent.child_count + 1) ∧
        (y.strand = '-' → p2.child_count = parent.child_count - 1) ∧
        (y.feature = "exon" →
          p2.exon_count - parent.exon_count = p2.child_count - parent.child_count) ∧
        (y.feature ≠ "exon" → p2.exon_count = parent.exon_count) ∧
        (y.feature = "cds" →
          p2.cds_count - parent.cds_count = p2.child_count - parent.child_count) ∧
        (y.feature ≠ "cds" → p2.cds_count = parent.cds_count) ∧
        (∀ (j : Nat) (key : String) (e : gff_feature), ¬ (j = i ∧ key = y.parent) →
          (at_lookup (resolve_loop uninit initial_state features) y).1.current_parents.deref
            j key = some e →
          (step uninit (resolve_loop uninit initial_state features) y).current_parents.deref
            j key = some e) ∧
        (y.feature_rank < 3 →
          ∃ front : List output,
            (step uninit (resolve_loop uninit initial_state features) y).written =
              front ++
                [if y.feature = "cds" then
                  output.tr_cds parent.db_id
                    (step_full uninit (resolve_loop uninit initial_state features) y).2.db_id
                    p2.cds_count y.id
                 else
                  output.tr_exon parent.db_id
                    (step_full uninit (resolve_loop uninit initial_state features) y).2.db_id
                    p2.exon_count y.id]) := by
  have hs := resolve_loop_sorted uninit features initial_state (mk_empty_sorted 3)
  obtain ⟨p2, h1, h2, h3, h4, _, h6, h7⟩ :=
    step_parent_entry uninit (resolve_loop uninit initial_state features) y parent i hs hne hidx
      hpar
  obtain ⟨c1, c2, c3⟩ := count_child_counts y parent
  rw [c1] at h2
  rw [c2] at h3
  rw [c3] at h4
  refine ⟨p2, h1, ?_, ?_, ?_, ?_, ?_, ?_, h6, ?_⟩
  · intro h
    rw [h2, if_pos h]
  · intro h
    have hn : y.strand ≠ '+' := by rw [h]; decide
    rw [h2, if_neg hn]
    rfl
  · intro h
    rw [h3, h2, if_pos h]
    omega
  · intro h
    rw [h3, if_neg h]
    omega
  · intro h
    rw [h4, h2, if_pos h]
    omega
  · intro h
    rw [h4, if_neg h]
    omega
  · intro hr
    obtain ⟨front, hf⟩ := h7 hr
    refine ⟨front, ?_⟩
    rw [hf, h3, h4, c2, c3]


/-- Witness for C19: after the gene `g1` and the transcript `t1`, the exon `e1`
of `t1` (strand `+`) finds the entry of `t1` in bucket 0; after the iteration
the entry has one child and one exon more, and the linking line of `e1` carries
the new exon count. -/
theorem parent_counters_and_ordinal_witness :
    ∃ p2 : gff_feature,
      (step (fun _ => 0) (resolve_loop (fun _ => 0) initial_state [gene_g1, mrna_t1])
          exon_of_t1).current_parents.deref 0 exon_of_t1.parent = some p2 ∧
        p2.child_count = mrna_t1_entry.child_count + 1 ∧
        p2.exon_count - mrna_t1_entry.exon_count =
          p2.child_count - mrna_t1_entry.child_count ∧
        p2.cds_count = mrna_t1_entry.cds_count ∧
        ∃ front : List output,
          (step (fun _ => 0) (resolve_loop (fun _ => 0) initial_state [gene_g1, mrna_t1])
              exon_of_t1).written =
            front ++
              [if exon_of_t1.feature = "cds" then
                output.tr_cds mrna_t1_entry.db_id
                  (step_full (fun _ => 0)
                    (resolve_loop (fun _ => 0) initial_state [gene_g1, mrna_t1])
                    exon_of_t1).2.db_id
                  p2.cds_count exon_of_t1.id
               else
                output.tr_exon mrna_t1_entry.db_id
                  (step_full (fun _ => 0)
                    (resolve_loop (fun _ => 0) initial_state [gene_g1, mrna_t1])
                    exon_of_t1).2.db_id
                  p2.exon_count exon_of_t1.id] := by
  obtain ⟨p2, h1, h2, _, h4, _, _, h7, _, h9⟩ :=
    parent_counters_and_ordinal (fun _ => 0) [gene_g1, mrna_t1] exon_of_t1 mrna_t1_entry 0
      (by decide) (by decide) (by decide)
  exact ⟨p2, h1, h2 (by decide), h4 (by decide), h7 (by decide), h9 (by decide)⟩

/-! ## Transcripts made up for the children of a gene -/

theorem add_annotation_identity (self feat : gff_feature) (fields : List (Int × String)) :
    (gff_feature.add_annotation self feat fields).feature = self.feature ∧
      (gff_feature.add_annotation self feat fields).seqname = self.seqname ∧
      (gff_feature.add_annotation self feat fields).id = self.id := by
  induction fields generalizing self with
  | nil => exact ⟨rfl, rfl, rfl⟩
  | cons x rest ih =>
    obtain ⟨idx, name⟩ := x
    simp only [gff_feature.add_annotation]
    split
    · exact ih _
    · exact ih _

theorem count_child_identity (y parent : gff_feature) :
    (count_child y parent).feature = parent.feature ∧
      (count_child y parent).seqname = parent.seqname ∧
      (count_child y parent).id = parent.id := by
  unfold count_child
  simp only
  refine ⟨?_, ?_, ?_⟩ <;> split <;> split <;> rfl

theorem mem_map_modify {α : Type} (g : α → α) (b : List (String × α)) (k : String)
    (e : String × α) (he : e ∈ map_modify g b k) :
    ∃ v : α, (e.1, v) ∈ b ∧ (e.2 = v ∨ e.2 = g v) := by
  induction b with
  | nil => simp [map_modify] at he
  | cons x rest ih =>
    obtain ⟨k1, v1⟩ := x
    simp only [map_modify] at he
    split at he
    · rcases List.mem_cons.mp he with h | h
      · exact ⟨v1, by rw [h]; exact List.mem_cons_self _ _, Or.inr (by rw [h])⟩
      · exact ⟨e.2, List.mem_cons_of_mem _ h, Or.inl rfl⟩
    · rcases List.mem_cons.mp he with h | h
      · exact ⟨v1, by rw [h]; exact List.mem_cons_self _ _, Or.inl (by rw [h])⟩
      · obtain ⟨v, hv, hor⟩ := ih h
        exact ⟨v, List.mem_cons_of_mem _ hv, hor⟩

theorem mk_empty_keyed (n : Int) : window_keyed (gff_parent_collection.mk_empty n) := by
  intro i e he
  have hb := mem_getD_of_ne_nil _ i e he
  simp only [gff_parent_collection.mk_empty] at hb he
  rw [List.eq_of_mem_replicate hb] at he
  simp at he

theorem insert_parent_keyed (w : gff_parent_collection) (f : gff_feature)
    (hk : window_keyed w) : window_keyed (w.insert_parent f) := by
  intro i e he
  rcases mem_insert_parent w f i e he with h | h
  · exact hk i e h
  · rw [h]

theorem prune_parents_keyed (w : gff_parent_collection) (f : gff_feature)
    (hk : window_keyed w) : window_keyed (w.prune_parents f).1 := by
  intro i e he
  rw [prune_parents_bucket] at he
  exact hk i e (List.mem_filter.mp he).1

theorem write_through_keyed (w : gff_parent_collection) (i : Nat) (k : String)
    (g : gff_feature → gff_feature)
    (hg : ∀ f : gff_feature, (g f).feature = f.feature ∧ (g f).seqname = f.seqname ∧
      (g f).id = f.id)
    (hk : window_keyed w) : window_keyed (w.write_through i k g) := by
  intro j e he
  unfold gff_parent_collection.write_through at he
  simp only at he
  by_cases hj : j = i
  · subst hj
    rw [modify_at_getD_same _ rfl] at he
    obtain ⟨v, hv, hor⟩ := mem_map_modify g _ k e he
    have h0 := hk j (e.1, v) hv
    simp only at h0
    rcases hor with h | h
    · rw [h]
      exact h0
    · obtain ⟨g1, g2, g3⟩ := hg v
      rw [h, g1, g2, g3]
      exact h0
  · rw [modify_at_getD_ne _ _ _ _ hj] at he
    exact hk j e he

theorem at_lookup_keyed (s : loop_state) (y : gff_feature)
    (hk : window_keyed s.current_parents) :
    window_keyed (at_lookup s y).1.current_parents := by
  unfold at_lookup resolve_region pruned
  simp only
  split
  · exact insert_parent_keyed _ _ (prune_parents_keyed _ _ hk)
  · exact prune_parents_keyed _ _ hk

theorem synthesize_rna_keyed (uninit : Nat → Nat) (s : loop_state) (feat parent : gff_feature)
    (region_id : Nat) (hk : window_keyed s.current_parents) :
    window_keyed (synthesize_rna uninit s feat parent region_id).1.current_parents := by
  unfold synthesize_rna
  split
  · exact insert_parent_keyed _ _ hk
  · exact hk

theorem assign_key_keyed (s : loop_state) (feat : gff_feature) (repeated : Bool)
    (region_id : Nat) (hk : window_keyed s.current_parents) :
    window_keyed (assign_key s feat repeated region_id).1.current_parents := by
  unfold assign_key
  split
  · simp only
    split
    · exact insert_parent_keyed _ _ hk
    · exact hk
  · exact hk

theorem link_rows_keyed (s : loop_state) (i : Nat) (feat : gff_feature)
    (hk : window_keyed s.current_parents) :
    window_keyed (link_rows s i feat).current_parents := by
  unfold link_rows
  split
  · split
    · exact hk
    · exact write_through_keyed _ _ _ _ (fun f => add_annotation_identity f feat _) hk
  · exact hk

theorem step_keyed (uninit : Nat → Nat) (s : loop_state) (y : gff_feature)
    (hk : window_keyed s.current_parents) :
    window_keyed (step uninit s y).current_parents := by
  have hW := at_lookup_keyed s y hk
  unfold step step_full
  simp only
  split
  · unfold region_record pruned
    exact insert_parent_keyed _ _ (prune_parents_keyed _ _ hk)
  · split
    · split
      · exact hW
      · exact assign_key_keyed _ _ _ _ hW
    · split
      · exact hW
      · apply link_rows_keyed
        apply assign_key_keyed
        apply write_through_keyed _ _ _ _ (fun f => count_child_identity _ f)
        exact synthesize_rna_keyed _ _ _ _ _ hW

theorem resolve_loop_keyed (uninit : Nat → Nat) (features : List gff_feature)
    (s : loop_state) (hk : window_keyed s.current_parents) :
    window_keyed (resolve_loop uninit s features).current_parents := by
  induction features generalizing s with
  | nil => exact hk
  | cons y rest ih => exact ih _ (step_keyed uninit s y hk)

/-- The entry `get_parent` returns is stored under the parent label of the
child, which in a window filed by `insert_parent` is the entry's own key. -/
theorem get_parent_own_key (w : gff_parent_collection) (hk : window_keyed w)
    (y p : gff_feature) (h : w.get_parent y = some p) :
    (if p.feature = "region" then p.seqname else p.id) = y.parent := by
  obtain ⟨i, _, hpar⟩ := get_parent_some w y p h
  have hm := map_find_mem _ _ _ hpar
  exact (hk i (y.parent, p) hm).symm


theorem insert_parent_shape (w : gff_parent_collection) (f : gff_feature) :
    (w.insert_parent f).v_offset = w.v_offset ∧
      (w.insert_parent f).parents.length = w.parents.length := by
  unfold gff_parent_collection.insert_parent
  simp only
  split
  · exact ⟨rfl, rfl⟩
  · exact ⟨rfl, modify_at_length _ _ _⟩

theorem prune_parents_shape (w : gff_parent_collection) (f : gff_feature) :
    (w.prune_parents f).1.v_offset = w.v_offset ∧
      (w.prune_parents f).1.parents.length = w.parents.length := by
  simp only [gff_parent_collection.prune_parents, prune_buckets_fst, List.length_map, and_self]

theorem write_through_shape (w : gff_parent_collection) (i : Nat) (k : String)
    (g : gff_feature → gff_feature) :
    (w.write_through i k g).v_offset = w.v_offset ∧
      (w.write_through i k g).parents.length = w.parents.length :=
  ⟨rfl, modify_at_length _ _ _⟩

theorem at_lookup_shape (s : loop_state) (y : gff_feature) :
    (at_lookup s y).1.current_parents.v_offset = s.current_parents.v_offset ∧
      (at_lookup s y).1.current_parents.parents.length = s.current_parents.parents.length := by
  unfold at_lookup resolve_region pruned
  simp only
  split
  · simp only
    rw [(insert_parent_shape _ _).1, (insert_parent_shape _ _).2, (prune_parents_shape _ _).1,
      (prune_parents_shape _ _).2]
    exact ⟨rfl, rfl⟩
  · exact prune_parents_shape _ _

theorem synthesize_rna_shape (uninit : Nat → Nat) (s : loop_state) (feat parent : gff_feature)
    (region_id : Nat) :
    (synthesize_rna uninit s feat parent region_id).1.current_parents.v_offset =
        s.current_parents.v_offset ∧
      (synthesize_rna uninit s feat parent region_id).1.current_parents.parents.length =
        s.current_parents.parents.length := by
  unfold synthesize_rna
  split
  · exact insert_parent_shape _ _
  · exact ⟨rfl, rfl⟩

theorem assign_key_shape (s : loop_state) (feat : gff_feature) (repeated : Bool)
    (region_id : Nat) :
    (assign_key s feat repeated region_id).1.current_parents.v_offset =
        s.current_parents.v_offset ∧
      (assign_key s feat repeated region_id).1.current_parents.parents.length =
        s.current_parents.parents.length := by
  unfold assign_key
  split
  · simp only
    split
    · exact insert_parent_shape _ _
    · exact ⟨rfl, rfl⟩
  · exact ⟨rfl, rfl⟩

theorem link_rows_shape (s : loop_state) (i : Nat) (feat : gff_feature) :
    (link_rows s i feat).current_parents.v_offset = s.current_parents.v_offset ∧
      (link_rows s i feat).current_parents.parents.length =
        s.current_parents.parents.length := by
  unfold link_rows
  split
  · split
    · exact ⟨rfl, rfl⟩
    · exact write_through_shape _ _ _ _
  · exact ⟨rfl, rfl⟩

theorem step_shape (uninit : Nat → Nat) (s : loop_state) (y : gff_feature) :
    (step uninit s y).current_parents.v_offset = s.current_parents.v_offset ∧
      (step uninit s y).current_parents.parents.length = s.current_parents.parents.length := by
  have hW := at_lookup_shape s y
  unfold step step_full
  simp only
  split
  · unfold region_record pruned
    simp only
    rw [(insert_parent_shape _ _).1, (insert_parent_shape _ _).2, (prune_parents_shape _ _).1,
      (prune_parents_shape _ _).2]
    exact ⟨rfl, rfl⟩
  · split
    · split
      · exact hW
      · rw [(assign_key_shape _ _ _ _).1, (assign_key_shape _ _ _ _).2]
        exact hW
    · split
      · exact hW
      · rw [(link_rows_shape _ _ _).1, (link_rows_shape _ _ _).2, (assign_key_shape _ _ _ _).1,
          (assign_key_shape _ _ _ _).2]
        simp only
        rw [(write_through_shape _ _ _ _).1, (write_through_shape _ _ _ _).2,
          (synthesize_rna_shape _ _ _ _ _).1, (synthesize_rna_shape _ _ _ _ _).2]
        exact hW

theorem resolve_loop_shape (uninit : Nat → Nat) (features : List gff_feature)
    (s : loop_state) :
    (resolve_loop uninit s features).current_parents.v_offset = s.current_parents.v_offset ∧
      (resolve_loop uninit s features).current_parents.parents.length =
        s.current_parents.parents.length := by
  induction features generalizing s with
  | nil => exact ⟨rfl, rfl⟩
  | cons y rest ih =>
    have h1 := ih (step uninit s y)
    have h2 := step_shape uninit s y
    exact ⟨h1.1.trans h2.1, h1.2.trans h2.2⟩


/-- Rows of the transcript table for a run of exon and cds records that each
find a gene: one made-up transcript per record, with the next keys of the
transcript counter. -/
theorem gene_children_rows (uninit : Nat → Nat) (ys : List gff_feature) (s : loop_state)
    (h : resolve_to_gene uninit s ys = true) :
    (resolve_loop uninit s ys).db_ids 3 = s.db_ids 3 + ys.length ∧
      ∃ rows : List feature_row,
        table_rows 3 (resolve_loop uninit s ys).written = table_rows 3 s.written ++ rows ∧
          rows.map (fun r => r.db_id) =
            (List.range ys.length).map (fun m => s.db_ids 3 + m + 1) ∧
          rows.map (fun r => (r.feature, r.id, r.seqname, r.f_start, r.f_end, r.strand)) =
            ys.map (fun y => ("rna", "", y.seqname, y.f_start, y.f_end, y.strand)) := by
  induction ys generalizing s with
  | nil => exact ⟨rfl, [], by simp [resolve_loop], rfl, rfl⟩
  | cons y rest ih =>
    simp only [resolve_to_gene, Bool.and_eq_true, decide_eq_true_eq] at h
    obtain ⟨⟨⟨hfeat, hr⟩, hp⟩, hrest⟩ := h
    cases hget : (at_lookup s y).1.current_parents.get_parent y with
    | none => simp [hget] at hp
    | some p =>
      simp only [hget, decide_eq_true_eq, f_rank_gene] at hp
      have hne : y.feature ≠ "region" := by
        rcases hfeat with h | h <;> rw [h] <;> decide
      obtain ⟨i, hidx, hpar⟩ := get_parent_some _ _ _ hget
      obtain ⟨_, _, hdb3, _, _⟩ := step_child uninit s y p i hne hr hidx hpar
      obtain ⟨_, _, hrna⟩ :=
        step_child_rows uninit s y p (decide (y.feature = "cds")) (by simp) hne hr hget
      simp only [hp, if_true] at hdb3 hrna
      obtain ⟨hcount, rows, hrows, hkeys, hcoords⟩ := ih (step uninit s y) hrest
      have hloop : resolve_loop uninit s (y :: rest) =
          resolve_loop uninit (step uninit s y) rest := rfl
      rw [hloop]
      refine ⟨?_, print_feature (gff_feature.from_src (uninit (s.db_ids 3 + 1)) (s.db_ids 3 + 1)
        "rna" 3 { y with parent_id := p.db_id }) (at_lookup s y).2 :: rows, ?_, ?_, ?_⟩
      · rw [hcount, hdb3, List.length_cons]
        omega
      · rw [hrows, hrna, List.append_assoc]
        rfl
      · rw [List.map_cons, hkeys, hdb3, List.length_cons, List.range_succ_eq_map, List.map_cons,
          List.map_map]
        simp only [print_feature, gff_feature.from_src, List.cons.injEq, true_and]
        apply List.map_congr_left
        intro m _
        simp only [Function.comp]
        omega
      · rw [List.map_cons, hcoords, List.map_cons]
        rfl

/-- The window after the iteration for a record below transcript rank whose
parent is found: apart from the parent, every place holds what it held after
the transcript synthesis. -/
theorem step_window_low_rank (uninit : Nat → Nat) (s : loop_state) (y parent : gff_feature)
    (i : Nat) (hne : y.feature ≠ "region") (hr : y.feature_rank < 3)
    (hidx : (at_lookup s y).1.current_parents.get_parent_index y = some i)
    (hpar : (at_lookup s y).1.current_parents.deref i y.parent = some parent)
    (j : Nat) (key : String) (hjk : ¬ (j = i ∧ key = y.parent)) :
    (step uninit s y).current_parents.deref j key =
      (synthesize_rna uninit (at_lookup s y).1 { y with parent_id := parent.db_id } parent
        (at_lookup s y).2).1.current_parents.deref j key := by
  have fsy := synthesize_rna_facts uninit (at_lookup s y).1 { y with parent_id := parent.db_id }
    parent (at_lookup s y).2 hr
  obtain ⟨sy, hsy⟩ : ∃ sy, synthesize_rna uninit (at_lookup s y).1
      { y with parent_id := parent.db_id } parent (at_lookup s y).2 = sy := ⟨_, rfl⟩
  rw [hsy] at fsy ⊢
  obtain ⟨_, _, _, hsy2, _⟩ := fsy
  have hr2 : sy.2.feature_rank < 3 := by rw [hsy2]; exact hr
  have hp2 : sy.2.parent = y.parent := by rw [hsy2]
  have fak := assign_key_facts
    { sy.1 with
        current_parents := sy.1.current_parents.write_through i y.parent (count_child sy.2) }
    sy.2 (is_repeated s.last_feature y) (at_lookup s y).2 hr2
  obtain ⟨ak, hak⟩ : ∃ ak, assign_key
      { sy.1 with
          current_parents := sy.1.current_parents.write_through i y.parent (count_child sy.2) }
      sy.2 (is_repeated s.last_feature y) (at_lookup s y).2 = ak := ⟨_, rfl⟩
  rw [hak] at fak
  obtain ⟨_, hakw, _, _, hak2⟩ := fak
  have hr3 : ak.2.feature_rank < 3 := by rw [hak2]; exact hr2
  have hp3 : ak.2.parent = y.parent := by rw [hak2]; exact hp2
  have hstep : step uninit s y = link_rows ak.1 i ak.2 := by
    unfold step step_full
    simp only [hne, if_false, hidx, hpar, hsy, hak]
  rw [hstep]
  have hlink : (link_rows ak.1 i ak.2).current_parents.deref j key =
      ak.1.current_parents.deref j key := by
    unfold link_rows
    simp only [hr3, if_true]
    split
    · rfl
    · simp only
      rw [deref_write_through, hp3]
      simp only [hjk, if_false]
  rw [hlink, hakw]
  simp only
  rw [deref_write_through]
  simp only [hjk, if_false]

theorem add_annotation_rank (self feat : gff_feature) (fields : List (Int × String)) :
    (gff_feature.add_annotation self feat fields).feature_rank = self.feature_rank := by
  induction fields generalizing self with
  | nil => rfl
  | cons x rest ih =>
    obtain ⟨idx, name⟩ := x
    simp only [gff_feature.add_annotation]
    split
    · exact ih _
    · exact ih _

theorem count_child_rank (y parent : gff_feature) :
    (count_child y parent).feature_rank = parent.feature_rank := by
  unfold count_child
  simp only
  split <;> split <;> rfl

theorem mk_empty_ranked : window_ranked (gff_parent_collection.mk_empty 3) := by
  refine ⟨rfl, ?_⟩
  intro i e he
  exact absurd he (by
    have hb := mem_getD_of_ne_nil _ i e he
    simp only [gff_parent_collection.mk_empty] at hb he
    rw [List.eq_of_mem_replicate hb] at he
    simp at he)

theorem insert_parent_ranked (w : gff_parent_collection) (f : gff_feature)
    (hk : window_ranked w) : window_ranked (w.insert_parent f) := by
  obtain ⟨hv, hb⟩ := hk
  refine ⟨(insert_parent_shape w f).1.trans hv, ?_⟩
  unfold gff_parent_collection.insert_parent
  simp only
  split
  · exact hb
  · rename_i hcond
    intro i e he
    simp only at he
    by_cases hi : i = (f.feature_rank - w.v_offset).toNat
    · subst hi
      rw [modify_at_getD_self _ _ _ (by omega)] at he
      rcases mem_map_insert _ _ _ _ he with h | h
      · exact hb _ e h
      · subst h
        simp only
        rw [hv] at hcond ⊢
        omega
    · rw [modify_at_getD_ne _ _ _ _ hi] at he
      exact hb i e he

theorem prune_parents_ranked (w : gff_parent_collection) (f : gff_feature)
    (hk : window_ranked w) : window_ranked (w.prune_parents f).1 := by
  refine ⟨(prune_parents_shape w f).1.trans hk.1, ?_⟩
  intro i e he
  rw [prune_parents_bucket] at he
  exact hk.2 i e (List.mem_filter.mp he).1

theorem write_through_ranked (w : gff_parent_collection) (i : Nat) (k : String)
    (g : gff_feature → gff_feature)
    (hg : ∀ f : gff_feature, (g f).feature_rank = f.feature_rank)
    (hk : window_ranked w) : window_ranked (w.write_through i k g) := by
  refine ⟨hk.1, ?_⟩
  intro j e he
  unfold gff_parent_collection.write_through at he
  simp only at he
  by_cases hj : j = i
  · subst hj
    rw [modify_at_getD_same _ rfl] at he
    obtain ⟨v, hv, hor⟩ := mem_map_modify g _ k e he
    have h0 := hk.2 j (e.1, v) hv
    simp only at h0
    rcases hor with h | h
    · rw [h]
      exact h0
    · rw [h, hg v]
      exact h0
  · rw [modify_at_getD_ne _ _ _ _ hj] at he
    exact hk.2 j e he

theorem at_lookup_ranked (s : loop_state) (y : gff_feature)
    (hk : window_ranked s.current_parents) :
    window_ranked (at_lookup s y).1.current_parents := by
  unfold at_lookup resolve_region pruned
  simp only
  split
  · exact insert_parent_ranked _ _ (prune_parents_ranked _ _ hk)
  · exact prune_parents_ranked _ _ hk

theorem synthesize_rna_ranked (uninit : Nat → Nat) (s : loop_state) (feat parent : gff_feature)
    (region_id : Nat) (hk : window_ranked s.current_parents) :
    window_ranked (synthesize_rna uninit s feat parent region_id).1.current_parents := by
  unfold synthesize_rna
  split
  · exact insert_parent_ranked _ _ hk
  · exact hk

theorem assign_key_ranked (s : loop_state) (feat : gff_feature) (repeated : Bool)
    (region_id : Nat) (hk : window_ranked s.current_parents) :
    window_ranked (assign_key s feat repeated region_id).1.current_parents := by
  unfold assign_key
  split
  · simp only
    split
    · exact insert_parent_ranked _ _ hk
    · exact hk
  · exact hk

theorem link_rows_ranked (s : loop_state) (i : Nat) (feat : gff_feature)
    (hk : window_ranked s.current_parents) :
    window_ranked (link_rows s i feat).current_parents := by
  unfold link_rows
  split
  · split
    · exact hk
    · exact write_through_ranked _ _ _ _ (fun f => add_annotation_rank f feat _) hk
  · exact hk

theorem step_ranked (uninit : Nat → Nat) (s : loop_state) (y : gff_feature)
    (hk : window_ranked s.current_parents) :
    window_ranked (step uninit s y).current_parents := by
  have hW := at_lookup_ranked s y hk
  unfold step step_full
  simp only
  split
  · unfold region_record pruned
    exact insert_parent_ranked _ _ (prune_parents_ranked _ _ hk)
  · split
    · split
      · exact hW
      · exact assign_key_ranked _ _ _ _ hW
    · split
      · exact hW
      · apply link_rows_ranked
        apply assign_key_ranked
        apply write_through_ranked _ _ _ _ (fun f => count_child_rank _ f)
        exact synthesize_rna_ranked _ _ _ _ _ hW

theorem resolve_loop_ranked (uninit : Nat → Nat) (features : List gff_feature)
    (s : loop_state) (hk : window_ranked s.current_parents) :
    window_ranked (resolve_loop uninit s features).current_parents := by
  induction features generalizing s with
  | nil => exact hk
  | cons y rest ih => exact ih _ (step_ranked uninit s y hk)

theorem bump_le (db_ids : Int → Nat) (k r : Int) : db_ids r ≤ bump db_ids k r := by
  unfold bump
  split <;> omega

/-- No key counter decreases in an iteration of the main loop. -/
theorem step_counter_mono (uninit : Nat → Nat) (s : loop_state) (y : gff_feature) (r : Int) :
    s.db_ids r ≤ (step uninit s y).db_ids r := by
  have hW : s.db_ids r ≤ (at_lookup s y).1.db_ids r := by
    unfold at_lookup resolve_region pruned
    simp only
    split
    · exact bump_le _ _ _
    · exact Nat.le_refl _
  have hak : ∀ (t : loop_state) (feat : gff_feature) (rep : Bool) (rid : Nat),
      t.db_ids r ≤ (assign_key t feat rep rid).1.db_ids r := by
    intro t feat rep rid
    unfold assign_key
    split
    · exact bump_le _ _ _
    · exact Nat.le_refl _
  have hsy : ∀ (t : loop_state) (feat parent : gff_feature) (rid : Nat),
      t.db_ids r ≤ (synthesize_rna uninit t feat parent rid).1.db_ids r := by
    intro t feat parent rid
    unfold synthesize_rna
    split
    · exact bump_le _ _ _
    · exact Nat.le_refl _
  have hlk : ∀ (t : loop_state) (i : Nat) (feat : gff_feature),
      (link_rows t i feat).db_ids r = t.db_ids r := by
    intro t i feat
    unfold link_rows
    split
    · split <;> rfl
    · rfl
  unfold step step_full
  simp only
  split
  · unfold region_record pruned
    exact bump_le _ _ _
  · split
    · split
      · exact hW
      · exact Nat.le_trans hW (hak _ _ _ _)
    · split
      · exact hW
      · rw [hlk]
        apply Nat.le_trans _ (hak _ _ _ _)
        exact Nat.le_trans hW (hsy _ _ _ _)

theorem resolve_loop_counter_mono (uninit : Nat → Nat) (features : List gff_feature)
    (s : loop_state) (r : Int) : s.db_ids r ≤ (resolve_loop uninit s features).db_ids r := by
  induction features generalizing s with
  | nil => exact Nat.le_refl _
  | cons y rest ih => exact Nat.le_trans (step_counter_mono uninit s y r) (ih _)


/-- The place of a made-up transcript in the window: bucket 0, the empty key.
An entry that is there stays, otherwise the transcript is stored. -/
theorem synthesized_rna_filed (uninit : Nat → Nat) (s : loop_state) (y p : gff_feature)
    (hrk : window_ranked s.current_parents) (hl : s.current_parents.parents.length = 3)
    (hs : window_sorted s.current_parents)
    (hne : y.feature ≠ "region") (hr : y.feature_rank < 3)
    (hget : (at_lookup s y).1.current_parents.get_parent y = some p)
    (hg : p.feature_rank = 4) :
    (∀ e : gff_feature, (at_lookup s y).1.current_parents.deref 0 "" = some e →
        (step uninit s y).current_parents.deref 0 "" = some e) ∧
      ((at_lookup s y).1.current_parents.deref 0 "" = none →
        (step uninit s y).current_parents.deref 0 "" =
          some (gff_feature.from_src (uninit (s.db_ids 3 + 1)) (s.db_ids 3 + 1) "rna" 3 y)) := by
  obtain ⟨i, hidx, hpar⟩ := get_parent_some _ _ _ hget
  have hrk2 := at_lookup_ranked s y hrk
  have hi : (i : Int) + 3 = 4 := by
    have hm := map_find_mem _ _ _ hpar
    have := hrk2.2 i (y.parent, p) hm
    simp only at this
    rw [← this]
    exact hg
  have hjk : ¬ (0 = i ∧ "" = y.parent) := by
    intro h
    omega
  have hwin := step_window_low_rank uninit s y p i hne hr hidx hpar 0 "" hjk
  obtain ⟨_, _, hdb⟩ := at_lookup_facts s y
  have hv2 := hrk2.1
  have hl2 := (at_lookup_shape s y).2.trans hl
  have hsort := at_lookup_sorted s y hs
  have hsyn : (synthesize_rna uninit (at_lookup s y).1 { y with parent_id := p.db_id } p
      (at_lookup s y).2).1.current_parents =
      (at_lookup s y).1.current_parents.insert_parent
        (gff_feature.from_src (uninit (s.db_ids 3 + 1)) (s.db_ids 3 + 1) "rna" 3 y) := by
    unfold synthesize_rna
    have hc : y.feature_rank < 3 ∧ p.feature_rank = f_rank "gene" := ⟨hr, by rw [hg, f_rank_gene]⟩
    simp only [hc, and_self, if_true, f_rank_rna, bump, hdb 3 (by decide)]
    rfl
  rw [hwin, hsyn]
  constructor
  · intro e he
    exact deref_insert_parent_some _ _ hsort 0 "" e he
  · intro hnone
    unfold gff_parent_collection.insert_parent gff_parent_collection.deref
    unfold gff_parent_collection.deref at hnone
    have hcond : ¬ ((3 : Int) - 3 < 0 ∨ (3 : Int) - 3 ≥ ((3 : Nat) : Int)) := by decide
    simp only [gff_feature.from_src, hv2, hl2, hcond, if_false]
    have h0 : ((3 : Int) - 3).toNat = 0 := by decide
    rw [h0, modify_at_getD_self _ _ _ (by omega)]
    have hrna : ("rna" = "region") = False := by decide
    simp only [hrna, if_false]
    exact map_find_insert_absent _ _ _ hnone

/-- The row of the transcript made up for one exon or cds that finds a gene. -/
theorem gene_child_row (uninit : Nat → Nat) (s : loop_state) (y : gff_feature)
    (h : resolve_to_gene uninit s [y] = true) :
    (step uninit s y).db_ids 3 = s.db_ids 3 + 1 ∧
      ∃ r : feature_row,
        table_rows 3 (step uninit s y).written = table_rows 3 s.written ++ [r] ∧
          r.db_id = s.db_ids 3 + 1 := by
  obtain ⟨hc, rows, hrows, hkeys, _⟩ := gene_children_rows uninit [y] s h
  refine ⟨hc, ?_⟩
  have hone : (List.range [y].length).map (fun m => s.db_ids 3 + m + 1) = [s.db_ids 3 + 1] :=
    rfl
  rw [hone] at hkeys
  match rows, hrows, hkeys with
  | [], _, hkeys => exact List.noConfusion hkeys
  | [r], hrows, hkeys =>
    refine ⟨r, hrows, ?_⟩
    exact List.head_eq_of_cons_eq hkeys
  | _ :: _ :: _, _, hkeys =>
    have := List.tail_eq_of_cons_eq hkeys
    exact List.noConfusion this


/-- C21, as stated, fails: for the gene `g1` (100-500) with the exon `e1`
(150-200), the transcript `t2` (250-400) and the exon `e2` (300-350), all three
with `Parent=g1`, both exons find the live gene entry, and the two transcripts
made up for them get the keys 1 and 3; the transcript `t2` processed between
them has taken the key 2. -/
theorem synthesized_keys_not_consecutive :
    (read_features [gene_g1, exon_e1, mrna_t2, exon_e2]).map (fun r => r.id) =
        ["g1", "e1", "t2", "e2"] ∧
      ((at_lookup (resolve_loop (fun _ => 0) initial_state [gene_g1])
          exon_e1).1.current_parents.get_parent exon_e1).map (fun p => p.feature_rank) =
        some (f_rank "gene") ∧
      ((at_lookup (resolve_loop (fun _ => 0) initial_state [gene_g1, exon_e1, mrna_t2])
          exon_e2).1.current_parents.get_parent exon_e2).map (fun p => p.feature_rank) =
        some (f_rank "gene") ∧
      (table_rows (f_rank "rna")
          (main_written (fun _ => 0) [gene_g1, exon_e1, mrna_t2, exon_e2])).map
          (fun r => (r.db_id, r.feature, r.id, r.f_start, r.f_end)) =
        [(1, "rna", "", 150, 200), (2, "mrna", "t2", 250, 400), (3, "rna", "", 300, 350)] := by
  decide

/-- C21, amended.
(1) In the main loop, after any records `features`, the entry `get_parent`
returns for a record with a non-empty parent label is stored under that label,
which is the entry's own key, so it is never a made-up transcript (feature
`rna`, empty identifier).
(2) After any records `features`, in the iteration for a record below
transcript rank whose parent is of gene rank, the made-up transcript is filed
in bucket 0 under the empty key: an entry already there stays and the new
transcript is not stored, otherwise the new transcript is the entry there
afterwards.
(3) From any state, for records `ys` processed one after another, each an exon
or cds below transcript rank for which `get_parent` returns an entry of gene
rank, the transcript table gets one row per record, with the coordinates of
the record, feature `rna`, the empty identifier, and the consecutive keys
`k + 1, ..., k + n`, where `k` is the transcript counter before the first.
(4) From any state, for two such records with any records `mid` processed
between them, each gets one row in the transcript table and the row of the
later record has the larger key. -/
theorem synthesized_transcript_per_record (uninit : Nat → Nat) :
    (∀ (features : List gff_feature) (y p : gff_feature),
        (at_lookup (resolve_loop uninit initial_state features) y).1.current_parents.get_parent
            y = some p →
          y.parent ≠ "" →
          (if p.feature = "region" then p.seqname else p.id) = y.parent ∧
            ¬ (p.feature = "rna" ∧ p.id = "")) ∧
      (∀ (features : List gff_feature) (y p : gff_feature),
        y.feature ≠ "region" → y.feature_rank < 3 →
        (at_lookup (resolve_loop uninit initial_state features) y).1.current_parents.get_parent
            y = some p →
          p.feature_rank = f_rank "gene" →
          (∀ e : gff_feature,
            (at_lookup (resolve_loop uninit initial_state features) y).1.current_parents.deref
                0 "" = some e →
              (step uninit (resolve_loop uninit initial_state features) y).current_parents.deref
                0 "" = some e) ∧
            ((at_lookup (resolve_loop uninit initial_state features) y).1.current_parents.deref
                0 "" = none →
              (step uninit (resolve_loop uninit initial_state features) y).current_parents.deref
                  0 "" =
                some (gff_feature.from_src
                  (uninit ((resolve_loop uninit initial_state features).db_ids (f_rank "rna") + 1))
                  ((resolve_loop uninit initial_state features).db_ids (f_rank "rna") + 1)
                  "rna" (f_rank "rna") y))) ∧
      (∀ (s : loop_state) (ys : List gff_feature), resolve_to_gene uninit s ys = true →
        ∃ rows : List feature_row,
          table_rows (f_rank "rna") (resolve_loop uninit s ys).written =
              table_rows (f_rank "rna") s.written ++ rows ∧
            rows.map (fun r => r.db_id) =
              (List.range ys.length).map (fun m => s.db_ids (f_rank "rna") + m + 1) ∧
            rows.map (fun r => (r.feature, r.id, r.seqname, r.f_start, r.f_end, r.strand)) =
              ys.map (fun y => ("rna", "", y.seqname, y.f_start, y.f_end, y.strand))) ∧
      ∀ (s : loop_state) (y1 : gff_feature) (mid : List gff_feature) (y2 : gff_feature),
        resolve_to_gene uninit s [y1] = true →
        resolve_to_gene uninit (resolve_loop uninit (step uninit s y1) mid) [y2] = true →
        ∃ r1 r2 : feature_row,
          table_rows (f_rank "rna") (step uninit s y1).written =
              table_rows (f_rank "rna") s.written ++ [r1] ∧
            table_rows (f_rank "rna")
                (step uninit (resolve_loop uninit (step uninit s y1) mid) y2).written =
              table_rows (f_rank "rna") (resolve_loop uninit (step uninit s y1) mid).written ++
                [r2] ∧
            r1.db_id < r2.db_id := by
  refine ⟨?_, ?_, ?_, ?_⟩
  · intro features y p hget hlabel
    have hk := resolve_loop_keyed uninit features initial_state (mk_empty_keyed 3)
    have hkey := get_parent_own_key _ (at_lookup_keyed _ y hk) y p hget
    refine ⟨hkey, ?_⟩
    rintro ⟨hf, hid⟩
    have hnr : p.feature ≠ "region" := by rw [hf]; decide
    rw [if_neg hnr, hid] at hkey
    exact hlabel hkey.symm
  · intro features y p hne hr hget hg
    have hs := resolve_loop_sorted uninit features initial_state (mk_empty_sorted 3)
    have hrk := resolve_loop_ranked uninit features initial_state mk_empty_ranked
    have hsh := resolve_loop_shape uninit features initial_state
    rw [f_rank_gene] at hg
    rw [f_rank_rna]
    exact synthesized_rna_filed uninit _ y p hrk hsh.2 hs hne hr hget hg
  · intro s ys h
    rw [f_rank_rna]
    exact (gene_children_rows uninit ys s h).2
  · intro s y1 mid y2 h1 h2
    rw [f_rank_rna]
    obtain ⟨hc1, r1, hrow1, hkey1⟩ := gene_child_row uninit s y1 h1
    obtain ⟨_, r2, hrow2, hkey2⟩ :=
      gene_child_row uninit (resolve_loop uninit (step uninit s y1) mid) y2 h2
    refine ⟨r1, r2, hrow1, hrow2, ?_⟩
    have hmono := resolve_loop_counter_mono uninit mid (step uninit s y1) 3
    rw [hkey1, hkey2]
    omega

/-- Witness for C21, amended: after the gene `g1`, the exon `e1` (150-200) finds
the gene entry, stored under `g1`; bucket 0 is empty, so the transcript made up
for `e1` is the entry under the empty key afterwards; the run of the exons `e1`
and `e2` (300-350) of the gene gives two rows with the keys 1 and 2; and with
the transcript `t2` (250-400) between the two exons the row for `e2` has a key
above that of the row for `e1`. -/
theorem synthesized_transcript_per_record_witness :
    ((if gene_g1_entry.feature = "region" then gene_g1_entry.seqname else gene_g1_entry.id) =
          exon_e1.parent ∧
        ¬ (gene_g1_entry.feature = "rna" ∧ gene_g1_entry.id = "")) ∧
      (step (fun _ => 0) (resolve_loop (fun _ => 0) initial_state [gene_g1])
          exon_e1).current_parents.deref 0 "" =
        some (gff_feature.from_src 0
          ((resolve_loop (fun _ => 0) initial_state [gene_g1]).db_ids (f_rank "rna") + 1)
          "rna" (f_rank "rna") exon_e1) ∧
      (∃ rows : List feature_row,
        table_rows (f_rank "rna")
            (resolve_loop (fun _ => 0) (resolve_loop (fun _ => 0) initial_state [gene_g1])
              [exon_e1, exon_e2]).written =
          table_rows (f_rank "rna")
            (resolve_loop (fun _ => 0) initial_state [gene_g1]).written ++ rows ∧
        rows.map (fun r => r.db_id) =
          (List.range [exon_e1, exon_e2].length).map
            (fun m => (resolve_loop (fun _ => 0) initial_state [gene_g1]).db_ids (f_rank "rna") +
              m + 1) ∧
        rows.map (fun r => (r.feature, r.id, r.seqname, r.f_start, r.f_end, r.strand)) =
          [exon_e1, exon_e2].map
            (fun y => ("rna", "", y.seqname, y.f_start, y.f_end, y.strand))) ∧
      ∃ r1 r2 : feature_row,
        table_rows (f_rank "rna")
            (step (fun _ => 0) (resolve_loop (fun _ => 0) initial_state [gene_g1])
              exon_e1).written =
          table_rows (f_rank "rna")
            (resolve_loop (fun _ => 0) initial_state [gene_g1]).written ++ [r1] ∧
        table_rows (f_rank "rna")
            (step (fun _ => 0)
              (resolve_loop (fun _ => 0)
                (step (fun _ => 0) (resolve_loop (fun _ => 0) initial_state [gene_g1]) exon_e1)
                [mrna_t2])
              exon_e2).written =
          table_rows (f_rank "rna")
            (resolve_loop (fun _ => 0)
              (step (fun _ => 0) (resolve_loop (fun _ => 0) initial_state [gene_g1]) exon_e1)
              [mrna_t2]).written ++ [r2] ∧
        r1.db_id < r2.db_id :=
  ⟨(synthesized_transcript_per_record (fun _ => 0)).1 [gene_g1] exon_e1 gene_g1_entry
      (by decide) (by decide),
    ((synthesized_transcript_per_record (fun _ => 0)).2.1 [gene_g1] exon_e1 gene_g1_entry
      (by decide) (by decide) (by decide) (by decide)).2 (by decide),
    (synthesized_transcript_per_record (fun _ => 0)).2.2.1
      (resolve_loop (fun _ => 0) initial_state [gene_g1]) [exon_e1, exon_e2] (by decide),
    (synthesized_transcript_per_record (fun _ => 0)).2.2.2
      (resolve_loop (fun _ => 0) initial_state [gene_g1]) exon_e1 [mrna_t2] exon_e2
      (by decide) (by decide)⟩

end GffDb
